import Mathlib

/-!
Lightweight data-structure library: stack, queue, linked list, hash table,
max-heap.

A shallow embedding of the C sources under `src/source/` and a verification
of their documented behaviour.

Modelling conventions

* A C `double` is a value of `Dbl α`: either `Dbl.nan` or `Dbl.num a` with `a`
  taken from a type `α` of ordinary numbers.  The containers only copy and
  compare doubles; no floating-point arithmetic is performed on elements.
* A `double *` buffer of `capacity` cells is a `List (Dbl α)` of that length.
  Cells of freshly allocated memory hold an unspecified value `junk`, which is
  a parameter of every function that allocates.  A read outside the buffer
  yields `Dbl.nan` and a write outside the buffer is dropped; the invariants
  proved below show that neither happens in a reachable state.
* `size_t` counters are natural numbers.  Allocation is assumed to succeed
  and the struct pointers handed to the functions are assumed non-null,
  so the `malloc`-failure and `!ptr` branches are not modelled.
* A function returns the pair of its C return value and the state after the
  call; a `void` function returns the state only.  The linked-list functions,
  which follow pointers, return `none` when they dereference NULL or a freed
  node.
-/

set_option autoImplicit false

namespace DSLib

/-- A C `double`: the NaN sentinel or an ordinary number. -/
inductive Dbl (α : Type) where
  | nan : Dbl α
  | num : α → Dbl α
deriving DecidableEq

/-- Array read `buf[i]`. -/
def rd {α : Type} (buf : List (Dbl α)) (i : Nat) : Dbl α :=
  buf.getD i Dbl.nan

/-- Array write `buf[i] = v`. -/
def wr {α : Type} (buf : List (Dbl α)) (i : Nat) (v : Dbl α) : List (Dbl α) :=
  buf.set i v

/-- The `DEFAULT_SIZE` / `DEFAULT_CAPACITY` constant of every source file. -/
def DEFAULT_SIZE : Nat := 100

/-! ## Queue (`queue.c`) -/

/-- The `struct Queue`. -/
structure Queue (α : Type) where
  data : List (Dbl α)
  head : Nat
  tail : Nat
  capacity : Nat
  size : Nat

/-- The function `q_create`: an empty queue of default capacity. -/
def q_create {α : Type} (junk : Dbl α) : Queue α :=
  { data := List.replicate DEFAULT_SIZE junk
    head := 0
    tail := 0
    capacity := DEFAULT_SIZE
    size := 0 }

/-- The copy loop of `q_resize`: `buffer[i] = data[(head + i) % old_capacity]`
for `i = 0 .. size - 1`. -/
def q_resize_copy {α : Type} (q : Queue α) (old_capacity : Nat)
    (buffer : List (Dbl α)) : List (Dbl α) :=
  (List.range q.size).foldl
    (fun b i => wr b i (rd q.data ((q.head + i) % old_capacity))) buffer

/-- The function `q_resize`: doubles the capacity and realigns the elements
to start at index 0 of the new buffer. -/
def q_resize {α : Type} (junk : Dbl α) (q : Queue α) : Int × Queue α :=
  let old_capacity := q.capacity
  let new_capacity := q.capacity * 2
  let buffer := q_resize_copy q old_capacity (List.replicate new_capacity junk)
  (0, { data := buffer
        head := 0
        tail := q.size
        capacity := new_capacity
        size := q.size })

/-- The tail of `q_enqueue` after the resize check: store at `tail`,
advance `tail` modulo the capacity, increment `size`. -/
def q_enqueue_store {α : Type} (q : Queue α) (value : Dbl α) : Int × Queue α :=
  (0, { q with
        data := wr q.data q.tail value
        tail := (q.tail + 1) % q.capacity
        size := q.size + 1 })

/-- The function `q_enqueue`. -/
def q_enqueue {α : Type} (junk : Dbl α) (q : Queue α) (value : Dbl α) :
    Int × Queue α :=
  if q.size = q.capacity then
    let r := q_resize junk q
    if r.1 ≠ 0 then (-1, r.2) else q_enqueue_store r.2 value
  else q_enqueue_store q value

/-- The function `q_dequeue`: NaN on an empty queue, else the element at
`head`, advancing `head` modulo the capacity. -/
def q_dequeue {α : Type} (q : Queue α) : Dbl α × Queue α :=
  if q.size = 0 then (Dbl.nan, q)
  else
    (rd q.data q.head,
      { q with head := (q.head + 1) % q.capacity, size := q.size - 1 })

/-- The function `q_peek`. -/
def q_peek {α : Type} (q : Queue α) : Dbl α × Queue α :=
  if q.size = 0 then (Dbl.nan, q) else (rd q.data q.head, q)

/-- Calls `q_enqueue` for each value of the list, in order. -/
def q_enqueue_all {α : Type} (junk : Dbl α) (q : Queue α) :
    List (Dbl α) → Queue α
  | [] => q
  | v :: vs => q_enqueue_all junk (q_enqueue junk q v).2 vs

/-- Calls `q_dequeue` `n` times, collecting the returned values. -/
def q_dequeue_n {α : Type} (q : Queue α) : Nat → List (Dbl α) × Queue α
  | 0 => ([], q)
  | n + 1 =>
    let r := q_dequeue q
    let rest := q_dequeue_n r.2 n
    (r.1 :: rest.1, rest.2)

/-- Logical contents of a queue, front to back (what `q_print` walks). -/
def q_contents {α : Type} (q : Queue α) : List (Dbl α) :=
  (List.range q.size).map (fun i => rd q.data ((q.head + i) % q.capacity))

/-- Circular-buffer invariant of the queue. -/
structure QInv {α : Type} (q : Queue α) : Prop where
  len : q.data.length = q.capacity
  cap_pos : 0 < q.capacity
  size_le : q.size ≤ q.capacity
  head_lt : q.head < q.capacity
  tail_eq : q.tail = (q.head + q.size) % q.capacity

/-- States reachable from `q_create` through `q_enqueue`, `q_dequeue`
and `q_peek`. -/
inductive QReach {α : Type} : Queue α → Prop where
  | create (junk : Dbl α) : QReach (q_create junk)
  | enqueue (junk : Dbl α) (q : Queue α) (v : Dbl α) :
      QReach q → QReach (q_enqueue junk q v).2
  | dequeue (q : Queue α) : QReach q → QReach (q_dequeue q).2
  | peek (q : Queue α) : QReach q → QReach (q_peek q).2

/-- A sample full queue with `head = 1`: 100 values enqueued into a fresh
queue, one dequeued, one more enqueued (stored at physical index 0). -/
def q_sample_full : Queue ℚ :=
  (q_enqueue Dbl.nan
    (q_dequeue (q_enqueue_all Dbl.nan (q_create Dbl.nan)
      (List.replicate 100 (Dbl.num 7)))).2 (Dbl.num 8)).2

/-! ## Stack (`stack.c`) -/

/-- The `struct Stack`: `top` is the index of the next free slot. -/
structure Stack (α : Type) where
  data : List (Dbl α)
  top : Nat
  capacity : Nat

/-- The library call `realloc(buf, n * sizeof(double))`: the first
`min (old length) n` cells are kept, the others are unspecified. -/
def realloc {α : Type} (junk : Dbl α) (buf : List (Dbl α)) (n : Nat) :
    List (Dbl α) :=
  buf.take n ++ List.replicate (n - buf.length) junk

/-- The function `s_create`. -/
def s_create {α : Type} (junk : Dbl α) : Stack α :=
  { data := List.replicate DEFAULT_SIZE junk
    top := 0
    capacity := DEFAULT_SIZE }

/-- The function `s_resize`: doubles the capacity using `realloc`. -/
def s_resize {α : Type} (junk : Dbl α) (s : Stack α) : Int × Stack α :=
  let new_capacity := s.capacity * 2
  let buffer := realloc junk s.data new_capacity
  (0, { s with data := buffer, capacity := new_capacity })

/-- The statement `s->data[s->top++] = value; return 0;` of `s_push`. -/
def s_push_store {α : Type} (s : Stack α) (value : Dbl α) : Int × Stack α :=
  (0, { s with data := wr s.data s.top value, top := s.top + 1 })

/-- The function `s_push`. -/
def s_push {α : Type} (junk : Dbl α) (s : Stack α) (value : Dbl α) :
    Int × Stack α :=
  if s.top ≥ s.capacity then
    let r := s_resize junk s
    if r.1 ≠ 0 then (-1, r.2) else s_push_store r.2 value
  else s_push_store s value

/-- The function `s_pop`: NaN on an empty stack, else `data[--top]`. -/
def s_pop {α : Type} (s : Stack α) : Dbl α × Stack α :=
  if s.top = 0 then (Dbl.nan, s)
  else (rd s.data (s.top - 1), { s with top := s.top - 1 })

/-- The function `s_peek`. -/
def s_peek {α : Type} (s : Stack α) : Dbl α × Stack α :=
  if s.top = 0 then (Dbl.nan, s) else (rd s.data (s.top - 1), s)

/-- Calls `s_push` for each value of the list, in order. -/
def s_push_all {α : Type} (junk : Dbl α) (s : Stack α) :
    List (Dbl α) → Stack α
  | [] => s
  | v :: vs => s_push_all junk (s_push junk s v).2 vs

/-- Calls `s_pop` `n` times, collecting the returned values. -/
def s_pop_n {α : Type} (s : Stack α) : Nat → List (Dbl α) × Stack α
  | 0 => ([], s)
  | n + 1 =>
    let r := s_pop s
    let rest := s_pop_n r.2 n
    (r.1 :: rest.1, rest.2)

/-- The live contents `data[0..top)` of a stack, bottom to top (what
`s_print` walks). -/
def s_contents {α : Type} (s : Stack α) : List (Dbl α) :=
  (List.range s.top).map (fun i => rd s.data i)

/-- States reachable from `s_create` through `s_push`, `s_pop`, `s_peek`. -/
inductive SReach {α : Type} : Stack α → Prop where
  | create (junk : Dbl α) : SReach (s_create junk)
  | push (junk : Dbl α) (s : Stack α) (v : Dbl α) :
      SReach s → SReach (s_push junk s v).2
  | pop (s : Stack α) : SReach s → SReach (s_pop s).2
  | peek (s : Stack α) : SReach s → SReach (s_peek s).2

/-- Array-bounds invariant of the stack. -/
structure SInv {α : Type} (s : Stack α) : Prop where
  len : s.data.length = s.capacity
  cap_pos : 0 < s.capacity
  top_le : s.top ≤ s.capacity

/-! ## Max-heap (`heap.c`) -/

/-- The C comparison `x > y` on doubles: false as soon as one side is NaN. -/
def Dbl.gt {α : Type} [LinearOrder α] : Dbl α → Dbl α → Bool
  | Dbl.num a, Dbl.num b => decide (b < a)
  | _, _ => false

/-- The `struct Heap`. -/
structure Heap (α : Type) where
  data : List (Dbl α)
  size : Nat
  capacity : Nat

/-- The function `h_create`. -/
def h_create {α : Type} (junk : Dbl α) : Heap α :=
  { data := List.replicate DEFAULT_SIZE junk
    size := 0
    capacity := DEFAULT_SIZE }

/-- The function `h_resize`: doubles the capacity using `realloc`. -/
def h_resize {α : Type} (junk : Dbl α) (h : Heap α) : Int × Heap α :=
  let new_capacity := h.capacity * 2
  let buffer := realloc junk h.data new_capacity
  (0, { h with data := buffer, capacity := new_capacity })

/-- The three-statement exchange `buffer = data[i]; data[i] = data[j];
data[j] = buffer`. -/
def h_swap {α : Type} (data : List (Dbl α)) (i j : Nat) : List (Dbl α) :=
  let buffer := rd data i
  let data1 := wr data i (rd data j)
  wr data1 j buffer

/-- The choice of `largest` among `i`, `left` and `right` in
`h_max_heapify`. -/
def h_largest {α : Type} [LinearOrder α] (h : Heap α) (i : Nat) : Nat :=
  let left := 2 * i + 1
  let right := 2 * i + 2
  let largest := i
  let largest :=
    if left < h.size ∧ Dbl.gt (rd h.data left) (rd h.data largest) = true
    then left else largest
  let largest :=
    if right < h.size ∧ Dbl.gt (rd h.data right) (rd h.data largest) = true
    then right else largest
  largest

/-- The function `h_max_heapify`: sifts the element at `i` down. -/
def h_max_heapify {α : Type} [LinearOrder α] (h : Heap α) (i : Nat) : Heap α :=
  if h.size = 0 then h
  else
    if _hne : h_largest h i ≠ i then
      h_max_heapify { h with data := h_swap h.data i (h_largest h i) }
        (h_largest h i)
    else h
termination_by h.size - i
decreasing_by
  simp only [h_largest] at _hne ⊢
  split_ifs at _hne ⊢ <;> omega

/-- The `while (i > 0)` loop of `h_insert`: sifts the element at `i` up. -/
def h_sift_up {α : Type} [LinearOrder α] (h : Heap α) (i : Nat) : Heap α :=
  if hi : i > 0 then
    let parent := (i - 1) / 2
    if Dbl.gt (rd h.data i) (rd h.data parent) = true then
      h_sift_up { h with data := h_swap h.data i parent } parent
    else h
  else h
termination_by i
decreasing_by omega

/-- The part of `h_insert` after the resize check: store the value at index
`size`, increment `size`, sift up. -/
def h_insert_store {α : Type} [LinearOrder α] (h : Heap α) (value : Dbl α) :
    Heap α :=
  let i := h.size
  h_sift_up { h with data := wr h.data i value, size := h.size + 1 } i

/-- The function `h_insert` (returns `void`). -/
def h_insert {α : Type} [LinearOrder α] (junk : Dbl α) (h : Heap α)
    (value : Dbl α) : Heap α :=
  if h.size ≥ h.capacity then
    let r := h_resize junk h
    if r.1 ≠ 0 then r.2 else h_insert_store r.2 value
  else h_insert_store h value

/-- The function `h_peek`. -/
def h_peek {α : Type} (h : Heap α) : Dbl α × Heap α :=
  (if h.size > 0 then rd h.data 0 else Dbl.nan, h)

/-- The function `h_pop_max`: NaN on an empty heap; otherwise the root is
saved, the last element is moved to index 0, `size` is decremented and the
new root is sifted down. -/
def h_pop_max {α : Type} [LinearOrder α] (h : Heap α) : Dbl α × Heap α :=
  if h.size = 0 then (Dbl.nan, h)
  else
    let root := rd h.data 0
    let h1 : Heap α :=
      { h with data := wr h.data 0 (rd h.data (h.size - 1)), size := h.size - 1 }
    (root, h_max_heapify h1 0)

/-- Calls `h_insert` for each value of the list, in order. -/
def h_insert_all {α : Type} [LinearOrder α] (junk : Dbl α) (h : Heap α) :
    List (Dbl α) → Heap α
  | [] => h
  | v :: vs => h_insert_all junk (h_insert junk h v) vs

/-- Calls `h_pop_max` `n` times, collecting the returned values. -/
def h_pop_n {α : Type} [LinearOrder α] (h : Heap α) :
    Nat → List (Dbl α) × Heap α
  | 0 => ([], h)
  | n + 1 =>
    let r := h_pop_max h
    let rest := h_pop_n r.2 n
    (r.1 :: rest.1, rest.2)

/-- The live cells `data[0..size)` of a heap. -/
def h_contents {α : Type} (h : Heap α) : List (Dbl α) :=
  (List.range h.size).map (fun i => rd h.data i)

/-- Max-heap order on the first `n` cells: no cell is greater than its
parent, `parent(j) = (j - 1) / 2`. -/
def HeapOrd {α : Type} [LinearOrder α] (data : List (Dbl α)) (n : Nat) : Prop :=
  ∀ j, 0 < j → j < n → Dbl.gt (rd data j) (rd data ((j - 1) / 2)) = false

/-- Invariant of a heap that holds ordinary numbers only. -/
structure HInv {α : Type} [LinearOrder α] (h : Heap α) : Prop where
  len : h.data.length = h.capacity
  cap_pos : 0 < h.capacity
  size_le : h.size ≤ h.capacity
  no_nan : ∀ j, j < h.size → rd h.data j ≠ Dbl.nan
  ord : HeapOrd h.data h.size

/-- The number held by a double, if any. -/
def Dbl.toOption {α : Type} : Dbl α → Option α
  | Dbl.nan => none
  | Dbl.num a => some a

/-- States reachable from `h_create` through `h_insert` of ordinary numbers
and `h_pop_max`. -/
inductive HReach {α : Type} [LinearOrder α] : Heap α → Prop where
  | create (junk : Dbl α) : HReach (h_create junk)
  | insert (junk : Dbl α) (h : Heap α) (a : α) :
      HReach h → HReach (h_insert junk h (Dbl.num a))
  | pop_max (h : Heap α) : HReach h → HReach (h_pop_max h).2

/-- The order `x >= y` between two doubles that are both ordinary numbers. -/
def Dbl.ge {α : Type} [LinearOrder α] (x y : Dbl α) : Prop :=
  ∃ a b, x = Dbl.num a ∧ y = Dbl.num b ∧ b ≤ a

/-- A sample heap: the fresh heap after `h_insert` of 1 and of 3. -/
def h_sample : Heap ℚ :=
  h_insert Dbl.nan (h_insert Dbl.nan (h_create Dbl.nan) (Dbl.num 1)) (Dbl.num 3)

/-- States reachable from `h_create` through `h_insert` of any double (NaN
included), `h_pop_max` and `h_peek`. -/
inductive HReachAll {α : Type} [LinearOrder α] : Heap α → Prop where
  | create (junk : Dbl α) : HReachAll (h_create junk)
  | insert (junk : Dbl α) (h : Heap α) (v : Dbl α) :
      HReachAll h → HReachAll (h_insert junk h v)
  | pop_max (h : Heap α) : HReachAll h → HReachAll (h_pop_max h).2
  | peek (h : Heap α) : HReachAll h → HReachAll (h_peek h).2

/-- Storage invariant of the stack: the buffer has `capacity` cells, `top`
does not pass `capacity`, and `capacity` is `DEFAULT_SIZE` doubled some number
of times. -/
structure SGrow {α : Type} (s : Stack α) : Prop where
  len : s.data.length = s.capacity
  top_le : s.top ≤ s.capacity
  cap_pow : ∃ k, s.capacity = DEFAULT_SIZE * 2 ^ k

/-- Storage invariant of the heap, as `SGrow`. -/
structure HGrow {α : Type} (h : Heap α) : Prop where
  len : h.data.length = h.capacity
  size_le : h.size ≤ h.capacity
  cap_pow : ∃ k, h.capacity = DEFAULT_SIZE * 2 ^ k

/-- A sample full stack: 100 values pushed onto a fresh stack. -/
def s_sample_full : Stack ℚ :=
  s_push_all Dbl.nan (s_create Dbl.nan) (List.replicate 100 (Dbl.num 7))

/-- A sample full heap: 100 values inserted into a fresh heap. -/
def h_sample_full : Heap ℚ :=
  h_insert_all Dbl.nan (h_create Dbl.nan) (List.replicate 100 (Dbl.num 7))

/-! ## Hash table (`hash_table.c`)

A key is the sequence of `char` values of a C string before its terminating
`'\0'`; each `char` is an integer (`-128..127` where `char` is signed,
`0..255` where it is unsigned).  A bucket chain of `Entry` nodes linked through
`next` is the list of its entries, head first. -/

/-- A C string: its `char` values before the terminator. -/
abbrev Key := List Int

/-- The `struct Entry` without its `next` link. -/
structure Entry (α : Type) where
  key : Key
  value : Dbl α

/-- The `struct HashTable`. -/
structure HashTable (α : Type) where
  buckets : List (List (Entry α))
  count : Nat
  capacity_table : Nat

/-- The function `ht_create`: `DEFAULT_SIZE` empty buckets. -/
def ht_create {α : Type} : HashTable α :=
  { buckets := List.replicate DEFAULT_SIZE []
    count := 0
    capacity_table := DEFAULT_SIZE }

/-- One round of the loop of `ht_hash`:
`hash = ((hash << 5) + hash) + key[i]` in `unsigned int` arithmetic. -/
def ht_hash_step (hash : Nat) (c : Int) : Nat :=
  Int.toNat ((((((hash <<< 5) % 2 ^ 32 + hash) % 2 ^ 32 : Nat) : Int) + c) % 2 ^ 32)

/-- The function `ht_hash` (djb2). -/
def ht_hash (key : Key) : Nat :=
  key.foldl ht_hash_step 5381

/-- The value of a `char` that holds the byte `b`.  Whether plain `char` is
signed is implementation-defined: where it is unsigned the value is the byte
itself, where it is signed (as on x86) a byte `b >= 128` reads as `b - 256`. -/
def char_of_byte (char_signed : Bool) (b : Nat) : Int :=
  if char_signed = true ∧ 128 ≤ b then (b : Int) - 256 else (b : Int)

/-- The key with the given bytes, as the `char` values that `ht_hash` reads. -/
def key_of_bytes (char_signed : Bool) (bytes : List Nat) : Key :=
  bytes.map (char_of_byte char_signed)

/-- The djb2 value of a byte sequence with every byte taken as an unsigned
value: start from 5381 and apply `acc := (acc * 33 + c) mod 2^32`. -/
def djb2_unsigned (bytes : List Nat) : Nat :=
  bytes.foldl (fun acc c => (acc * 33 + c) % 2 ^ 32) 5381

/-- Bucket read `buckets[i]`. -/
def bucket_at {α : Type} (buckets : List (List (Entry α))) (i : Nat) :
    List (Entry α) :=
  buckets.getD i []

/-- The inner `while` loop of `ht_rehash`: every entry of one old chain is
pushed at the front of its new bucket. -/
def ht_rehash_chain {α : Type} (new_capacity : Nat)
    (new_buckets : List (List (Entry α))) (chain : List (Entry α)) :
    List (List (Entry α)) :=
  chain.foldl
    (fun nb e =>
      let new_index := ht_hash e.key % new_capacity
      nb.set new_index (e :: bucket_at nb new_index))
    new_buckets

/-- The function `ht_rehash`: doubles the number of buckets and moves every
entry to the bucket of its hash modulo the new capacity. -/
def ht_rehash {α : Type} (ht : HashTable α) : Int × HashTable α :=
  let old_capacity := ht.capacity_table
  let new_capacity := ht.capacity_table * 2
  let new_buckets : List (List (Entry α)) := List.replicate new_capacity []
  let new_buckets :=
    (List.range old_capacity).foldl
      (fun nb i => ht_rehash_chain new_capacity nb (bucket_at ht.buckets i))
      new_buckets
  (0, { buckets := new_buckets
        count := ht.count
        capacity_table := new_capacity })

/-- The update loop of `ht_insert`: the chain with the value of the first
entry whose key equals `key` overwritten, or `none` when the loop reaches the
end of the chain. -/
def chain_update {α : Type} (key : Key) (value : Dbl α) :
    List (Entry α) → Option (List (Entry α))
  | [] => none
  | e :: rest =>
    if e.key = key then some ({ e with value := value } :: rest)
    else (chain_update key value rest).map (fun r => e :: r)

/-- The load-factor test `(double) count / capacity_table > 0.7` of
`ht_insert`.  The quotient of the two counters, rounded to the nearest double,
exceeds the double nearest to `0.7` exactly when `10 * count > 7 * capacity`
(for counters below `10 ^ 15`). -/
def ht_overloaded {α : Type} (ht : HashTable α) : Bool :=
  decide (10 * ht.count > 7 * ht.capacity_table)

/-- The part of `ht_insert` after the load-factor check: overwrite the value
of the entry with an equal key in the target chain, or push a new entry at the
head of the chain and increment `count`. -/
def ht_insert_place {α : Type} (ht : HashTable α) (key : Key) (value : Dbl α) :
    HashTable α :=
  let hash_value := ht_hash key
  let index := hash_value % ht.capacity_table
  let current_entry := bucket_at ht.buckets index
  match chain_update key value current_entry with
  | some chain => { ht with buckets := ht.buckets.set index chain }
  | none =>
    let new_entry : Entry α := { key := key, value := value }
    { ht with
      buckets := ht.buckets.set index (new_entry :: bucket_at ht.buckets index)
      count := ht.count + 1 }

/-- The function `ht_insert` (returns `void`): rehash first when the load
factor exceeds 0.7, then place the entry. -/
def ht_insert {α : Type} (ht : HashTable α) (key : Key) (value : Dbl α) :
    HashTable α :=
  ht_insert_place (if ht_overloaded ht = true then (ht_rehash ht).2 else ht)
    key value

/-- The loop of `ht_delete`: the chain with the first entry whose key equals
`key` unlinked, or `none` when there is no such entry. -/
def chain_unlink {α : Type} (key : Key) :
    List (Entry α) → Option (List (Entry α))
  | [] => none
  | e :: rest =>
    if e.key = key then some rest
    else (chain_unlink key rest).map (fun r => e :: r)

/-- The function `ht_delete`: `0` when an entry was removed, `-1` when the
key is absent. -/
def ht_delete {α : Type} (ht : HashTable α) (key : Key) : Int × HashTable α :=
  let index := ht_hash key % ht.capacity_table
  match chain_unlink key (bucket_at ht.buckets index) with
  | some chain =>
    (0, { ht with buckets := ht.buckets.set index chain, count := ht.count - 1 })
  | none => (-1, ht)

/-- The loop of `ht_search`: the value of the first entry whose key equals
`key`, or NaN at the end of the chain. -/
def chain_search {α : Type} (key : Key) : List (Entry α) → Dbl α
  | [] => Dbl.nan
  | e :: rest => if e.key = key then e.value else chain_search key rest

/-- The function `ht_search`. -/
def ht_search {α : Type} (ht : HashTable α) (key : Key) : Dbl α × HashTable α :=
  let index := ht_hash key % ht.capacity_table
  (chain_search key (bucket_at ht.buckets index), ht)

/-- Calls `ht_insert` for each key/value pair of the list, in order. -/
def ht_insert_all {α : Type} (ht : HashTable α) :
    List (Key × Dbl α) → HashTable α
  | [] => ht
  | kv :: kvs => ht_insert_all (ht_insert ht kv.1 kv.2) kvs

/-- States reachable from `ht_create` through `ht_insert`, `ht_delete` and
`ht_search`. -/
inductive HTReach {α : Type} : HashTable α → Prop where
  | create : HTReach ht_create
  | insert (ht : HashTable α) (k : Key) (v : Dbl α) :
      HTReach ht → HTReach (ht_insert ht k v)
  | delete (ht : HashTable α) (k : Key) : HTReach ht → HTReach (ht_delete ht k).2
  | search (ht : HashTable α) (k : Key) : HTReach ht → HTReach (ht_search ht k).2

/-- All entries of the table, bucket by bucket. -/
def ht_entries {α : Type} (ht : HashTable α) : List (Entry α) :=
  ht.buckets.flatten

/-- The number of entries of the table whose key is `k`. -/
def ht_key_count {α : Type} (ht : HashTable α) (k : Key) : Nat :=
  (ht_entries ht).countP (fun e => decide (e.key = k))

/-- The value the sequence of writes `kvs` wrote last for key `k`, or NaN
when no write used `k`. -/
def last_write {α : Type} (k : Key) : List (Key × Dbl α) → Dbl α
  | [] => Dbl.nan
  | kv :: kvs =>
    if k ∈ kvs.map Prod.fst then last_write k kvs
    else if kv.1 = k then kv.2 else Dbl.nan

/-- Representation invariant of the hash table. -/
structure HTInv {α : Type} (ht : HashTable α) : Prop where
  len : ht.buckets.length = ht.capacity_table
  cap_pos : 0 < ht.capacity_table
  placed : ∀ b, b < ht.capacity_table → ∀ e ∈ bucket_at ht.buckets b,
    ht_hash e.key % ht.capacity_table = b
  nodup : ((ht_entries ht).map Entry.key).Nodup
  count_eq : ht.count = (ht_entries ht).length

/-- A sample of 72 writes with pairwise different one-character keys. -/
def ht_sample_writes : List (Key × Dbl ℚ) :=
  (List.range 72).map (fun (i : Nat) => ([Int.ofNat i + 1], Dbl.num (i : ℚ)))

/-- A sample table: the fresh table after `ht_insert` of the keys "A" and
"B". -/
def ht_sample : HashTable ℚ :=
  ht_insert (ht_insert ht_create [65] (Dbl.num 1)) [66] (Dbl.num 2)

/-- A sample table that stores a NaN: the fresh table after `ht_insert` of
key "A" with value NaN. -/
def ht_sample_nan : HashTable ℚ :=
  ht_insert ht_create [65] Dbl.nan

/-- A sample table at the load-factor threshold: the fresh table after the
first 70 sample writes (70 distinct keys in 100 buckets). -/
def ht_sample_70 : HashTable ℚ :=
  ht_insert_all ht_create (ht_sample_writes.take 70)

/-! ## Linked list (`linked_list.c`)

Nodes live in a store `mem`: the address `a` is allocated when `mem[a]` is
`some node` and free otherwise, `malloc` returns the first address past the
store, and a pointer is `none` (NULL) or `some a`.  A function that dereferences
NULL or a freed address has no defined result and returns `none`. -/

/-- The `struct Node`. -/
structure Node (α : Type) where
  data : Dbl α
  next : Option Nat

/-- The `struct LinkedList` together with the node store. -/
structure LinkedList (α : Type) where
  mem : List (Option (Node α))
  head : Option Nat
  tail : Option Nat
  size : Nat

/-- The node at address `a`, when `a` is allocated. -/
def node_at {α : Type} (mem : List (Option (Node α))) (a : Nat) :
    Option (Node α) :=
  mem.getD a none

/-- The function `ll_create`. -/
def ll_create {α : Type} : LinkedList α :=
  { mem := [], head := none, tail := none, size := 0 }

/-- The loop of `ll_at`: `current = current->next`, `n` times. -/
def ll_at_loop {α : Type} (mem : List (Option (Node α))) :
    Nat → Option Nat → Option (Option Nat)
  | 0, current => some current
  | _ + 1, none => none
  | n + 1, some a =>
    match node_at mem a with
    | none => none
    | some node => ll_at_loop mem n node.next

/-- The function `ll_at`: NULL when `index >= size`, else the pointer reached
from `head` after `index` steps. -/
def ll_at {α : Type} (ll : LinkedList α) (index : Nat) : Option (Option Nat) :=
  if index ≥ ll.size then some none
  else ll_at_loop ll.mem index ll.head

/-- The function `ll_insert_head`. -/
def ll_insert_head {α : Type} (ll : LinkedList α) (value : Dbl α) :
    Option (Int × LinkedList α) :=
  let new_node := ll.mem.length
  let mem := ll.mem ++ [some { data := value, next := ll.head }]
  some (0, { mem := mem
             head := some new_node
             tail := if ll.size = 0 then some new_node else ll.tail
             size := ll.size + 1 })

/-- The function `ll_insert_tail`. -/
def ll_insert_tail {α : Type} (ll : LinkedList α) (value : Dbl α) :
    Option (Int × LinkedList α) :=
  let new_node := ll.mem.length
  let mem := ll.mem ++ [some { data := value, next := none }]
  if ll.head = none then
    some (0, { mem := mem
               head := some new_node
               tail := some new_node
               size := ll.size + 1 })
  else
    match ll.tail with
    | none => none
    | some t =>
      match node_at ll.mem t with
      | none => none
      | some tn =>
        some (0, { mem := mem.set t (some { tn with next := some new_node })
                   head := ll.head
                   tail := some new_node
                   size := ll.size + 1 })

/-- The function `ll_insert_at`. -/
def ll_insert_at {α : Type} (ll : LinkedList α) (value : Dbl α) (index : Nat) :
    Option (Int × LinkedList α) :=
  if index = ll.size then ll_insert_tail ll value
  else if index = 0 then ll_insert_head ll value
  else
    let new_node := ll.mem.length
    match ll_at ll (index - 1) with
    | none => none
    | some none => none
    | some (some previous) =>
      match node_at ll.mem previous with
      | none => none
      | some pn =>
        let mem := ll.mem ++ [some { data := value, next := pn.next }]
        some (0, { ll with
                   mem := mem.set previous (some { pn with next := some new_node })
                   size := ll.size + 1 })

/-- The library call `free(p)`: a no-op on NULL, undefined on an address that
is not allocated. -/
def free_node {α : Type} (mem : List (Option (Node α))) :
    Option Nat → Option (List (Option (Node α)))
  | none => some mem
  | some a =>
    match node_at mem a with
    | none => none
    | some _ => some (mem.set a none)

/-- The function `ll_remove_head`. -/
def ll_remove_head {α : Type} (ll : LinkedList α) : Option (Int × LinkedList α) :=
  match ll.head with
  | none => some (-1, ll)
  | some buffer =>
    match node_at ll.mem buffer with
    | none => none
    | some bn =>
      match free_node ll.mem (some buffer) with
      | none => none
      | some mem =>
        some (0, { mem := mem
                   head := bn.next
                   tail := if ll.size - 1 = 0 then none else ll.tail
                   size := ll.size - 1 })

/-- The function `ll_remove_tail`. -/
def ll_remove_tail {α : Type} (ll : LinkedList α) : Option (Int × LinkedList α) :=
  if ll.size = 0 then some (-1, ll)
  else if ll.size = 1 then ll_remove_head ll
  else
    match ll_at ll (ll.size - 2) with
    | none => none
    | some none => none
    | some (some second_to_last) =>
      match node_at ll.mem second_to_last with
      | none => none
      | some sn =>
        let node_to_delete := sn.next
        let mem := ll.mem.set second_to_last (some { sn with next := none })
        match free_node mem node_to_delete with
        | none => none
        | some mem =>
          some (0, { mem := mem
                     head := ll.head
                     tail := some second_to_last
                     size := ll.size - 1 })

/-- The function `ll_remove_at`. -/
def ll_remove_at {α : Type} (ll : LinkedList α) (index : Nat) :
    Option (Int × LinkedList α) :=
  if ll.head = none then some (-1, ll)
  else if index = ll.size - 1 then ll_remove_tail ll
  else if index = 0 then ll_remove_head ll
  else
    match ll_at ll (index - 1) with
    | none => none
    | some none => some (-1, ll)
    | some (some current) =>
      match node_at ll.mem current with
      | none => none
      | some cn =>
        match cn.next with
        | none => some (-1, ll)
        | some node_to_delete =>
          match node_at ll.mem node_to_delete with
          | none => none
          | some dn =>
            let mem := ll.mem.set current (some { cn with next := dn.next })
            match free_node mem (some node_to_delete) with
            | none => none
            | some mem => some (0, { ll with mem := mem, size := ll.size - 1 })

/-- The walk of `ll_print`: the values met following `next` from `p` until
NULL; `none` when the walk dereferences a free address or has not reached NULL
after `fuel` nodes. -/
def ll_walk {α : Type} (mem : List (Option (Node α))) :
    Nat → Option Nat → Option (List (Dbl α))
  | _, none => some []
  | 0, some _ => none
  | fuel + 1, some a =>
    match node_at mem a with
    | none => none
    | some node => (ll_walk mem fuel node.next).map (fun r => node.data :: r)

/-- The element sequence of a list, following `next` from `head`.  A chain
that ends in NULL visits no address twice, so it has at most `mem.length`
nodes. -/
def ll_elements {α : Type} (ll : LinkedList α) : Option (List (Dbl α)) :=
  ll_walk ll.mem ll.mem.length ll.head

/-- States reachable from `ll_create` through calls that return. -/
inductive LLReach {α : Type} : LinkedList α → Prop where
  | create : LLReach ll_create
  | insert_head (ll : LinkedList α) (v : Dbl α) (r : Int) (ll1 : LinkedList α) :
      LLReach ll → ll_insert_head ll v = some (r, ll1) → LLReach ll1
  | insert_tail (ll : LinkedList α) (v : Dbl α) (r : Int) (ll1 : LinkedList α) :
      LLReach ll → ll_insert_tail ll v = some (r, ll1) → LLReach ll1
  | insert_at (ll : LinkedList α) (v : Dbl α) (i : Nat) (r : Int)
      (ll1 : LinkedList α) :
      LLReach ll → ll_insert_at ll v i = some (r, ll1) → LLReach ll1
  | remove_head (ll : LinkedList α) (r : Int) (ll1 : LinkedList α) :
      LLReach ll → ll_remove_head ll = some (r, ll1) → LLReach ll1
  | remove_tail (ll : LinkedList α) (r : Int) (ll1 : LinkedList α) :
      LLReach ll → ll_remove_tail ll = some (r, ll1) → LLReach ll1
  | remove_at (ll : LinkedList α) (i : Nat) (r : Int) (ll1 : LinkedList α) :
      LLReach ll → ll_remove_at ll i = some (r, ll1) → LLReach ll1

/-- A sample list: the state after `ll_insert_head` of 1 and `ll_insert_tail`
of 2 on a fresh list. -/
def ll_sample : LinkedList ℚ :=
  { mem := [some { data := Dbl.num 1, next := some 1 },
            some { data := Dbl.num 2, next := none }]
    head := some 0
    tail := some 1
    size := 2 }

/-- The chain starting at pointer `p`: its node addresses and its values. -/
inductive Chain {α : Type} (mem : List (Option (Node α))) :
    Option Nat → List Nat → List (Dbl α) → Prop where
  | nil : Chain mem none [] []
  | cons (a : Nat) (node : Node α) (as : List Nat) (xs : List (Dbl α)) :
      node_at mem a = some node → Chain mem node.next as xs →
      Chain mem (some a) (a :: as) (node.data :: xs)

/-- Representation invariant of the linked list: the chain from `head` has
`size` nodes at pairwise different addresses and `tail` is its last node. -/
structure LLInv {α : Type} (ll : LinkedList α) (as : List Nat)
    (xs : List (Dbl α)) : Prop where
  chain : Chain ll.mem ll.head as xs
  nodup : as.Nodup
  size_eq : ll.size = xs.length
  tail_eq : ll.tail = as.getLast?

/-! ## Basic facts about buffers -/

theorem rd_wr_eq {α : Type} (buf : List (Dbl α)) (i : Nat) (v : Dbl α)
    (h : i < buf.length) : rd (wr buf i v) i = v := by
  simp [rd, wr, List.getD_eq_getElem?_getD, List.getElem?_set, h]

theorem rd_wr_ne {α : Type} (buf : List (Dbl α)) (i j : Nat) (v : Dbl α)
    (h : i ≠ j) : rd (wr buf i v) j = rd buf j := by
  simp [rd, wr, List.getD_eq_getElem?_getD, List.getElem?_set, h]

theorem length_wr {α : Type} (buf : List (Dbl α)) (i : Nat) (v : Dbl α) :
    (wr buf i v).length = buf.length := by
  simp [wr]

theorem length_fold_wr {α : Type} (f : Nat → Dbl α) (n : Nat) (b : List (Dbl α)) :
    ((List.range n).foldl (fun b i => wr b i (f i)) b).length = b.length := by
  induction n with
  | zero => simp
  | succ n ih => simp [List.range_succ, List.foldl_append, length_wr, ih]

theorem rd_fold_wr {α : Type} (f : Nat → Dbl α) (n : Nat) (b : List (Dbl α))
    (hn : n ≤ b.length) (j : Nat) :
    rd ((List.range n).foldl (fun b i => wr b i (f i)) b) j
      = if j < n then f j else rd b j := by
  induction n with
  | zero => simp
  | succ n ih =>
    have hn1 : n ≤ b.length := by omega
    simp only [List.range_succ, List.foldl_append, List.foldl_cons, List.foldl_nil]
    by_cases hj : j = n
    · subst hj
      rw [rd_wr_eq _ _ _ (by rw [length_fold_wr]; omega)]
      simp
    · rw [rd_wr_ne _ _ _ _ (Ne.symm hj), ih hn1]
      by_cases h1 : j < n
      · simp [h1, Nat.lt_succ_of_lt h1]
      · have h2 : ¬ j < n + 1 := by omega
        simp [h1, h2]

theorem mod_shift_ne (c h i s : Nat) (hi : i < s) (hs : s < i + c) :
    (h + i) % c ≠ (h + s) % c := by
  intro heq
  have h1 : h + i ≡ h + s [MOD c] := heq
  have h2 : c ∣ (h + s) - (h + i) := (Nat.modEq_iff_dvd' (by omega)).1 h1
  have h3 : c ≤ (h + s) - (h + i) := Nat.le_of_dvd (by omega) h2
  omega

/-! ## Queue: invariant and contents -/

theorem q_create_inv {α : Type} (junk : Dbl α) : QInv (q_create junk) := by
  constructor <;> simp [q_create, DEFAULT_SIZE]

theorem q_create_contents {α : Type} (junk : Dbl α) :
    q_contents (q_create junk) = [] := by
  simp [q_contents, q_create]

theorem q_resize_inv {α : Type} (junk : Dbl α) (q : Queue α) (hq : QInv q)
    (hfull : q.size = q.capacity) : QInv (q_resize junk q).2 := by
  have hc := hq.cap_pos
  constructor
  · simp [q_resize, q_resize_copy, length_fold_wr]
  · simp only [q_resize]; omega
  · simp only [q_resize]; omega
  · simp only [q_resize]; omega
  · simp only [q_resize]
    rw [Nat.zero_add, Nat.mod_eq_of_lt (by omega)]

theorem q_resize_contents {α : Type} (junk : Dbl α) (q : Queue α) (hq : QInv q)
    (hfull : q.size = q.capacity) :
    q_contents (q_resize junk q).2 = q_contents q := by
  have hc := hq.cap_pos
  simp only [q_contents, q_resize, q_resize_copy]
  apply List.map_congr_left
  intro i hi
  rw [List.mem_range] at hi
  rw [rd_fold_wr _ _ _ (by simp; omega)]
  rw [Nat.zero_add, Nat.mod_eq_of_lt (by omega), if_pos hi]

theorem q_enqueue_store_inv {α : Type} (q : Queue α) (v : Dbl α) (hq : QInv q)
    (hlt : q.size < q.capacity) : QInv (q_enqueue_store q v).2 := by
  constructor
  · simp [q_enqueue_store, length_wr, hq.len]
  · exact hq.cap_pos
  · simp only [q_enqueue_store]; omega
  · exact hq.head_lt
  · simp only [q_enqueue_store]
    rw [hq.tail_eq, Nat.mod_add_mod, Nat.add_assoc]

theorem q_enqueue_store_contents {α : Type} (q : Queue α) (v : Dbl α)
    (hq : QInv q) (hlt : q.size < q.capacity) :
    q_contents (q_enqueue_store q v).2 = q_contents q ++ [v] := by
  have hc := hq.cap_pos
  simp only [q_contents, q_enqueue_store, List.range_succ, List.map_append,
    List.map_cons, List.map_nil]
  congr 1
  · apply List.map_congr_left
    intro i hi
    rw [List.mem_range] at hi
    rw [hq.tail_eq]
    exact rd_wr_ne _ _ _ _ (Ne.symm (mod_shift_ne _ _ _ _ hi (by omega)))
  · rw [hq.tail_eq, rd_wr_eq _ _ _ (by rw [hq.len]; exact Nat.mod_lt _ hc)]

theorem q_enqueue_eq {α : Type} (junk : Dbl α) (q : Queue α) (v : Dbl α) :
    q_enqueue junk q v
      = if q.size = q.capacity then q_enqueue_store (q_resize junk q).2 v
        else q_enqueue_store q v := by
  simp [q_enqueue, q_resize]

theorem q_enqueue_inv {α : Type} (junk : Dbl α) (q : Queue α) (v : Dbl α)
    (hq : QInv q) : QInv (q_enqueue junk q v).2 := by
  rw [q_enqueue_eq]
  have hc := hq.cap_pos
  have hs := hq.size_le
  split
  · rename_i hfull
    apply q_enqueue_store_inv _ _ (q_resize_inv junk q hq hfull)
    simp only [q_resize]; omega
  · exact q_enqueue_store_inv _ _ hq (by omega)

theorem q_enqueue_contents {α : Type} (junk : Dbl α) (q : Queue α) (v : Dbl α)
    (hq : QInv q) : q_contents (q_enqueue junk q v).2 = q_contents q ++ [v] := by
  rw [q_enqueue_eq]
  have hc := hq.cap_pos
  have hs := hq.size_le
  split
  · rename_i hfull
    rw [q_enqueue_store_contents _ _ (q_resize_inv junk q hq hfull)
      (by simp only [q_resize]; omega), q_resize_contents junk q hq hfull]
  · exact q_enqueue_store_contents _ _ hq (by omega)

theorem q_enqueue_ret {α : Type} (junk : Dbl α) (q : Queue α) (v : Dbl α) :
    (q_enqueue junk q v).1 = 0 := by
  rw [q_enqueue_eq]; split <;> rfl

theorem q_contents_length {α : Type} (q : Queue α) :
    (q_contents q).length = q.size := by
  simp [q_contents]

theorem q_enqueue_all_inv {α : Type} (junk : Dbl α) (vs : List (Dbl α)) :
    ∀ q : Queue α, QInv q → QInv (q_enqueue_all junk q vs) := by
  induction vs with
  | nil => intro q hq; exact hq
  | cons v vs ih => intro q hq; exact ih _ (q_enqueue_inv junk q v hq)

theorem q_enqueue_all_contents {α : Type} (junk : Dbl α) (vs : List (Dbl α)) :
    ∀ q : Queue α, QInv q →
      q_contents (q_enqueue_all junk q vs) = q_contents q ++ vs := by
  induction vs with
  | nil => intro q _; simp [q_enqueue_all]
  | cons v vs ih =>
    intro q hq
    simp only [q_enqueue_all]
    rw [ih _ (q_enqueue_inv junk q v hq), q_enqueue_contents junk q v hq]
    simp

theorem q_dequeue_inv {α : Type} (q : Queue α) (hq : QInv q) :
    QInv (q_dequeue q).2 := by
  have hc := hq.cap_pos
  unfold q_dequeue
  split
  · exact hq
  · rename_i hne
    constructor
    · exact hq.len
    · exact hq.cap_pos
    · have := hq.size_le
      simp only; omega
    · exact Nat.mod_lt _ hc
    · simp only
      rw [hq.tail_eq, Nat.mod_add_mod]
      congr 1
      omega

theorem q_dequeue_contents {α : Type} (q : Queue α) (hq : QInv q)
    (hne : q.size ≠ 0) :
    q_contents q = (q_dequeue q).1 :: q_contents (q_dequeue q).2 := by
  obtain ⟨n, hn⟩ : ∃ n, q.size = n + 1 := ⟨q.size - 1, by omega⟩
  have hd : q_dequeue q
      = (rd q.data q.head,
          { q with head := (q.head + 1) % q.capacity, size := q.size - 1 }) := by
    simp [q_dequeue, hne]
  rw [hd]
  simp only [q_contents, hn, List.range_succ_eq_map,
    List.map_cons, List.map_map, Nat.add_zero, Nat.add_sub_cancel]
  rw [Nat.mod_eq_of_lt hq.head_lt]
  congr 1
  apply List.map_congr_left
  intro i _
  simp only [Function.comp, Nat.mod_add_mod]
  congr 2
  omega

theorem q_dequeue_size {α : Type} (q : Queue α) :
    (q_dequeue q).2.size = q.size - 1 := by
  unfold q_dequeue
  split
  · rename_i h; simp [h]
  · rfl

theorem q_dequeue_n_spec {α : Type} (n : Nat) :
    ∀ q : Queue α, QInv q → n ≤ q.size →
      (q_dequeue_n q n).1 = (q_contents q).take n ∧
      q_contents (q_dequeue_n q n).2 = (q_contents q).drop n ∧
      (q_dequeue_n q n).2.size = q.size - n ∧ QInv (q_dequeue_n q n).2 := by
  induction n with
  | zero => intro q hq _; simp [q_dequeue_n, hq]
  | succ n ih =>
    intro q hq hn
    have hne : q.size ≠ 0 := by omega
    have hsz := q_dequeue_size q
    obtain ⟨h1, h2, h3, h4⟩ := ih (q_dequeue q).2 (q_dequeue_inv q hq) (by omega)
    have hc := q_dequeue_contents q hq hne
    simp only [q_dequeue_n]
    refine ⟨?_, ?_, ?_, h4⟩
    · rw [h1, hc]; simp
    · rw [h2, hc]; simp
    · rw [h3, hsz]; omega

/-- C1 (FIFO law across resizes). For every list `vs` of values, of any
length, enqueueing the elements of `vs` in order into the queue returned by
`q_create` and then dequeueing `vs.length` times returns exactly `vs`, in
enqueue order, and leaves the queue with size 0; the capacity has grown to at
least `vs.length`, so `q_resize` has run when `vs` is longer than 100.
Concrete scenario: after
enqueueing 42.53, 345.1, 22.2, 536.727, 904.330, `q_dequeue` returns 42.53 and
a following `q_peek` returns 345.1. -/
theorem q_fifo_law :
    (∀ (α : Type) (junk0 junk : Dbl α) (vs : List (Dbl α)),
      (q_dequeue_n (q_enqueue_all junk (q_create junk0) vs) vs.length).1 = vs ∧
      (q_dequeue_n (q_enqueue_all junk (q_create junk0) vs) vs.length).2.size = 0 ∧
      vs.length ≤ (q_enqueue_all junk (q_create junk0) vs).capacity) ∧
    (∀ junk0 junk : Dbl ℚ,
      (q_dequeue (q_enqueue_all junk (q_create junk0)
        [Dbl.num 42.53, Dbl.num 345.1, Dbl.num 22.2, Dbl.num 536.727,
          Dbl.num 904.330])).1 = Dbl.num 42.53 ∧
      (q_peek (q_dequeue (q_enqueue_all junk (q_create junk0)
        [Dbl.num 42.53, Dbl.num 345.1, Dbl.num 22.2, Dbl.num 536.727,
          Dbl.num 904.330])).2).1 = Dbl.num 345.1) := by
  refine ⟨?_, ?_⟩
  · intro α junk0 junk vs
    have hinv := q_enqueue_all_inv junk vs _ (q_create_inv junk0)
    have hcont := q_enqueue_all_contents junk vs _ (q_create_inv junk0)
    rw [q_create_contents, List.nil_append] at hcont
    have hsize : (q_enqueue_all junk (q_create junk0) vs).size = vs.length := by
      rw [← q_contents_length, hcont]
    obtain ⟨h1, _, h3, _⟩ :=
      q_dequeue_n_spec vs.length _ hinv (Nat.le_of_eq hsize.symm)
    refine ⟨?_, ?_, ?_⟩
    · rw [h1, hcont, List.take_length]
    · rw [h3, hsize, Nat.sub_self]
    · rw [← hsize]; exact hinv.size_le
  · intro junk0 junk
    exact ⟨rfl, rfl⟩

/-! ## Stack: invariant and contents -/

theorem length_realloc {α : Type} (junk : Dbl α) (buf : List (Dbl α)) (n : Nat) :
    (realloc junk buf n).length = n := by
  simp [realloc]; omega

theorem rd_realloc {α : Type} (junk : Dbl α) (buf : List (Dbl α)) (n j : Nat)
    (hj : j < buf.length) (hn : j < n) : rd (realloc junk buf n) j = rd buf j := by
  have h1 : j < (buf.take n).length := by simp; omega
  simp [rd, realloc, List.getD_eq_getElem?_getD, List.getElem?_append_left h1,
    List.getElem?_take, hn]

theorem s_create_inv {α : Type} (junk : Dbl α) : SInv (s_create junk) := by
  constructor <;> simp [s_create, DEFAULT_SIZE]

theorem s_push_eq {α : Type} (junk : Dbl α) (s : Stack α) (v : Dbl α) :
    s_push junk s v
      = if s.top ≥ s.capacity then s_push_store (s_resize junk s).2 v
        else s_push_store s v := by
  simp [s_push, s_resize]

theorem s_push_ret {α : Type} (junk : Dbl α) (s : Stack α) (v : Dbl α) :
    (s_push junk s v).1 = 0 := by
  rw [s_push_eq]; split <;> rfl

theorem s_push_top {α : Type} (junk : Dbl α) (s : Stack α) (v : Dbl α) :
    (s_push junk s v).2.top = s.top + 1 := by
  rw [s_push_eq]; split <;> rfl

theorem s_push_inv {α : Type} (junk : Dbl α) (s : Stack α) (v : Dbl α)
    (hs : SInv s) : SInv (s_push junk s v).2 := by
  have h1 := hs.len
  have h2 := hs.cap_pos
  have h3 := hs.top_le
  rw [s_push_eq]
  split
  · constructor
    · simp [s_push_store, s_resize, length_wr, length_realloc]
    · simp only [s_push_store, s_resize]; omega
    · simp only [s_push_store, s_resize]; omega
  · constructor
    · simp [s_push_store, length_wr, h1]
    · exact h2
    · simp only [s_push_store]; omega

theorem s_push_contents {α : Type} (junk : Dbl α) (s : Stack α) (v : Dbl α)
    (hs : SInv s) : s_contents (s_push junk s v).2 = s_contents s ++ [v] := by
  have h1 := hs.len
  have h2 := hs.cap_pos
  have h3 := hs.top_le
  rw [s_push_eq]
  split
  · simp only [s_contents, s_push_store, s_resize, List.range_succ,
      List.map_append, List.map_cons, List.map_nil]
    congr 1
    · apply List.map_congr_left
      intro i hi
      rw [List.mem_range] at hi
      rw [rd_wr_ne _ _ _ _ (by omega), rd_realloc _ _ _ _ (by omega) (by omega)]
    · rw [rd_wr_eq _ _ _ (by rw [length_realloc]; omega)]
  · simp only [s_contents, s_push_store, List.range_succ,
      List.map_append, List.map_cons, List.map_nil]
    congr 1
    · apply List.map_congr_left
      intro i hi
      rw [List.mem_range] at hi
      rw [rd_wr_ne _ _ _ _ (by omega)]
    · rw [rd_wr_eq _ _ _ (by omega)]

theorem s_pop_inv {α : Type} (s : Stack α) (hs : SInv s) : SInv (s_pop s).2 := by
  have h3 := hs.top_le
  unfold s_pop
  split
  · exact hs
  · exact ⟨hs.len, hs.cap_pos, by simp only; omega⟩

theorem s_pop_top {α : Type} (s : Stack α) : (s_pop s).2.top = s.top - 1 := by
  unfold s_pop
  split
  · rename_i h; simp [h]
  · rfl

theorem s_pop_contents {α : Type} (s : Stack α) (hne : s.top ≠ 0) :
    s_contents s = s_contents (s_pop s).2 ++ [(s_pop s).1] := by
  obtain ⟨n, hn⟩ : ∃ n, s.top = n + 1 := ⟨s.top - 1, by omega⟩
  have hd : s_pop s = (rd s.data (s.top - 1), { s with top := s.top - 1 }) := by
    simp [s_pop, hne]
  rw [hd]
  simp [s_contents, hn, List.range_succ]

theorem s_peek_state {α : Type} (s : Stack α) : (s_peek s).2 = s := by
  unfold s_peek; split <;> rfl

theorem s_reach_inv {α : Type} (s : Stack α) (h : SReach s) : SInv s := by
  induction h with
  | create junk => exact s_create_inv junk
  | push junk s v _ ih => exact s_push_inv junk s v ih
  | pop s _ ih => exact s_pop_inv s ih
  | peek s _ ih => rw [s_peek_state]; exact ih

theorem s_contents_length {α : Type} (s : Stack α) :
    (s_contents s).length = s.top := by
  simp [s_contents]

theorem s_push_all_spec {α : Type} (junk : Dbl α) (vs : List (Dbl α)) :
    ∀ s : Stack α, SInv s →
      SInv (s_push_all junk s vs) ∧
      s_contents (s_push_all junk s vs) = s_contents s ++ vs := by
  induction vs with
  | nil => intro s hs; simp [s_push_all, hs]
  | cons v vs ih =>
    intro s hs
    obtain ⟨h1, h2⟩ := ih _ (s_push_inv junk s v hs)
    simp only [s_push_all]
    refine ⟨h1, ?_⟩
    rw [h2, s_push_contents junk s v hs]
    simp

theorem s_pop_n_length {α : Type} (n : Nat) :
    ∀ s : Stack α, (s_pop_n s n).1.length = n := by
  induction n with
  | zero => intro s; rfl
  | succ n ih => intro s; simp [s_pop_n, ih]

theorem s_pop_n_spec {α : Type} (n : Nat) :
    ∀ s : Stack α, n ≤ s.top →
      s_contents s = s_contents (s_pop_n s n).2 ++ (s_pop_n s n).1.reverse := by
  induction n with
  | zero => intro s _; simp [s_pop_n]
  | succ n ih =>
    intro s hn
    have hne : s.top ≠ 0 := by omega
    have h1 := s_pop_contents s hne
    have h2 := ih (s_pop s).2 (by rw [s_pop_top]; omega)
    simp only [s_pop_n, List.reverse_cons]
    rw [← List.append_assoc, ← h2, ← h1]

/-- C2 (LIFO law). For every stack state `s` reachable from `s_create` through
`s_push`, `s_pop` and `s_peek` and every list `vs` of values, of any length,
pushing the elements of `vs` in order and then popping `vs.length` times
returns the elements of `vs` in reverse order, and afterwards the live
contents `data[0..top)` and `top` are the same as in `s`.  Concrete scenario:
after pushing 465.23, 38136.427, -55.2, -275.565, 37.553, `s_pop` returns
37.553 and a following `s_peek` returns -275.565. -/
theorem s_lifo_law :
    (∀ (α : Type) (s : Stack α), SReach s → ∀ (junk : Dbl α) (vs : List (Dbl α)),
      (s_pop_n (s_push_all junk s vs) vs.length).1 = vs.reverse ∧
      s_contents (s_pop_n (s_push_all junk s vs) vs.length).2 = s_contents s ∧
      (s_pop_n (s_push_all junk s vs) vs.length).2.top = s.top) ∧
    (∀ junk0 junk : Dbl ℚ,
      (s_pop (s_push_all junk (s_create junk0)
        [Dbl.num 465.23, Dbl.num 38136.427, Dbl.num (-55.2), Dbl.num (-275.565),
          Dbl.num 37.553])).1 = Dbl.num 37.553 ∧
      (s_peek (s_pop (s_push_all junk (s_create junk0)
        [Dbl.num 465.23, Dbl.num 38136.427, Dbl.num (-55.2), Dbl.num (-275.565),
          Dbl.num 37.553])).2).1 = Dbl.num (-275.565)) := by
  refine ⟨?_, ?_⟩
  · intro α s hs junk vs
    obtain ⟨_, hc⟩ := s_push_all_spec junk vs s (s_reach_inv s hs)
    have htop : (s_push_all junk s vs).top = s.top + vs.length := by
      rw [← s_contents_length, hc, List.length_append, s_contents_length]
    have hp := s_pop_n_spec vs.length (s_push_all junk s vs) (by omega)
    rw [hc] at hp
    have hlen : vs.length = (s_pop_n (s_push_all junk s vs) vs.length).1.reverse.length := by
      rw [List.length_reverse, s_pop_n_length]
    obtain ⟨h1, h2⟩ := List.append_inj' hp hlen
    refine ⟨?_, h1.symm, ?_⟩
    · exact (List.reverse_eq_iff.2 h2).symm
    · rw [← s_contents_length, ← h1, s_contents_length]
  · intro junk0 junk
    exact ⟨rfl, rfl⟩

/-- Instance of C2: the state after one push and one peek on a fresh stack,
with three more values pushed and popped. -/
theorem s_lifo_law_witness :
    SReach (s_peek (s_push Dbl.nan (s_create (Dbl.nan : Dbl ℚ)) (Dbl.num 1)).2).2 ∧
    (s_pop_n (s_push_all Dbl.nan
        (s_peek (s_push Dbl.nan (s_create (Dbl.nan : Dbl ℚ)) (Dbl.num 1)).2).2
        [Dbl.num 2, Dbl.nan, Dbl.num 4]) 3).1
      = [Dbl.num 4, Dbl.nan, Dbl.num 2] :=
  ⟨SReach.peek _ (SReach.push _ _ _ (SReach.create _)),
    (s_lifo_law.1 ℚ _ (SReach.peek _ (SReach.push _ _ _ (SReach.create _)))
      Dbl.nan [Dbl.num 2, Dbl.nan, Dbl.num 4]).1⟩

/-! ## Heap: comparison, exchange of two cells -/

theorem gt_true_iff {α : Type} [LinearOrder α] (x y : Dbl α) :
    Dbl.gt x y = true ↔ ∃ a b, x = Dbl.num a ∧ y = Dbl.num b ∧ b < a := by
  cases x <;> cases y <;> simp [Dbl.gt]

theorem gt_asymm {α : Type} [LinearOrder α] (x y : Dbl α)
    (h : Dbl.gt x y = true) : Dbl.gt y x = false := by
  obtain ⟨a, b, rfl, rfl, hab⟩ := (gt_true_iff x y).1 h
  simp [Dbl.gt, le_of_lt hab]

theorem gt_self {α : Type} [LinearOrder α] (x : Dbl α) : Dbl.gt x x = false := by
  cases x <;> simp [Dbl.gt]

/-- Transitivity of "not greater" through a middle value that is a number. -/
theorem ngt_trans {α : Type} [LinearOrder α] (x y z : Dbl α)
    (hxy : Dbl.gt x y = false) (hyz : Dbl.gt y z = false) (hy : y ≠ Dbl.nan) :
    Dbl.gt x z = false := by
  cases x <;> cases y <;> cases z <;> simp_all [Dbl.gt]
  exact le_trans hxy hyz

theorem gt_left_num {α : Type} [LinearOrder α] (x y : Dbl α)
    (h : Dbl.gt x y = true) : x ≠ Dbl.nan := by
  obtain ⟨a, b, rfl, rfl, _⟩ := (gt_true_iff x y).1 h
  simp

theorem gt_right_num {α : Type} [LinearOrder α] (x y : Dbl α)
    (h : Dbl.gt x y = true) : y ≠ Dbl.nan := by
  obtain ⟨a, b, rfl, rfl, _⟩ := (gt_true_iff x y).1 h
  simp

theorem length_h_swap {α : Type} (d : List (Dbl α)) (i j : Nat) :
    (h_swap d i j).length = d.length := by
  simp [h_swap, length_wr]

theorem rd_h_swap {α : Type} (d : List (Dbl α)) (i j k : Nat)
    (hi : i < d.length) (hj : j < d.length) :
    rd (h_swap d i j) k
      = if k = j then rd d i else if k = i then rd d j else rd d k := by
  unfold h_swap
  by_cases hkj : k = j
  · subst hkj
    rw [rd_wr_eq _ _ _ (by rw [length_wr]; exact hj), if_pos rfl]
  · rw [rd_wr_ne _ _ _ _ (Ne.symm hkj), if_neg hkj]
    by_cases hki : k = i
    · subst hki
      rw [rd_wr_eq _ _ _ hi, if_pos rfl]
    · rw [rd_wr_ne _ _ _ _ (Ne.symm hki), if_neg hki]

theorem range_map_swap_perm (n i j : Nat) (hi : i < n) (hj : j < n) :
    ((List.range n).map (Equiv.swap i j)).Perm (List.range n) := by
  apply (List.perm_ext_iff_of_nodup
    ((List.nodup_range n).map (Equiv.swap i j).injective) (List.nodup_range n)).2
  intro a
  simp only [List.mem_map, List.mem_range]
  constructor
  · rintro ⟨k, hk, rfl⟩
    by_cases h1 : k = i
    · subst h1; simpa using hj
    · by_cases h2 : k = j
      · subst h2; simpa using hi
      · rw [Equiv.swap_apply_of_ne_of_ne h1 h2]; exact hk
  · intro ha
    refine ⟨Equiv.swap i j a, ?_, by simp⟩
    by_cases h1 : a = i
    · subst h1; simpa using hj
    · by_cases h2 : a = j
      · subst h2; simpa using hi
      · rw [Equiv.swap_apply_of_ne_of_ne h1 h2]; exact ha

theorem contents_h_swap_perm {α : Type} (d : List (Dbl α)) (n i j : Nat)
    (hn : n ≤ d.length) (hi : i < n) (hj : j < n) :
    ((List.range n).map (fun k => rd (h_swap d i j) k)).Perm
      ((List.range n).map (fun k => rd d k)) := by
  have h1 : (List.range n).map (fun k => rd (h_swap d i j) k)
      = ((List.range n).map (Equiv.swap i j)).map (fun k => rd d k) := by
    rw [List.map_map]
    apply List.map_congr_left
    intro k _
    rw [rd_h_swap d i j k (by omega) (by omega)]
    simp only [Function.comp]
    by_cases hkj : k = j
    · subst hkj; simp
    · by_cases hki : k = i
      · subst hki; simp [hkj]
      · rw [Equiv.swap_apply_of_ne_of_ne hki hkj]; simp [hkj, hki]
  rw [h1]
  exact (range_map_swap_perm n i j hi hj).map _

/-! ## Heap: sift-up -/

theorem h_sift_up_frame {α : Type} [LinearOrder α] (i : Nat) :
    ∀ h : Heap α, i < h.size → h.size ≤ h.data.length →
      (h_sift_up h i).size = h.size ∧
      (h_sift_up h i).capacity = h.capacity ∧
      (h_sift_up h i).data.length = h.data.length ∧
      (h_contents (h_sift_up h i)).Perm (h_contents h) := by
  induction i using Nat.strong_induction_on with
  | _ i ih =>
    intro h hi hlen
    rw [h_sift_up]
    split
    · rename_i hpos
      simp only
      split
      · have hp : (i - 1) / 2 < i := by omega
        obtain ⟨h1, h2, h3, h4⟩ :=
          ih ((i - 1) / 2) hp { h with data := h_swap h.data i ((i - 1) / 2) }
            (by simp only; omega) (by simp only [length_h_swap]; exact hlen)
        refine ⟨h1, h2, by rw [h3]; exact length_h_swap _ _ _, h4.trans ?_⟩
        exact contents_h_swap_perm h.data h.size i ((i - 1) / 2) hlen hi (by omega)
      · exact ⟨rfl, rfl, rfl, List.Perm.refl _⟩
    · exact ⟨rfl, rfl, rfl, List.Perm.refl _⟩

theorem h_sift_up_ord {α : Type} [LinearOrder α] (i : Nat) :
    ∀ h : Heap α, i < h.size → h.size ≤ h.data.length →
      (∀ j, 0 < j → j < h.size → j ≠ i →
        Dbl.gt (rd h.data j) (rd h.data ((j - 1) / 2)) = false) →
      (∀ j, 0 < j → j < h.size → (j - 1) / 2 = i → 0 < i →
        Dbl.gt (rd h.data j) (rd h.data ((i - 1) / 2)) = false) →
      HeapOrd (h_sift_up h i).data h.size := by
  induction i using Nat.strong_induction_on with
  | _ i ih =>
    intro h hi hlen hA hB
    rw [h_sift_up]
    split
    · rename_i hpos
      simp only
      split
      · rename_i hgt
        have hp : (i - 1) / 2 < i := by omega
        have hil : i < h.data.length := by omega
        have hpl : (i - 1) / 2 < h.data.length := by omega
        have hmid : rd h.data ((i - 1) / 2) ≠ Dbl.nan := gt_right_num _ _ hgt
        apply ih ((i - 1) / 2) hp { h with data := h_swap h.data i ((i - 1) / 2) }
          (by simp only; omega) (by simp only [length_h_swap]; exact hlen)
        · intro j hj0 hjn hjp
          simp only at hjn ⊢
          rw [rd_h_swap _ _ _ _ hil hpl, rd_h_swap _ _ _ _ hil hpl, if_neg hjp]
          by_cases hji : j = i
          · subst hji
            rw [if_pos rfl, if_pos rfl]
            exact gt_asymm _ _ hgt
          · rw [if_neg hji]
            by_cases hq1 : (j - 1) / 2 = (i - 1) / 2
            · rw [if_pos hq1]
              have h1 := hA j hj0 hjn hji
              rw [hq1] at h1
              exact ngt_trans _ _ _ h1 (gt_asymm _ _ hgt) hmid
            · rw [if_neg hq1]
              by_cases hq2 : (j - 1) / 2 = i
              · rw [if_pos hq2]
                exact hB j hj0 hjn hq2 hpos
              · rw [if_neg hq2]
                exact hA j hj0 hjn hji
        · intro j hj0 hjn hjp hp0
          simp only at hjn ⊢
          have hjne : j ≠ (i - 1) / 2 := by omega
          have hpp1 : ((i - 1) / 2 - 1) / 2 ≠ (i - 1) / 2 := by omega
          have hpp2 : ((i - 1) / 2 - 1) / 2 ≠ i := by omega
          have hpar := hA ((i - 1) / 2) hp0 (by omega) (by omega)
          rw [rd_h_swap _ _ _ _ hil hpl, rd_h_swap _ _ _ _ hil hpl, if_neg hjne,
            if_neg hpp1, if_neg hpp2]
          by_cases hji : j = i
          · rw [if_pos hji]
            exact hpar
          · rw [if_neg hji]
            have h1 := hA j hj0 hjn hji
            rw [hjp] at h1
            exact ngt_trans _ _ _ h1 hpar hmid
      · rename_i hngt
        intro j hj0 hjn
        by_cases hji : j = i
        · subst hji
          simpa using hngt
        · exact hA j hj0 hjn hji
    · rename_i hnpos
      intro j hj0 hjn
      exact hA j hj0 hjn (by omega)

/-! ## Heap: sift-down -/

theorem gt_trans {α : Type} [LinearOrder α] (x y z : Dbl α)
    (hxy : Dbl.gt x y = true) (hyz : Dbl.gt y z = true) : Dbl.gt x z = true := by
  obtain ⟨a, b, rfl, rfl, hab⟩ := (gt_true_iff _ _).1 hxy
  obtain ⟨b1, c, hb, rfl, hbc⟩ := (gt_true_iff _ _).1 hyz
  cases hb
  simpa [Dbl.gt] using lt_trans hbc hab

theorem h_largest_spec {α : Type} [LinearOrder α] (h : Heap α) (i : Nat) :
    (h_largest h i = i ∧
      ∀ j, 0 < j → j < h.size → (j - 1) / 2 = i →
        Dbl.gt (rd h.data j) (rd h.data i) = false) ∨
    (h_largest h i ≠ i ∧ h_largest h i < h.size ∧
      (h_largest h i - 1) / 2 = i ∧
      Dbl.gt (rd h.data (h_largest h i)) (rd h.data i) = true ∧
      ∀ j, 0 < j → j < h.size → (j - 1) / 2 = i → j ≠ h_largest h i →
        Dbl.gt (rd h.data j) (rd h.data (h_largest h i)) = false) := by
  by_cases h1 : 2 * i + 1 < h.size ∧ Dbl.gt (rd h.data (2 * i + 1)) (rd h.data i) = true
  · by_cases h2 : 2 * i + 2 < h.size ∧
        Dbl.gt (rd h.data (2 * i + 2)) (rd h.data (2 * i + 1)) = true
    · have hm : h_largest h i = 2 * i + 2 := by
        simp only [h_largest, if_pos h1, if_pos h2]
      right
      rw [hm]
      refine ⟨by omega, h2.1, by omega, gt_trans _ _ _ h2.2 h1.2, ?_⟩
      intro j hj0 hjn hjp hjm
      have hj : j = 2 * i + 1 := by omega
      subst hj
      exact gt_asymm _ _ h2.2
    · have hm : h_largest h i = 2 * i + 1 := by
        simp only [h_largest, if_pos h1, if_neg h2]
      right
      rw [hm]
      refine ⟨by omega, h1.1, by omega, h1.2, ?_⟩
      intro j hj0 hjn hjp hjm
      have hj : j = 2 * i + 2 := by omega
      subst hj
      simpa using (not_and.1 h2) hjn
  · by_cases h2 : 2 * i + 2 < h.size ∧
        Dbl.gt (rd h.data (2 * i + 2)) (rd h.data i) = true
    · have hm : h_largest h i = 2 * i + 2 := by
        simp only [h_largest, if_neg h1, if_pos h2]
      right
      rw [hm]
      refine ⟨by omega, h2.1, by omega, h2.2, ?_⟩
      intro j hj0 hjn hjp hjm
      have hj : j = 2 * i + 1 := by omega
      subst hj
      have h3 : Dbl.gt (rd h.data (2 * i + 1)) (rd h.data i) = false := by
        simpa using (not_and.1 h1) hjn
      exact ngt_trans _ _ _ h3 (gt_asymm _ _ h2.2) (gt_right_num _ _ h2.2)
    · have hm : h_largest h i = i := by
        simp only [h_largest, if_neg h1, if_neg h2]
      left
      refine ⟨hm, ?_⟩
      intro j hj0 hjn hjp
      have hj : j = 2 * i + 1 ∨ j = 2 * i + 2 := by omega
      rcases hj with hj | hj
      · subst hj
        simpa using (not_and.1 h1) hjn
      · subst hj
        simpa using (not_and.1 h2) hjn

theorem h_max_heapify_frame {α : Type} [LinearOrder α] (k : Nat) :
    ∀ (h : Heap α) (i : Nat), h.size - i = k → i < h.size →
      h.size ≤ h.data.length →
      (h_max_heapify h i).size = h.size ∧
      (h_max_heapify h i).capacity = h.capacity ∧
      (h_max_heapify h i).data.length = h.data.length ∧
      (h_contents (h_max_heapify h i)).Perm (h_contents h) := by
  induction k using Nat.strong_induction_on with
  | _ k ih =>
    intro h i hk hi hlen
    have hsz : h.size ≠ 0 := by omega
    rw [h_max_heapify, if_neg hsz]
    rcases h_largest_spec h i with ⟨hm, _⟩ | ⟨hm, hmn, hmp, _, _⟩
    · rw [dif_neg (not_not.2 hm)]
      exact ⟨rfl, rfl, rfl, List.Perm.refl _⟩
    · rw [dif_pos hm]
      have hmi : i < h_largest h i := by omega
      obtain ⟨h1, h2, h3, h4⟩ :=
        ih (h.size - h_largest h i) (by omega)
          { h with data := h_swap h.data i (h_largest h i) } (h_largest h i) rfl
          hmn (by simp only [length_h_swap]; exact hlen)
      refine ⟨h1, h2, by rw [h3]; exact length_h_swap _ _ _, h4.trans ?_⟩
      exact contents_h_swap_perm h.data h.size i (h_largest h i) hlen hi hmn

theorem h_max_heapify_ord {α : Type} [LinearOrder α] (k : Nat) :
    ∀ (h : Heap α) (i : Nat), h.size - i = k → i < h.size →
      h.size ≤ h.data.length →
      (∀ j, 0 < j → j < h.size → (j - 1) / 2 ≠ i →
        Dbl.gt (rd h.data j) (rd h.data ((j - 1) / 2)) = false) →
      (∀ j, 0 < j → j < h.size → (j - 1) / 2 = i → 0 < i →
        Dbl.gt (rd h.data j) (rd h.data ((i - 1) / 2)) = false) →
      HeapOrd (h_max_heapify h i).data h.size := by
  induction k using Nat.strong_induction_on with
  | _ k ih =>
    intro h i hk hi hlen hA hB
    have hsz : h.size ≠ 0 := by omega
    rw [h_max_heapify, if_neg hsz]
    rcases h_largest_spec h i with ⟨hm, hch⟩ | ⟨hm, hmn, hmp, hgt, hoth⟩
    · rw [dif_neg (not_not.2 hm)]
      intro j hj0 hjn
      by_cases hjp : (j - 1) / 2 = i
      · rw [hjp]; exact hch j hj0 hjn hjp
      · exact hA j hj0 hjn hjp
    · rw [dif_pos hm]
      have hmi : i < h_largest h i := by omega
      have hil : i < h.data.length := by omega
      have hml : h_largest h i < h.data.length := by omega
      apply ih (h.size - h_largest h i) (by omega)
        { h with data := h_swap h.data i (h_largest h i) } (h_largest h i) rfl
        hmn (by simp only [length_h_swap]; exact hlen)
      · intro j hj0 hjn hjp
        simp only at hjn ⊢
        rw [rd_h_swap _ _ _ _ hil hml, rd_h_swap _ _ _ _ hil hml, if_neg hjp]
        by_cases hjm : j = h_largest h i
        · rw [if_pos hjm, hjm, hmp, if_pos rfl]
          exact gt_asymm _ _ hgt
        · rw [if_neg hjm]
          by_cases hji : j = i
          · have hpi : (j - 1) / 2 ≠ i := by omega
            rw [if_pos hji, if_neg hpi, hji]
            exact hB (h_largest h i) (by omega) hmn hmp (by omega)
          · rw [if_neg hji]
            by_cases hpi : (j - 1) / 2 = i
            · rw [if_pos hpi]
              exact hoth j hj0 hjn hpi hjm
            · rw [if_neg hpi]
              exact hA j hj0 hjn hpi
      · intro j hj0 hjn hjp hm0
        simp only at hjn ⊢
        have hjm : j ≠ h_largest h i := by omega
        have hji : j ≠ i := by omega
        rw [rd_h_swap _ _ _ _ hil hml, rd_h_swap _ _ _ _ hil hml, if_neg hjm,
          if_neg hji, hmp, if_neg (by omega), if_pos rfl]
        have h1 := hA j hj0 hjn (by omega)
        rw [hjp] at h1
        exact h1

/-! ## Heap: insert and pop_max keep the invariant -/

theorem mem_h_contents {α : Type} (h : Heap α) (x : Dbl α) :
    x ∈ h_contents h ↔ ∃ j, j < h.size ∧ rd h.data j = x := by
  simp [h_contents]

theorem h_contents_length {α : Type} (h : Heap α) :
    (h_contents h).length = h.size := by
  simp [h_contents]

theorem h_create_inv {α : Type} [LinearOrder α] (junk : Dbl α) :
    HInv (h_create junk) := by
  constructor
  · simp [h_create]
  · simp [h_create, DEFAULT_SIZE]
  · simp [h_create]
  · intro j hj; simp [h_create] at hj
  · intro j _ hj; simp [h_create] at hj

theorem h_resize_inv {α : Type} [LinearOrder α] (junk : Dbl α) (h : Heap α)
    (hh : HInv h) : HInv (h_resize junk h).2 := by
  have h1 := hh.len
  have h2 := hh.cap_pos
  have h3 := hh.size_le
  constructor
  · simp [h_resize, length_realloc]
  · simp only [h_resize]; omega
  · simp only [h_resize]; omega
  · intro j hj
    simp only [h_resize] at hj ⊢
    rw [rd_realloc _ _ _ _ (by omega) (by omega)]
    exact hh.no_nan j hj
  · intro j hj0 hj
    simp only [h_resize] at hj ⊢
    rw [rd_realloc _ _ _ _ (by omega) (by omega),
      rd_realloc _ _ _ _ (by omega) (by omega)]
    exact hh.ord j hj0 hj

theorem h_resize_contents {α : Type} [LinearOrder α] (junk : Dbl α) (h : Heap α)
    (hh : HInv h) : h_contents (h_resize junk h).2 = h_contents h := by
  have h1 := hh.len
  have h3 := hh.size_le
  simp only [h_contents, h_resize]
  apply List.map_congr_left
  intro j hj
  rw [List.mem_range] at hj
  exact rd_realloc _ _ _ _ (by omega) (by omega)

theorem h_insert_store_spec {α : Type} [LinearOrder α] (h : Heap α) (v : Dbl α)
    (hh : HInv h) (hlt : h.size < h.capacity) (hv : v ≠ Dbl.nan) :
    HInv (h_insert_store h v) ∧
    (h_insert_store h v).size = h.size + 1 ∧
    (h_contents (h_insert_store h v)).Perm (h_contents h ++ [v]) := by
  have h1 := hh.len
  have hc : h_contents { h with data := wr h.data h.size v, size := h.size + 1 }
      = h_contents h ++ [v] := by
    simp only [h_contents, List.range_succ, List.map_append, List.map_cons,
      List.map_nil]
    congr 1
    · apply List.map_congr_left
      intro i hi
      rw [List.mem_range] at hi
      rw [rd_wr_ne _ _ _ _ (by omega)]
    · rw [rd_wr_eq _ _ _ (by omega)]
  obtain ⟨f1, f2, f3, f4⟩ :=
    h_sift_up_frame h.size { h with data := wr h.data h.size v, size := h.size + 1 }
      (by simp only; omega) (by simp only [length_wr]; omega)
  rw [hc] at f4
  have hord := h_sift_up_ord h.size
    { h with data := wr h.data h.size v, size := h.size + 1 }
    (by simp only; omega) (by simp only [length_wr]; omega)
    (by
      intro j hj0 hjn hji
      simp only at hjn ⊢
      rw [rd_wr_ne _ _ _ _ (by omega), rd_wr_ne _ _ _ _ (by omega)]
      exact hh.ord j hj0 (by omega))
    (by
      intro j hj0 hjn hjp
      simp only at hjn
      omega)
  unfold h_insert_store
  simp only at f1 f2 f3 hord ⊢
  refine ⟨⟨?_, by rw [f2]; exact hh.cap_pos, ?_, ?_, ?_⟩, f1, f4⟩
  · rw [f3, f2, length_wr, h1]
  · rw [f1, f2]; omega
  · intro j hj
    have hmem : rd (h_sift_up { h with data := wr h.data h.size v, size := h.size + 1 }
        h.size).data j ∈ h_contents h ++ [v] :=
      f4.subset ((mem_h_contents _ _).2 ⟨j, hj, rfl⟩)
    rcases List.mem_append.1 hmem with hm | hm
    · obtain ⟨k, hk, hke⟩ := (mem_h_contents _ _).1 hm
      rw [← hke]; exact hh.no_nan k hk
    · rw [List.mem_singleton.1 hm]; exact hv
  · rw [f1]; exact hord

theorem h_insert_eq {α : Type} [LinearOrder α] (junk : Dbl α) (h : Heap α)
    (v : Dbl α) :
    h_insert junk h v
      = if h.size ≥ h.capacity then h_insert_store (h_resize junk h).2 v
        else h_insert_store h v := by
  simp [h_insert, h_resize]

theorem h_insert_spec {α : Type} [LinearOrder α] (junk : Dbl α) (h : Heap α)
    (v : Dbl α) (hh : HInv h) (hv : v ≠ Dbl.nan) :
    HInv (h_insert junk h v) ∧
    (h_insert junk h v).size = h.size + 1 ∧
    (h_contents (h_insert junk h v)).Perm (h_contents h ++ [v]) := by
  have h2 := hh.cap_pos
  have h3 := hh.size_le
  rw [h_insert_eq]
  split
  · obtain ⟨g1, g2, g3⟩ := h_insert_store_spec (h_resize junk h).2 v
      (h_resize_inv junk h hh) (by simp only [h_resize]; omega) hv
    rw [h_resize_contents junk h hh] at g3
    exact ⟨g1, g2, g3⟩
  · exact h_insert_store_spec h v hh (by omega) hv

theorem h_root_max {α : Type} [LinearOrder α] (h : Heap α) (hh : HInv h) (j : Nat) :
    j < h.size → Dbl.gt (rd h.data j) (rd h.data 0) = false := by
  induction j using Nat.strong_induction_on with
  | _ j ih =>
    intro hj
    by_cases hj0 : j = 0
    · subst hj0; exact gt_self _
    · have hp : (j - 1) / 2 < j := by omega
      exact ngt_trans _ _ _ (hh.ord j (by omega) hj) (ih _ hp (by omega))
        (hh.no_nan _ (by omega))

theorem h_pop_max_spec {α : Type} [LinearOrder α] (h : Heap α) (hh : HInv h)
    (hne : h.size ≠ 0) :
    HInv (h_pop_max h).2 ∧
    (h_pop_max h).2.size = h.size - 1 ∧
    ((h_pop_max h).1 :: h_contents (h_pop_max h).2).Perm (h_contents h) ∧
    (∀ x ∈ h_contents h, Dbl.gt x (h_pop_max h).1 = false) := by
  have h1 := hh.len
  have h2 := hh.cap_pos
  have h3 := hh.size_le
  obtain ⟨n, hn⟩ : ∃ n, h.size = n + 1 := ⟨h.size - 1, by omega⟩
  have hpop : h_pop_max h = (rd h.data 0, h_max_heapify
      { h with data := wr h.data 0 (rd h.data (h.size - 1)), size := h.size - 1 } 0) := by
    simp [h_pop_max, hne]
  have hmax : ∀ x ∈ h_contents h, Dbl.gt x (rd h.data 0) = false := by
    intro x hx
    obtain ⟨j, hj, rfl⟩ := (mem_h_contents _ _).1 hx
    exact h_root_max h hh j hj
  have hc1 : (rd h.data 0 :: h_contents
      { h with data := wr h.data 0 (rd h.data (h.size - 1)), size := h.size - 1 }).Perm
      (h_contents h) := by
    simp only [h_contents, hn, Nat.add_sub_cancel]
    cases n with
    | zero => simp [List.range_succ]
    | succ m =>
      rw [List.range_succ (n := m + 1), List.range_succ_eq_map m]
      simp only [List.map_cons, List.map_map, List.map_append, List.map_nil]
      rw [rd_wr_eq _ _ _ (by omega)]
      have he : List.map ((fun i => rd (wr h.data 0 (rd h.data (m + 1))) i) ∘ Nat.succ)
          (List.range m) = List.map ((fun i => rd h.data i) ∘ Nat.succ) (List.range m) := by
        apply List.map_congr_left
        intro i _
        simp only [Function.comp]
        exact rd_wr_ne _ _ _ _ (by omega)
      rw [he]
      refine (List.Perm.cons _ ?_)
      rw [← List.singleton_append (l := (List.map _ (List.range m)))]
      exact List.perm_append_comm
  rw [hpop]
  simp only
  by_cases hn0 : h.size - 1 = 0
  · have hz : h_max_heapify
        { h with data := wr h.data 0 (rd h.data (h.size - 1)), size := h.size - 1 } 0
        = { h with data := wr h.data 0 (rd h.data (h.size - 1)), size := h.size - 1 } := by
      rw [h_max_heapify, if_pos hn0]
    rw [hz]
    refine ⟨⟨?_, h2, ?_, ?_, ?_⟩, rfl, hc1, hmax⟩
    · simp only [length_wr]; exact h1
    · simp only; omega
    · intro j hj; simp only at hj; omega
    · intro j _ hj; simp only at hj; omega
  · obtain ⟨f1, f2, f3, f4⟩ := h_max_heapify_frame (h.size - 1 - 0)
      { h with data := wr h.data 0 (rd h.data (h.size - 1)), size := h.size - 1 } 0
      rfl (by simp only; omega) (by simp only [length_wr]; omega)
    have hord := h_max_heapify_ord (h.size - 1 - 0)
      { h with data := wr h.data 0 (rd h.data (h.size - 1)), size := h.size - 1 } 0
      rfl (by simp only; omega) (by simp only [length_wr]; omega)
      (by
        intro j hj0 hjn hjp
        simp only at hjn ⊢
        rw [rd_wr_ne _ _ _ _ (by omega), rd_wr_ne _ _ _ _ (by omega)]
        exact hh.ord j hj0 (by omega))
      (by
        intro j _ _ _ h0
        omega)
    simp only at f1 f2 f3 hord
    refine ⟨⟨?_, by rw [f2]; exact h2, ?_, ?_, ?_⟩, f1, ?_, hmax⟩
    · rw [f3, f2, length_wr, h1]
    · rw [f1, f2]; omega
    · intro j hj
      have hmem := f4.subset ((mem_h_contents _ _).2 ⟨j, hj, rfl⟩)
      have hmem2 := hc1.subset (List.mem_cons_of_mem _ hmem)
      obtain ⟨k, hk, hke⟩ := (mem_h_contents _ _).1 hmem2
      rw [← hke]; exact hh.no_nan k hk
    · rw [f1]; exact hord
    · exact ((List.Perm.cons _ f4)).trans hc1

/-! ## Heap: draining a loaded heap -/

theorem h_insert_all_spec {α : Type} [LinearOrder α] (junk : Dbl α)
    (vs : List (Dbl α)) :
    ∀ h : Heap α, HInv h → (∀ v ∈ vs, v ≠ Dbl.nan) →
      HInv (h_insert_all junk h vs) ∧
      (h_insert_all junk h vs).size = h.size + vs.length ∧
      (h_contents (h_insert_all junk h vs)).Perm (h_contents h ++ vs) := by
  induction vs with
  | nil => intro h hh _; simp [h_insert_all, hh]
  | cons v vs ih =>
    intro h hh hv
    obtain ⟨g1, g2, g3⟩ := h_insert_spec junk h v hh (hv v (List.mem_cons_self _ _))
    obtain ⟨k1, k2, k3⟩ := ih _ g1 (fun x hx => hv x (List.mem_cons_of_mem _ hx))
    simp only [h_insert_all]
    refine ⟨k1, ?_, ?_⟩
    · rw [k2, g2, List.length_cons]; omega
    · refine k3.trans ?_
      have := g3.append_right vs
      simpa using this

theorem h_pop_n_spec {α : Type} [LinearOrder α] (n : Nat) :
    ∀ h : Heap α, HInv h → n ≤ h.size →
      ((h_pop_n h n).1 ++ h_contents (h_pop_n h n).2).Perm (h_contents h) ∧
      (h_pop_n h n).1.Pairwise (fun x y => Dbl.gt y x = false) ∧
      (∀ x ∈ (h_pop_n h n).1, ∀ y ∈ h_contents (h_pop_n h n).2,
        Dbl.gt y x = false) ∧
      HInv (h_pop_n h n).2 ∧ (h_pop_n h n).2.size = h.size - n := by
  induction n with
  | zero =>
    intro h hh _
    simp [h_pop_n, hh]
  | succ n ih =>
    intro h hh hn
    obtain ⟨p1, p2, p3, p4⟩ := h_pop_max_spec h hh (by omega)
    obtain ⟨q1, q2, q3, q4, q5⟩ := ih (h_pop_max h).2 p1 (by omega)
    simp only [h_pop_n]
    have hsub : ∀ y, y ∈ (h_pop_n (h_pop_max h).2 n).1 ++
        h_contents (h_pop_n (h_pop_max h).2 n).2 → y ∈ h_contents h := by
      intro y hy
      exact p3.subset (List.mem_cons_of_mem _ (q1.subset hy))
    refine ⟨?_, ?_, ?_, q4, ?_⟩
    · exact (List.Perm.cons _ q1).trans p3
    · refine List.Pairwise.cons ?_ q2
      intro y hy
      exact p4 y (hsub y (List.mem_append_left _ hy))
    · intro x hx y hy
      rcases List.mem_cons.1 hx with hx | hx
      · rw [hx]
        exact p4 y (hsub y (List.mem_append_right _ hy))
      · exact q3 x hx y hy
    · rw [q5, p2]; omega

theorem map_num_filterMap {α : Type} (l : List (Dbl α))
    (hl : ∀ x ∈ l, x ≠ Dbl.nan) :
    l = (l.filterMap Dbl.toOption).map Dbl.num := by
  induction l with
  | nil => rfl
  | cons x l ih =>
    have hx := hl x (List.mem_cons_self _ _)
    have ih1 := ih (fun y hy => hl y (List.mem_cons_of_mem _ hy))
    cases x with
    | nan => exact absurd rfl hx
    | num a =>
      rw [List.filterMap_cons_some (by rfl : Dbl.toOption (Dbl.num a) = some a),
        List.map_cons, ← ih1]

theorem filterMap_map_num {α : Type} (vs : List α) :
    (vs.map Dbl.num).filterMap Dbl.toOption = vs := by
  induction vs with
  | nil => rfl
  | cons a vs ih =>
    rw [List.map_cons,
      List.filterMap_cons_some (by rfl : Dbl.toOption (Dbl.num a) = some a), ih]

/-- Loading a fresh heap with the numbers `vs` and popping `vs.length` times
returns the numbers of `vs` in non-increasing order. -/
theorem h_drain_sorted {α : Type} [LinearOrder α] (junk0 junk : Dbl α)
    (vs : List α) :
    ∃ out : List α,
      (h_pop_n (h_insert_all junk (h_create junk0) (vs.map Dbl.num)) vs.length).1
        = out.map Dbl.num ∧
      out.Perm vs ∧ out.Sorted (fun a b => a ≥ b) ∧
      (vs.Nodup → out.Sorted (fun a b => a > b)) := by
  have hnum : ∀ v ∈ vs.map Dbl.num, v ≠ (Dbl.nan : Dbl α) := by
    intro v hv
    obtain ⟨a, _, rfl⟩ := List.mem_map.1 hv
    simp
  obtain ⟨g1, g2, g3⟩ := h_insert_all_spec junk (vs.map Dbl.num) (h_create junk0)
    (h_create_inv junk0) hnum
  have hc0 : h_contents (h_create junk0) = [] := by simp [h_contents, h_create]
  have hs0 : (h_create junk0).size = 0 := rfl
  rw [hc0, List.nil_append] at g3
  rw [hs0, Nat.zero_add, List.length_map] at g2
  obtain ⟨p1, p2, _, _, p5⟩ := h_pop_n_spec vs.length _ g1 (Nat.le_of_eq g2.symm)
  have hemp : h_contents (h_pop_n (h_insert_all junk (h_create junk0)
      (vs.map Dbl.num)) vs.length).2 = [] := by
    apply List.eq_nil_of_length_eq_zero
    rw [h_contents_length, p5, g2, Nat.sub_self]
  rw [hemp, List.append_nil] at p1
  have hperm := p1.trans g3
  have hall : ∀ x ∈ (h_pop_n (h_insert_all junk (h_create junk0)
      (vs.map Dbl.num)) vs.length).1, x ≠ Dbl.nan :=
    fun x hx => hnum x (hperm.subset hx)
  have heq := map_num_filterMap _ hall
  have hout : ((h_pop_n (h_insert_all junk (h_create junk0)
      (vs.map Dbl.num)) vs.length).1.filterMap Dbl.toOption).Perm vs := by
    have := hperm.filterMap Dbl.toOption
    rwa [filterMap_map_num] at this
  have hsorted : ((h_pop_n (h_insert_all junk (h_create junk0)
      (vs.map Dbl.num)) vs.length).1.filterMap Dbl.toOption).Sorted
      (fun a b => a ≥ b) := by
    rw [heq, List.pairwise_map] at p2
    refine p2.imp ?_
    intro a b hab
    simpa [Dbl.gt] using hab
  refine ⟨_, heq, hout, hsorted, ?_⟩
  intro hnd
  have hnd2 := (hout.nodup_iff).2 hnd
  refine (List.Pairwise.and hsorted hnd2).imp ?_
  intro a b hab
  exact lt_of_le_of_ne hab.1 (Ne.symm hab.2)

/-- C3 (heap drains in descending order). For every list `vs` of totally
ordered numbers, inserting every element of `vs` with `h_insert` into the heap
returned by `h_create` and then calling `h_pop_max` `vs.length` times returns
a permutation of `vs` sorted in non-increasing order, strictly descending when
the values are distinct.  Concrete scenario: inserting 545.033, 749.643,
469.843, 784.714, 521.641 yields 784.714, 749.643, 545.033, 521.641,
469.843. -/
theorem h_drain_descending :
    (∀ (α : Type) [LinearOrder α] (junk0 junk : Dbl α) (vs : List α),
      ∃ out : List α,
        (h_pop_n (h_insert_all junk (h_create junk0) (vs.map Dbl.num)) vs.length).1
          = out.map Dbl.num ∧
        out.Perm vs ∧ out.Sorted (fun a b => a ≥ b) ∧
        (vs.Nodup → out.Sorted (fun a b => a > b))) ∧
    (∀ junk0 junk : Dbl ℚ,
      (h_pop_n (h_insert_all junk (h_create junk0)
        [Dbl.num 545.033, Dbl.num 749.643, Dbl.num 469.843, Dbl.num 784.714,
          Dbl.num 521.641]) 5).1
        = [Dbl.num 784.714, Dbl.num 749.643, Dbl.num 545.033, Dbl.num 521.641,
            Dbl.num 469.843]) := by
  refine ⟨fun α _ junk0 junk vs => h_drain_sorted junk0 junk vs, ?_⟩
  intro junk0 junk
  obtain ⟨out, h1, h2, h3, _⟩ := h_drain_sorted junk0 junk
    [(545.033 : ℚ), 749.643, 469.843, 784.714, 521.641]
  have hins : List.insertionSort (fun a b : ℚ => a ≥ b)
      [545.033, 749.643, 469.843, 784.714, 521.641]
      = [784.714, 749.643, 545.033, 521.641, 469.843] := by
    norm_num [List.insertionSort, List.orderedInsert]
  have hout : out = [784.714, 749.643, 545.033, 521.641, 469.843] := by
    rw [← hins]
    exact List.eq_of_perm_of_sorted
      (h2.trans (List.perm_insertionSort _ _).symm) h3 (List.sorted_insertionSort _ _)
  have h1b := h1
  simp only [List.map_cons, List.map_nil, List.length_cons, List.length_nil] at h1b
  rw [h1b, hout]
  rfl

/-! ## Hash table: chains -/

theorem chain_search_of_not_mem {α : Type} (k : Key) (c : List (Entry α))
    (h : k ∉ c.map Entry.key) : chain_search k c = Dbl.nan := by
  induction c with
  | nil => rfl
  | cons e c ih =>
    simp only [List.map_cons, List.mem_cons, not_or] at h
    simp only [chain_search]
    rw [if_neg (fun he => h.1 he.symm)]
    exact ih h.2

theorem chain_search_of_mem {α : Type} (e : Entry α) (c : List (Entry α))
    (hnd : (c.map Entry.key).Nodup) (he : e ∈ c) :
    chain_search e.key c = e.value := by
  induction c with
  | nil => simp at he
  | cons x c ih =>
    simp only [List.map_cons, List.nodup_cons] at hnd
    simp only [chain_search]
    rcases List.mem_cons.1 he with hx | hx
    · subst hx; simp
    · have hne : x.key ≠ e.key := by
        intro hxe
        exact hnd.1 (hxe ▸ List.mem_map_of_mem Entry.key hx)
      rw [if_neg hne]
      exact ih hnd.2 hx

theorem chain_update_none_iff {α : Type} (k : Key) (v : Dbl α) (c : List (Entry α)) :
    chain_update k v c = none ↔ k ∉ c.map Entry.key := by
  induction c with
  | nil => simp [chain_update]
  | cons e c ih =>
    simp only [chain_update, List.map_cons, List.mem_cons, not_or]
    by_cases hek : e.key = k
    · simp [hek]
    · rw [if_neg hek]
      simp only [Option.map_eq_none', ih]
      constructor
      · intro h; exact ⟨fun h1 => hek h1.symm, h⟩
      · intro h; exact h.2

theorem chain_update_some {α : Type} (k : Key) (v : Dbl α) :
    ∀ (c c1 : List (Entry α)), chain_update k v c = some c1 →
      (c.map Entry.key).Nodup →
      c1.length = c.length ∧ c1.map Entry.key = c.map Entry.key ∧
      ∀ e, e ∈ c1 ↔ (e = { key := k, value := v } ∨ (e ∈ c ∧ e.key ≠ k)) := by
  intro c
  induction c with
  | nil => intro c1 h; simp [chain_update] at h
  | cons x c ih =>
    intro c1 h hnd
    simp only [List.map_cons, List.nodup_cons] at hnd
    simp only [chain_update] at h
    by_cases hxk : x.key = k
    · rw [if_pos hxk] at h
      cases h
      refine ⟨rfl, by simp [hxk], ?_⟩
      intro e
      simp only [List.mem_cons]
      constructor
      · rintro (he | he)
        · left; rw [he, hxk]
        · right
          refine ⟨Or.inr he, ?_⟩
          intro hek
          exact hnd.1 (hxk ▸ hek ▸ List.mem_map_of_mem Entry.key he)
      · rintro (he | ⟨he | he, hne⟩)
        · left; rw [he, hxk]
        · exact absurd (he ▸ hxk) hne
        · exact Or.inr he
    · rw [if_neg hxk] at h
      cases hc : chain_update k v c with
      | none => rw [hc] at h; simp at h
      | some c2 =>
        rw [hc] at h
        simp only [Option.map_some', Option.some.injEq] at h
        subst h
        obtain ⟨h1, h2, h3⟩ := ih c2 hc hnd.2
        refine ⟨by simp [h1], by simp [h2], ?_⟩
        intro e
        simp only [List.mem_cons, h3]
        constructor
        · rintro (he | he | he)
          · right; exact ⟨Or.inl he, he ▸ hxk⟩
          · exact Or.inl he
          · exact Or.inr ⟨Or.inr he.1, he.2⟩
        · rintro (he | ⟨he | he, hne⟩)
          · exact Or.inr (Or.inl he)
          · exact Or.inl he
          · exact Or.inr (Or.inr ⟨he, hne⟩)

theorem chain_unlink_none_iff {α : Type} (k : Key) (c : List (Entry α)) :
    chain_unlink k c = none ↔ k ∉ c.map Entry.key := by
  induction c with
  | nil => simp [chain_unlink]
  | cons e c ih =>
    simp only [chain_unlink, List.map_cons, List.mem_cons, not_or]
    by_cases hek : e.key = k
    · simp [hek]
    · rw [if_neg hek]
      simp only [Option.map_eq_none', ih]
      constructor
      · intro h; exact ⟨fun h1 => hek h1.symm, h⟩
      · intro h; exact h.2

theorem chain_unlink_some {α : Type} (k : Key) :
    ∀ (c c1 : List (Entry α)), chain_unlink k c = some c1 →
      (c.map Entry.key).Nodup →
      c1.length + 1 = c.length ∧ c1.Sublist c ∧
      ∀ e, e ∈ c1 ↔ (e ∈ c ∧ e.key ≠ k) := by
  intro c
  induction c with
  | nil => intro c1 h; simp [chain_unlink] at h
  | cons x c ih =>
    intro c1 h hnd
    simp only [List.map_cons, List.nodup_cons] at hnd
    simp only [chain_unlink] at h
    by_cases hxk : x.key = k
    · rw [if_pos hxk] at h
      cases h
      refine ⟨rfl, List.sublist_cons_self _ _, ?_⟩
      intro e
      simp only [List.mem_cons]
      constructor
      · intro he
        refine ⟨Or.inr he, ?_⟩
        intro hek
        exact hnd.1 (hxk ▸ hek ▸ List.mem_map_of_mem Entry.key he)
      · rintro ⟨he | he, hne⟩
        · exact absurd (he ▸ hxk) hne
        · exact he
    · rw [if_neg hxk] at h
      cases hc : chain_unlink k c with
      | none => rw [hc] at h; simp at h
      | some c2 =>
        rw [hc] at h
        simp only [Option.map_some', Option.some.injEq] at h
        subst h
        obtain ⟨h1, h2, h3⟩ := ih c2 hc hnd.2
        refine ⟨by simp [h1], h2.cons₂ _, ?_⟩
        intro e
        simp only [List.mem_cons, h3]
        constructor
        · rintro (he | he)
          · exact ⟨Or.inl he, he ▸ hxk⟩
          · exact ⟨Or.inr he.1, he.2⟩
        · rintro ⟨he | he, hne⟩
          · exact Or.inl he
          · exact Or.inr ⟨he, hne⟩

/-! ## Hash table: the bucket array -/

theorem bucket_at_mem {α : Type} (bs : List (List (Entry α))) (i : Nat)
    (hi : i < bs.length) : bucket_at bs i ∈ bs := by
  unfold bucket_at
  rw [List.getD_eq_getElem _ _ hi]
  exact List.getElem_mem hi

theorem bucket_at_set {α : Type} (bs : List (List (Entry α))) (i j : Nat)
    (c : List (Entry α)) (hi : i < bs.length) :
    bucket_at (bs.set i c) j = if j = i then c else bucket_at bs j := by
  unfold bucket_at
  by_cases hji : j = i
  · subst hji
    simp [List.getD_eq_getElem?_getD, List.getElem?_set, hi]
  · simp [List.getD_eq_getElem?_getD, List.getElem?_set, hji, Ne.symm hji]

theorem flatten_split {α : Type} (bs : List (List (Entry α))) (i : Nat)
    (hi : i < bs.length) :
    bs.flatten = (bs.take i).flatten ++ (bucket_at bs i ++ (bs.drop (i + 1)).flatten) := by
  have h1 : bs = bs.take i ++ (bucket_at bs i :: bs.drop (i + 1)) := by
    unfold bucket_at
    rw [List.getD_eq_getElem _ _ hi, ← List.drop_eq_getElem_cons hi,
      List.take_append_drop]
  conv_lhs => rw [h1]
  rw [List.flatten_append, List.flatten_cons]

theorem flatten_set {α : Type} (bs : List (List (Entry α))) (i : Nat)
    (c : List (Entry α)) (hi : i < bs.length) :
    (bs.set i c).flatten = (bs.take i).flatten ++ (c ++ (bs.drop (i + 1)).flatten) := by
  rw [List.set_eq_take_append_cons_drop, if_pos hi, List.flatten_append,
    List.flatten_cons]

theorem mem_entries_iff {α : Type} (bs : List (List (Entry α))) (e : Entry α) :
    e ∈ bs.flatten ↔ ∃ b, b < bs.length ∧ e ∈ bucket_at bs b := by
  rw [List.mem_flatten]
  constructor
  · rintro ⟨l, hl, he⟩
    obtain ⟨b, hb, rfl⟩ := List.getElem_of_mem hl
    refine ⟨b, hb, ?_⟩
    unfold bucket_at
    rw [List.getD_eq_getElem _ _ hb]
    exact he
  · rintro ⟨b, hb, he⟩
    exact ⟨_, bucket_at_mem bs b hb, he⟩

theorem mem_flatten_set_iff {α : Type} (bs : List (List (Entry α))) (i : Nat)
    (c : List (Entry α)) (hi : i < bs.length) (e : Entry α) :
    e ∈ (bs.set i c).flatten ↔
      (e ∈ c ∨ ∃ b, b < bs.length ∧ b ≠ i ∧ e ∈ bucket_at bs b) := by
  rw [mem_entries_iff, List.length_set]
  constructor
  · rintro ⟨b, hb, he⟩
    rw [bucket_at_set _ _ _ _ hi] at he
    by_cases hbi : b = i
    · rw [if_pos hbi] at he; exact Or.inl he
    · rw [if_neg hbi] at he; exact Or.inr ⟨b, hb, hbi, he⟩
  · rintro (he | ⟨b, hb, hbi, he⟩)
    · exact ⟨i, hi, by rw [bucket_at_set _ _ _ _ hi, if_pos rfl]; exact he⟩
    · exact ⟨b, hb, by rw [bucket_at_set _ _ _ _ hi, if_neg hbi]; exact he⟩

theorem mem_flatten_split_iff {α : Type} (bs : List (List (Entry α))) (i : Nat)
    (hi : i < bs.length) (e : Entry α) :
    e ∈ bs.flatten ↔
      (e ∈ bucket_at bs i ∨ ∃ b, b < bs.length ∧ b ≠ i ∧ e ∈ bucket_at bs b) := by
  rw [mem_entries_iff]
  constructor
  · rintro ⟨b, hb, he⟩
    by_cases hbi : b = i
    · subst hbi; exact Or.inl he
    · exact Or.inr ⟨b, hb, hbi, he⟩
  · rintro (he | ⟨b, hb, _, he⟩)
    · exact ⟨i, hi, he⟩
    · exact ⟨b, hb, he⟩

/-! ## Hash table: search is determined by the set of entries -/

theorem ht_index_lt {α : Type} (ht : HashTable α) (hh : HTInv ht) (k : Key) :
    ht_hash k % ht.capacity_table < ht.buckets.length := by
  rw [hh.len]; exact Nat.mod_lt _ hh.cap_pos

theorem ht_bucket_nodup {α : Type} (ht : HashTable α) (hh : HTInv ht) (b : Nat)
    (hb : b < ht.buckets.length) :
    ((bucket_at ht.buckets b).map Entry.key).Nodup :=
  hh.nodup.sublist ((List.sublist_flatten_of_mem (bucket_at_mem _ _ hb)).map _)

theorem ht_mem_bucket {α : Type} (ht : HashTable α) (hh : HTInv ht) (e : Entry α)
    (he : e ∈ ht_entries ht) :
    e ∈ bucket_at ht.buckets (ht_hash e.key % ht.capacity_table) := by
  obtain ⟨b, hb, heb⟩ := (mem_entries_iff _ _).1 he
  rw [hh.len] at hb
  rw [hh.placed b hb e heb]
  exact heb

theorem ht_search_of_mem {α : Type} (ht : HashTable α) (hh : HTInv ht)
    (e : Entry α) (he : e ∈ ht_entries ht) : (ht_search ht e.key).1 = e.value := by
  simp only [ht_search]
  exact chain_search_of_mem e _ (ht_bucket_nodup ht hh _ (ht_index_lt ht hh _))
    (ht_mem_bucket ht hh e he)

theorem ht_search_of_not_mem {α : Type} (ht : HashTable α) (hh : HTInv ht)
    (k : Key) (hk : k ∉ (ht_entries ht).map Entry.key) :
    (ht_search ht k).1 = Dbl.nan := by
  simp only [ht_search]
  apply chain_search_of_not_mem
  intro hmem
  obtain ⟨e, he, hek⟩ := List.mem_map.1 hmem
  apply hk
  rw [← hek]
  exact List.mem_map_of_mem Entry.key
    (List.mem_flatten_of_mem (bucket_at_mem _ _ (ht_index_lt ht hh k)) he)

theorem ht_search_congr {α : Type} (t1 t2 : HashTable α) (h1 : HTInv t1)
    (h2 : HTInv t2) (hm : ∀ e, e ∈ ht_entries t1 ↔ e ∈ ht_entries t2) (k : Key) :
    (ht_search t1 k).1 = (ht_search t2 k).1 := by
  by_cases hk : k ∈ (ht_entries t1).map Entry.key
  · obtain ⟨e, he, rfl⟩ := List.mem_map.1 hk
    rw [ht_search_of_mem t1 h1 e he, ht_search_of_mem t2 h2 e ((hm e).1 he)]
  · have hk2 : k ∉ (ht_entries t2).map Entry.key := by
      intro hmem
      obtain ⟨e, he, hek⟩ := List.mem_map.1 hmem
      exact hk (hek ▸ List.mem_map_of_mem Entry.key ((hm e).2 he))
    rw [ht_search_of_not_mem t1 h1 k hk, ht_search_of_not_mem t2 h2 k hk2]

theorem ht_other_bucket_key {α : Type} (ht : HashTable α) (hh : HTInv ht)
    (k : Key) (b : Nat) (hb : b < ht.buckets.length)
    (hne : b ≠ ht_hash k % ht.capacity_table) (e : Entry α)
    (he : e ∈ bucket_at ht.buckets b) : e.key ≠ k := by
  intro hek
  apply hne
  rw [← hh.placed b (by rw [← hh.len]; exact hb) e he, hek]

theorem ht_key_mem_iff {α : Type} (ht : HashTable α) (hh : HTInv ht) (k : Key) :
    k ∈ (ht_entries ht).map Entry.key ↔
      k ∈ (bucket_at ht.buckets (ht_hash k % ht.capacity_table)).map Entry.key := by
  constructor
  · intro hk
    obtain ⟨e, he, rfl⟩ := List.mem_map.1 hk
    exact List.mem_map_of_mem Entry.key (ht_mem_bucket ht hh e he)
  · intro hk
    obtain ⟨e, he, rfl⟩ := List.mem_map.1 hk
    exact List.mem_map_of_mem Entry.key
      (List.mem_flatten_of_mem (bucket_at_mem _ _ (ht_index_lt ht hh _)) he)

/-! ## Hash table: insert and delete keep the invariant -/

theorem ht_replace_inv {α : Type} (ht : HashTable α) (hh : HTInv ht) (i : Nat)
    (hi : i < ht.buckets.length) (c : List (Entry α)) (n : Nat)
    (hplaced : ∀ e ∈ c, ht_hash e.key % ht.capacity_table = i)
    (hnodup : (((ht.buckets.take i).flatten ++
      (c ++ (ht.buckets.drop (i + 1)).flatten)).map Entry.key).Nodup)
    (hcount : n = ((ht.buckets.take i).flatten ++
      (c ++ (ht.buckets.drop (i + 1)).flatten)).length) :
    HTInv { ht with buckets := ht.buckets.set i c, count := n } := by
  constructor
  · simp only [List.length_set]; exact hh.len
  · exact hh.cap_pos
  · intro b hb e he
    simp only at hb he ⊢
    rw [bucket_at_set _ _ _ _ hi] at he
    by_cases hbi : b = i
    · rw [if_pos hbi] at he
      rw [hbi]; exact hplaced e he
    · rw [if_neg hbi] at he
      exact hh.placed b hb e he
  · simp only [ht_entries]
    rw [flatten_set _ _ _ hi]
    exact hnodup
  · simp only [ht_entries]
    rw [flatten_set _ _ _ hi]
    exact hcount

theorem ht_insert_place_spec {α : Type} (ht : HashTable α) (hh : HTInv ht)
    (k : Key) (v : Dbl α) :
    HTInv (ht_insert_place ht k v) ∧
    (ht_insert_place ht k v).capacity_table = ht.capacity_table ∧
    (∀ e, e ∈ ht_entries (ht_insert_place ht k v) ↔
      (e = { key := k, value := v } ∨ (e ∈ ht_entries ht ∧ e.key ≠ k))) ∧
    (k ∈ (ht_entries ht).map Entry.key →
      (ht_insert_place ht k v).count = ht.count) ∧
    (k ∉ (ht_entries ht).map Entry.key →
      (ht_insert_place ht k v).count = ht.count + 1) := by
  have hi := ht_index_lt ht hh k
  have hsplit := flatten_split ht.buckets _ hi
  have hnd := hh.nodup
  have hcnt := hh.count_eq
  simp only [ht_entries] at hnd hcnt
  have hbnd := ht_bucket_nodup ht hh _ hi
  have hmemold : ∀ e, (e ∈ ht_entries ht ∧ e.key ≠ k) ↔
      ((e ∈ bucket_at ht.buckets (ht_hash k % ht.capacity_table) ∧ e.key ≠ k) ∨
        ∃ b, b < ht.buckets.length ∧ b ≠ ht_hash k % ht.capacity_table ∧
          e ∈ bucket_at ht.buckets b) := by
    intro e
    simp only [ht_entries]
    rw [mem_flatten_split_iff _ _ hi]
    constructor
    · rintro ⟨he | he, hne⟩
      · exact Or.inl ⟨he, hne⟩
      · exact Or.inr he
    · rintro (⟨he, hne⟩ | ⟨b, hb, hbi, he⟩)
      · exact ⟨Or.inl he, hne⟩
      · exact ⟨Or.inr ⟨b, hb, hbi, he⟩, ht_other_bucket_key ht hh k b hb hbi e he⟩
  cases hcu : chain_update k v (bucket_at ht.buckets (ht_hash k % ht.capacity_table)) with
  | none =>
    have hkc := (chain_update_none_iff k v _).1 hcu
    have hkt : k ∉ (ht_entries ht).map Entry.key :=
      fun h => hkc ((ht_key_mem_iff ht hh k).1 h)
    have heq : ht_insert_place ht k v = { ht with
        buckets := ht.buckets.set (ht_hash k % ht.capacity_table)
          ({ key := k, value := v } ::
            bucket_at ht.buckets (ht_hash k % ht.capacity_table))
        count := ht.count + 1 } := by
      simp only [ht_insert_place, hcu]
    rw [heq]
    refine ⟨?_, rfl, ?_, fun h => absurd h hkt, fun _ => rfl⟩
    · apply ht_replace_inv ht hh _ hi
      · intro e he
        rcases List.mem_cons.1 he with he | he
        · rw [he]
        · exact hh.placed _ (Nat.mod_lt _ hh.cap_pos) e he
      · have hp : ((ht.buckets.take (ht_hash k % ht.capacity_table)).flatten ++
            (({ key := k, value := v } :: bucket_at ht.buckets
              (ht_hash k % ht.capacity_table)) ++
              (ht.buckets.drop (ht_hash k % ht.capacity_table + 1)).flatten)).Perm
            ({ key := k, value := v } :: ht.buckets.flatten) := by
          rw [hsplit, List.cons_append]
          exact List.perm_middle
        rw [(hp.map Entry.key).nodup_iff, List.map_cons, List.nodup_cons]
        exact ⟨hkt, hnd⟩
      · rw [hcnt, hsplit]
        simp only [List.length_append, List.length_cons]
        omega
    · intro e
      simp only [ht_entries]
      rw [mem_flatten_set_iff _ _ _ hi, List.mem_cons]
      have := hmemold e
      simp only [ht_entries] at this
      rw [this]
      constructor
      · rintro ((he | he) | he)
        · exact Or.inl he
        · refine Or.inr (Or.inl ⟨he, ?_⟩)
          intro hek
          exact hkc (List.mem_map.2 ⟨e, he, hek⟩)
        · exact Or.inr (Or.inr he)
      · rintro (he | ⟨he, _⟩ | he)
        · exact Or.inl (Or.inl he)
        · exact Or.inl (Or.inr he)
        · exact Or.inr he
  | some c1 =>
    have hkc : k ∈ (bucket_at ht.buckets (ht_hash k % ht.capacity_table)).map
        Entry.key := by
      by_contra hneg
      rw [(chain_update_none_iff k v _).2 hneg] at hcu
      cases hcu
    have hkt : k ∈ (ht_entries ht).map Entry.key := (ht_key_mem_iff ht hh k).2 hkc
    obtain ⟨u1, u2, u3⟩ := chain_update_some k v _ c1 hcu hbnd
    have heq : ht_insert_place ht k v = { ht with
        buckets := ht.buckets.set (ht_hash k % ht.capacity_table) c1
        count := ht.count } := by
      simp only [ht_insert_place, hcu]
    rw [heq]
    refine ⟨?_, rfl, ?_, fun _ => rfl, fun h => absurd hkt h⟩
    · apply ht_replace_inv ht hh _ hi
      · intro e he
        rcases (u3 e).1 he with he | ⟨he, _⟩
        · rw [he]
        · exact hh.placed _ (Nat.mod_lt _ hh.cap_pos) e he
      · rw [List.map_append, List.map_append, u2, ← List.map_append,
          ← List.map_append, ← hsplit]
        exact hnd
      · rw [hcnt, hsplit]
        simp only [List.length_append, u1]
    · intro e
      simp only [ht_entries]
      rw [mem_flatten_set_iff _ _ _ hi, u3 e]
      have := hmemold e
      simp only [ht_entries] at this
      rw [this]
      constructor
      · rintro ((he | he) | he)
        · exact Or.inl he
        · exact Or.inr (Or.inl he)
        · exact Or.inr (Or.inr he)
      · rintro (he | he | he)
        · exact Or.inl (Or.inl he)
        · exact Or.inl (Or.inr he)
        · exact Or.inr he

theorem ht_delete_spec {α : Type} (ht : HashTable α) (hh : HTInv ht) (k : Key)
    (hk : k ∈ (ht_entries ht).map Entry.key) :
    (ht_delete ht k).1 = 0 ∧
    HTInv (ht_delete ht k).2 ∧
    (ht_delete ht k).2.capacity_table = ht.capacity_table ∧
    (ht_delete ht k).2.count + 1 = ht.count ∧
    (∀ e, e ∈ ht_entries (ht_delete ht k).2 ↔ (e ∈ ht_entries ht ∧ e.key ≠ k)) := by
  have hi := ht_index_lt ht hh k
  have hsplit := flatten_split ht.buckets _ hi
  have hnd := hh.nodup
  have hcnt := hh.count_eq
  simp only [ht_entries] at hnd hcnt
  have hbnd := ht_bucket_nodup ht hh _ hi
  have hkc := (ht_key_mem_iff ht hh k).1 hk
  cases hcu : chain_unlink k (bucket_at ht.buckets (ht_hash k % ht.capacity_table)) with
  | none => exact absurd hkc ((chain_unlink_none_iff k _).1 hcu)
  | some c1 =>
    obtain ⟨u1, u2, u3⟩ := chain_unlink_some k _ c1 hcu hbnd
    have heq : ht_delete ht k = (0, { ht with
        buckets := ht.buckets.set (ht_hash k % ht.capacity_table) c1
        count := ht.count - 1 }) := by
      simp only [ht_delete, hcu]
    have hlen : ht.count = ((ht.buckets.take (ht_hash k % ht.capacity_table)).flatten ++
        (c1 ++ (ht.buckets.drop (ht_hash k % ht.capacity_table + 1)).flatten)).length + 1 := by
      rw [hcnt, hsplit]
      simp only [List.length_append]
      omega
    rw [heq]
    refine ⟨rfl, ?_, rfl, ?_, ?_⟩
    · apply ht_replace_inv ht hh _ hi
      · intro e he
        exact hh.placed _ (Nat.mod_lt _ hh.cap_pos) e ((u3 e).1 he).1
      · refine hnd.sublist (List.Sublist.map _ ?_)
        rw [hsplit]
        exact (List.Sublist.refl _).append (u2.append (List.Sublist.refl _))
      · omega
    · simp only; omega
    · intro e
      simp only [ht_entries]
      rw [mem_flatten_set_iff _ _ _ hi, u3 e, mem_flatten_split_iff _ _ hi]
      constructor
      · rintro (⟨he, hne⟩ | ⟨b, hb, hbi, he⟩)
        · exact ⟨Or.inl he, hne⟩
        · exact ⟨Or.inr ⟨b, hb, hbi, he⟩, ht_other_bucket_key ht hh k b hb hbi e he⟩
      · rintro ⟨he | he, hne⟩
        · exact Or.inl ⟨he, hne⟩
        · exact Or.inr he

theorem ht_delete_absent {α : Type} (ht : HashTable α) (hh : HTInv ht) (k : Key)
    (hk : k ∉ (ht_entries ht).map Entry.key) : ht_delete ht k = (-1, ht) := by
  have hkc : k ∉ (bucket_at ht.buckets (ht_hash k % ht.capacity_table)).map
      Entry.key := fun h => hk ((ht_key_mem_iff ht hh k).2 h)
  simp only [ht_delete, (chain_unlink_none_iff k _).2 hkc]

/-! ## Hash table: rehash -/

theorem flatten_push_perm {α : Type} (bs : List (List (Entry α))) (i : Nat)
    (hi : i < bs.length) (e : Entry α) :
    (bs.set i (e :: bucket_at bs i)).flatten.Perm (e :: bs.flatten) := by
  rw [flatten_set _ _ _ hi, flatten_split bs i hi, List.cons_append]
  exact List.perm_middle

theorem ht_rehash_chain_spec {α : Type} (nc : Nat) (hnc : 0 < nc)
    (chain : List (Entry α)) :
    ∀ nb : List (List (Entry α)), nb.length = nc →
      (∀ b, b < nc → ∀ e ∈ bucket_at nb b, ht_hash e.key % nc = b) →
      (ht_rehash_chain nc nb chain).length = nc ∧
      (∀ b, b < nc → ∀ e ∈ bucket_at (ht_rehash_chain nc nb chain) b,
        ht_hash e.key % nc = b) ∧
      (ht_rehash_chain nc nb chain).flatten.Perm (chain ++ nb.flatten) := by
  induction chain with
  | nil => intro nb hlen hpl; exact ⟨hlen, hpl, List.Perm.refl _⟩
  | cons x chain ih =>
    intro nb hlen hpl
    have hi : ht_hash x.key % nc < nb.length := by rw [hlen]; exact Nat.mod_lt _ hnc
    have hstep : ht_rehash_chain nc nb (x :: chain)
        = ht_rehash_chain nc
            (nb.set (ht_hash x.key % nc) (x :: bucket_at nb (ht_hash x.key % nc)))
            chain := by
      simp only [ht_rehash_chain, List.foldl_cons]
    rw [hstep]
    obtain ⟨h1, h2, h3⟩ := ih
      (nb.set (ht_hash x.key % nc) (x :: bucket_at nb (ht_hash x.key % nc)))
      (by rw [List.length_set]; exact hlen)
      (by
        intro b hb e he
        rw [bucket_at_set _ _ _ _ hi] at he
        by_cases hbi : b = ht_hash x.key % nc
        · rw [if_pos hbi] at he
          rcases List.mem_cons.1 he with he | he
          · rw [he, hbi]
          · rw [hbi]; exact hpl _ (Nat.mod_lt _ hnc) e he
        · rw [if_neg hbi] at he
          exact hpl b hb e he)
    refine ⟨h1, h2, h3.trans ?_⟩
    refine ((flatten_push_perm nb _ hi x).append_left chain).trans ?_
    rw [List.cons_append]
    exact List.perm_middle

theorem ht_rehash_fold_spec {α : Type} (nc : Nat) (hnc : 0 < nc)
    (cs : List (List (Entry α))) :
    ∀ nb : List (List (Entry α)), nb.length = nc →
      (∀ b, b < nc → ∀ e ∈ bucket_at nb b, ht_hash e.key % nc = b) →
      (cs.foldl (ht_rehash_chain nc) nb).length = nc ∧
      (∀ b, b < nc → ∀ e ∈ bucket_at (cs.foldl (ht_rehash_chain nc) nb) b,
        ht_hash e.key % nc = b) ∧
      (cs.foldl (ht_rehash_chain nc) nb).flatten.Perm (cs.flatten ++ nb.flatten) := by
  induction cs with
  | nil => intro nb hlen hpl; exact ⟨hlen, hpl, List.Perm.refl _⟩
  | cons c cs ih =>
    intro nb hlen hpl
    obtain ⟨g1, g2, g3⟩ := ht_rehash_chain_spec nc hnc c nb hlen hpl
    obtain ⟨h1, h2, h3⟩ := ih _ g1 g2
    simp only [List.foldl_cons, List.flatten_cons]
    refine ⟨h1, h2, h3.trans ?_⟩
    refine (g3.append_left cs.flatten).trans ?_
    rw [← List.append_assoc]
    exact List.Perm.append_right _ List.perm_append_comm

theorem range_map_bucket_at {α : Type} (bs : List (List (Entry α))) :
    (List.range bs.length).map (bucket_at bs) = bs := by
  apply List.ext_getElem
  · simp
  · intro n h1 h2
    simp [bucket_at, List.getD_eq_getElem?_getD, h2]

theorem flatten_replicate_nil {α : Type} (n : Nat) :
    (List.replicate n ([] : List (Entry α))).flatten = [] := by
  induction n with
  | zero => rfl
  | succ n ih => simp [List.replicate_succ, ih]

theorem bucket_at_replicate_nil {α : Type} (n b : Nat) :
    bucket_at (List.replicate n ([] : List (Entry α))) b = [] := by
  simp only [bucket_at, List.getD_eq_getElem?_getD, List.getElem?_replicate]
  split <;> rfl

theorem ht_rehash_spec {α : Type} (ht : HashTable α) (hh : HTInv ht) :
    (ht_rehash ht).1 = 0 ∧ HTInv (ht_rehash ht).2 ∧
    (ht_rehash ht).2.capacity_table = 2 * ht.capacity_table ∧
    (ht_rehash ht).2.count = ht.count ∧
    (ht_entries (ht_rehash ht).2).Perm (ht_entries ht) := by
  have hc := hh.cap_pos
  have hfold : (ht_rehash ht).2.buckets
      = ht.buckets.foldl (ht_rehash_chain (ht.capacity_table * 2))
          (List.replicate (ht.capacity_table * 2) []) := by
    simp only [ht_rehash]
    rw [← List.foldl_map (bucket_at ht.buckets)
      (ht_rehash_chain (ht.capacity_table * 2)), ← hh.len, range_map_bucket_at]
  obtain ⟨h1, h2, h3⟩ := ht_rehash_fold_spec (ht.capacity_table * 2) (by omega)
    ht.buckets (List.replicate (ht.capacity_table * 2) []) (by simp)
    (by
      intro b _ e he
      rw [bucket_at_replicate_nil] at he
      simp at he)
  rw [← hfold, flatten_replicate_nil, List.append_nil] at h3
  rw [← hfold] at h1 h2
  have hcap : (ht_rehash ht).2.capacity_table = ht.capacity_table * 2 := rfl
  refine ⟨rfl, ⟨?_, ?_, ?_, ?_, ?_⟩, by rw [hcap]; omega, rfl, h3⟩
  · rw [h1, hcap]
  · rw [hcap]; omega
  · rw [hcap]; exact h2
  · exact ((h3.map Entry.key).nodup_iff).2 hh.nodup
  · have hcount : (ht_rehash ht).2.count = ht.count := rfl
    rw [hcount, hh.count_eq]
    exact h3.length_eq.symm

theorem ht_rehash_search {α : Type} (ht : HashTable α) (hh : HTInv ht) (k : Key) :
    (ht_search (ht_rehash ht).2 k).1 = (ht_search ht k).1 := by
  obtain ⟨_, h2, _, _, h5⟩ := ht_rehash_spec ht hh
  exact ht_search_congr _ _ h2 hh (fun e => h5.mem_iff) k

theorem ht_insert_spec {α : Type} (ht : HashTable α) (hh : HTInv ht)
    (k : Key) (v : Dbl α) :
    HTInv (ht_insert ht k v) ∧
    (∀ e, e ∈ ht_entries (ht_insert ht k v) ↔
      (e = { key := k, value := v } ∨ (e ∈ ht_entries ht ∧ e.key ≠ k))) ∧
    (k ∈ (ht_entries ht).map Entry.key → (ht_insert ht k v).count = ht.count) ∧
    (k ∉ (ht_entries ht).map Entry.key →
      (ht_insert ht k v).count = ht.count + 1) := by
  unfold ht_insert
  split
  · obtain ⟨_, r2, _, r4, r5⟩ := ht_rehash_spec ht hh
    obtain ⟨p1, _, p3, p4, p5⟩ := ht_insert_place_spec (ht_rehash ht).2 r2 k v
    have hkeys : k ∈ (ht_entries (ht_rehash ht).2).map Entry.key ↔
        k ∈ (ht_entries ht).map Entry.key := (r5.map Entry.key).mem_iff
    refine ⟨p1, ?_, ?_, ?_⟩
    · intro e
      rw [p3 e, r5.mem_iff]
    · intro hk; rw [p4 (hkeys.2 hk), r4]
    · intro hk; rw [p5 (fun h => hk (hkeys.1 h)), r4]
  · obtain ⟨p1, _, p3, p4, p5⟩ := ht_insert_place_spec ht hh k v
    exact ⟨p1, p3, p4, p5⟩

theorem ht_insert_capacity {α : Type} (ht : HashTable α) (hh : HTInv ht)
    (k : Key) (v : Dbl α) :
    (ht_insert ht k v).capacity_table
      = if ht_overloaded ht = true then 2 * ht.capacity_table
        else ht.capacity_table := by
  unfold ht_insert
  split
  · obtain ⟨_, r2, r3, _, _⟩ := ht_rehash_spec ht hh
    rw [(ht_insert_place_spec (ht_rehash ht).2 r2 k v).2.1, r3]
  · exact (ht_insert_place_spec ht hh k v).2.1

theorem ht_create_inv {α : Type} : HTInv (ht_create : HashTable α) := by
  constructor
  · simp [ht_create]
  · simp [ht_create, DEFAULT_SIZE]
  · intro b _ e he
    simp only [ht_create] at he
    rw [bucket_at_replicate_nil] at he
    simp at he
  · simp [ht_entries, ht_create, flatten_replicate_nil]
  · simp [ht_entries, ht_create, flatten_replicate_nil]

theorem ht_search_state {α : Type} (ht : HashTable α) (k : Key) :
    (ht_search ht k).2 = ht := rfl

theorem ht_delete_inv {α : Type} (ht : HashTable α) (hh : HTInv ht) (k : Key) :
    HTInv (ht_delete ht k).2 := by
  by_cases hk : k ∈ (ht_entries ht).map Entry.key
  · exact (ht_delete_spec ht hh k hk).2.1
  · rw [ht_delete_absent ht hh k hk]; exact hh

theorem ht_reach_inv {α : Type} (ht : HashTable α) (h : HTReach ht) : HTInv ht := by
  induction h with
  | create => exact ht_create_inv
  | insert ht k v _ ih => exact (ht_insert_spec ht ih k v).1
  | delete ht k _ ih => exact ht_delete_inv ht ih k
  | search ht k _ ih => exact ih

/-! ## Hash table: the map implemented by the table -/

theorem ht_keys_insert {α : Type} (ht : HashTable α) (hh : HTInv ht)
    (k0 : Key) (v0 : Dbl α) (k : Key) :
    k ∈ (ht_entries (ht_insert ht k0 v0)).map Entry.key ↔
      (k = k0 ∨ k ∈ (ht_entries ht).map Entry.key) := by
  obtain ⟨_, hm, _, _⟩ := ht_insert_spec ht hh k0 v0
  constructor
  · intro hk
    obtain ⟨e, he, rfl⟩ := List.mem_map.1 hk
    rcases (hm e).1 he with he | ⟨he, _⟩
    · left; rw [he]
    · right; exact List.mem_map_of_mem Entry.key he
  · rintro (hk | hk)
    · exact List.mem_map.2 ⟨{ key := k0, value := v0 }, (hm _).2 (Or.inl rfl), hk.symm⟩
    · obtain ⟨e, he, rfl⟩ := List.mem_map.1 hk
      by_cases hek : e.key = k0
      · exact List.mem_map.2
          ⟨{ key := k0, value := v0 }, (hm _).2 (Or.inl rfl), hek.symm⟩
      · exact List.mem_map_of_mem Entry.key ((hm e).2 (Or.inr ⟨he, hek⟩))

theorem ht_search_insert {α : Type} (ht : HashTable α) (hh : HTInv ht)
    (k0 : Key) (v0 : Dbl α) (k : Key) :
    (ht_search (ht_insert ht k0 v0) k).1
      = if k = k0 then v0 else (ht_search ht k).1 := by
  obtain ⟨hi, hm, _, _⟩ := ht_insert_spec ht hh k0 v0
  by_cases hk : k = k0
  · subst hk
    rw [if_pos rfl]
    exact ht_search_of_mem _ hi { key := k, value := v0 } ((hm _).2 (Or.inl rfl))
  · rw [if_neg hk]
    by_cases hkt : k ∈ (ht_entries ht).map Entry.key
    · obtain ⟨e, he, rfl⟩ := List.mem_map.1 hkt
      rw [ht_search_of_mem ht hh e he]
      exact ht_search_of_mem _ hi e ((hm e).2 (Or.inr ⟨he, hk⟩))
    · rw [ht_search_of_not_mem ht hh k hkt]
      apply ht_search_of_not_mem _ hi
      intro hmem
      rcases (ht_keys_insert ht hh k0 v0 k).1 hmem with h | h
      · exact hk h
      · exact hkt h

theorem ht_search_delete {α : Type} (ht : HashTable α) (hh : HTInv ht)
    (k0 : Key) (hk0 : k0 ∈ (ht_entries ht).map Entry.key) (k : Key) :
    (ht_search (ht_delete ht k0).2 k).1
      = if k = k0 then Dbl.nan else (ht_search ht k).1 := by
  obtain ⟨_, hi, _, _, hm⟩ := ht_delete_spec ht hh k0 hk0
  by_cases hk : k = k0
  · subst hk
    rw [if_pos rfl]
    apply ht_search_of_not_mem _ hi
    intro hmem
    obtain ⟨e, he, hek⟩ := List.mem_map.1 hmem
    exact ((hm e).1 he).2 hek
  · rw [if_neg hk]
    by_cases hkt : k ∈ (ht_entries ht).map Entry.key
    · obtain ⟨e, he, rfl⟩ := List.mem_map.1 hkt
      rw [ht_search_of_mem ht hh e he]
      exact ht_search_of_mem _ hi e ((hm e).2 ⟨he, hk⟩)
    · rw [ht_search_of_not_mem ht hh k hkt]
      apply ht_search_of_not_mem _ hi
      intro hmem
      obtain ⟨e, he, hek⟩ := List.mem_map.1 hmem
      exact hkt (hek ▸ List.mem_map_of_mem Entry.key ((hm e).1 he).1)

theorem ht_insert_all_spec {α : Type} (kvs : List (Key × Dbl α)) :
    ∀ ht : HashTable α, HTInv ht →
      HTInv (ht_insert_all ht kvs) ∧
      ∀ k, (ht_search (ht_insert_all ht kvs) k).1
        = if k ∈ kvs.map Prod.fst then last_write k kvs else (ht_search ht k).1 := by
  induction kvs with
  | nil => intro ht hh; simp [ht_insert_all, hh]
  | cons kv kvs ih =>
    intro ht hh
    obtain ⟨h1, h2⟩ := ih (ht_insert ht kv.1 kv.2) (ht_insert_spec ht hh kv.1 kv.2).1
    simp only [ht_insert_all]
    refine ⟨h1, ?_⟩
    intro k
    rw [h2 k, ht_search_insert ht hh]
    simp only [last_write, List.map_cons, List.mem_cons]
    by_cases hk : k ∈ kvs.map Prod.fst
    · simp [hk]
    · by_cases hk0 : k = kv.1
      · simp [hk, hk0]
      · have hk1 : ¬ kv.1 = k := fun h => hk0 h.symm
        simp [hk, hk0, hk1]

theorem ht_insert_all_count {α : Type} (kvs : List (Key × Dbl α)) :
    ∀ ht : HashTable α, HTInv ht → (kvs.map Prod.fst).Nodup →
      (∀ k ∈ kvs.map Prod.fst, k ∉ (ht_entries ht).map Entry.key) →
      (ht_insert_all ht kvs).count = ht.count + kvs.length := by
  induction kvs with
  | nil => intro ht _ _ _; rfl
  | cons kv kvs ih =>
    intro ht hh hnd hfresh
    simp only [List.map_cons, List.nodup_cons] at hnd
    obtain ⟨hi, _, _, hc⟩ := ht_insert_spec ht hh kv.1 kv.2
    simp only [ht_insert_all]
    rw [ih _ hi hnd.2, hc (hfresh kv.1 (by simp)), List.length_cons]
    · omega
    · intro k hk hmem
      rcases (ht_keys_insert ht hh kv.1 kv.2 k).1 hmem with h | h
      · exact hnd.1 (h ▸ hk)
      · exact hfresh k (by simp [hk]) h

theorem last_write_of_mem {α : Type} (kvs : List (Key × Dbl α))
    (hnd : (kvs.map Prod.fst).Nodup) (kv : Key × Dbl α) (hkv : kv ∈ kvs) :
    last_write kv.1 kvs = kv.2 := by
  induction kvs with
  | nil => simp at hkv
  | cons x kvs ih =>
    simp only [List.map_cons, List.nodup_cons] at hnd
    simp only [last_write]
    rcases List.mem_cons.1 hkv with h | h
    · subst h
      rw [if_neg hnd.1, if_pos rfl]
    · have hmem : kv.1 ∈ kvs.map Prod.fst := List.mem_map_of_mem Prod.fst h
      rw [if_pos hmem]
      exact ih hnd.2 h

theorem countP_key_of_mem {α : Type} (k : Key) (l : List (Entry α))
    (hnd : (l.map Entry.key).Nodup) (hk : k ∈ l.map Entry.key) :
    l.countP (fun e => decide (e.key = k)) = 1 := by
  induction l with
  | nil => simp at hk
  | cons x l ih =>
    simp only [List.map_cons, List.nodup_cons] at hnd
    simp only [List.map_cons, List.mem_cons] at hk
    by_cases hx : x.key = k
    · have hz : l.countP (fun e => decide (e.key = k)) = 0 := by
        rw [List.countP_eq_zero]
        intro e he
        simp only [decide_eq_true_eq]
        intro hek
        exact hnd.1 (hx ▸ hek ▸ List.mem_map_of_mem Entry.key he)
      rw [List.countP_cons_of_pos _ _ (by simpa using hx), hz]
    · rw [List.countP_cons_of_neg _ _ (by simpa using hx)]
      rcases hk with hk | hk
      · exact absurd hk.symm hx
      · exact ih hnd.2 hk

theorem ht_key_count_of_mem {α : Type} (ht : HashTable α) (hh : HTInv ht)
    (k : Key) (hk : k ∈ (ht_entries ht).map Entry.key) : ht_key_count ht k = 1 :=
  countP_key_of_mem k _ hh.nodup hk

/-- C4 (lookup returns the latest written value). For every sequence `kvs` of
`ht_insert` calls applied to the table returned by `ht_create` and every key
`k`, `ht_search` returns the value of the last call whose key equals `k`, and
the NaN signal when no call used `k`; `ht_search` leaves the table
unchanged. -/
theorem ht_search_latest :
    ∀ (α : Type) (kvs : List (Key × Dbl α)) (k : Key),
      (ht_search (ht_insert_all ht_create kvs) k).1 = last_write k kvs ∧
      (ht_search (ht_insert_all ht_create kvs) k).2 = ht_insert_all ht_create kvs := by
  intro α kvs k
  refine ⟨?_, rfl⟩
  rw [(ht_insert_all_spec kvs ht_create ht_create_inv).2 k]
  split
  · rfl
  · rename_i hk
    rw [ht_search_of_not_mem _ ht_create_inv k
      (by simp [ht_entries, ht_create, flatten_replicate_nil])]
    clear * - hk
    induction kvs with
    | nil => rfl
    | cons kv kvs ih =>
      simp only [List.map_cons, List.mem_cons, not_or] at hk
      simp only [last_write]
      rw [if_neg hk.2, if_neg (fun h => hk.1 h.symm)]

/-- C5 (rehash preserves the map). For every reachable table, `ht_rehash`
returns 0, doubles the bucket capacity, keeps `count`, and keeps the result of
`ht_search` for every key; and inserting `n >= 71` distinct keys into a fresh
table leaves `count = n` and every key searchable with the value it was
inserted with. -/
theorem ht_rehash_preserves :
    (∀ (α : Type) (t : HashTable α), HTReach t →
      (ht_rehash t).1 = 0 ∧
      (ht_rehash t).2.capacity_table = 2 * t.capacity_table ∧
      (ht_rehash t).2.count = t.count ∧
      ∀ k, (ht_search (ht_rehash t).2 k).1 = (ht_search t k).1) ∧
    (∀ (α : Type) (kvs : List (Key × Dbl α)), (kvs.map Prod.fst).Nodup →
      71 ≤ kvs.length →
      (ht_insert_all ht_create kvs).count = kvs.length ∧
      ∀ kv ∈ kvs, (ht_search (ht_insert_all ht_create kvs) kv.1).1 = kv.2) := by
  refine ⟨?_, ?_⟩
  · intro α t ht
    have hh := ht_reach_inv t ht
    obtain ⟨r1, _, r3, r4, _⟩ := ht_rehash_spec t hh
    exact ⟨r1, r3, r4, ht_rehash_search t hh⟩
  · intro α kvs hnd _
    refine ⟨?_, ?_⟩
    · rw [ht_insert_all_count kvs ht_create ht_create_inv hnd
        (by intro k _; simp [ht_entries, ht_create, flatten_replicate_nil])]
      simp [ht_create]
    · intro kv hkv
      rw [(ht_insert_all_spec kvs ht_create ht_create_inv).2 kv.1,
        if_pos (List.mem_map_of_mem Prod.fst hkv)]
      exact last_write_of_mem kvs hnd kv hkv

/-- C6 (delete removes exactly one key). For every reachable table `t` and key
`k` present in `t`, `ht_delete` returns 0, decrements `count` by exactly 1,
makes `ht_search k` return the NaN signal, and leaves the `ht_search` result of
every other key unchanged. -/
theorem ht_delete_removes (α : Type) (t : HashTable α) (hr : HTReach t) (k : Key)
    (hk : k ∈ (ht_entries t).map Entry.key) :
    (ht_delete t k).1 = 0 ∧
    0 < t.count ∧ (ht_delete t k).2.count = t.count - 1 ∧
    (ht_search (ht_delete t k).2 k).1 = Dbl.nan ∧
    ∀ k1, k1 ≠ k → (ht_search (ht_delete t k).2 k1).1 = (ht_search t k1).1 := by
  have hh := ht_reach_inv t hr
  obtain ⟨d1, _, _, d4, _⟩ := ht_delete_spec t hh k hk
  refine ⟨d1, by omega, by omega, ?_, ?_⟩
  · rw [ht_search_delete t hh k hk, if_pos rfl]
  · intro k1 hne
    rw [ht_search_delete t hh k hk, if_neg hne]

/-- C7 (overwrite keeps the count). For every reachable table `t`, key `k`
already present in `t` and value `v`, `ht_insert t k v` leaves `count` and the
number of entries unchanged, the number of entries with key `k` is exactly 1
before and after, and `ht_search k` afterwards returns `v`; all this also
when the call rehashes first, which it does (doubling the capacity) exactly
when the table is overloaded. -/
theorem ht_overwrite_keeps_count (α : Type) (t : HashTable α) (hr : HTReach t)
    (k : Key) (v : Dbl α) (hk : k ∈ (ht_entries t).map Entry.key) :
    (ht_insert t k v).count = t.count ∧
    (ht_entries (ht_insert t k v)).length = (ht_entries t).length ∧
    ht_key_count t k = 1 ∧
    ht_key_count (ht_insert t k v) k = 1 ∧
    (ht_search (ht_insert t k v) k).1 = v ∧
    (ht_insert t k v).capacity_table
      = if ht_overloaded t = true then 2 * t.capacity_table else t.capacity_table := by
  have hh := ht_reach_inv t hr
  obtain ⟨i1, _, i3, _⟩ := ht_insert_spec t hh k v
  have hk1 : k ∈ (ht_entries (ht_insert t k v)).map Entry.key :=
    (ht_keys_insert t hh k v k).2 (Or.inl rfl)
  refine ⟨i3 hk, ?_, ht_key_count_of_mem t hh k hk,
    ht_key_count_of_mem _ i1 k hk1, ?_, ht_insert_capacity t hh k v⟩
  · rw [← i1.count_eq, ← hh.count_eq, i3 hk]
  · rw [ht_search_insert t hh, if_pos rfl]

theorem ht_sample_reach : HTReach ht_sample :=
  HTReach.insert _ _ _ (HTReach.insert _ _ _ HTReach.create)

theorem ht_sample_writes_nodup : (ht_sample_writes.map Prod.fst).Nodup := by
  simp only [ht_sample_writes, List.map_map]
  refine (List.nodup_range 72).map ?_
  intro a b hab
  simpa using hab

/-- Instance of C5: rehashing the sample table, and loading a fresh table with
72 distinct keys. -/
theorem ht_rehash_preserves_witness :
    (HTReach ht_sample ∧ (ht_rehash ht_sample).2.count = ht_sample.count) ∧
    ((ht_sample_writes.map Prod.fst).Nodup ∧ 71 ≤ ht_sample_writes.length ∧
      (ht_insert_all ht_create ht_sample_writes).count = ht_sample_writes.length) :=
  ⟨⟨ht_sample_reach, (ht_rehash_preserves.1 ℚ ht_sample ht_sample_reach).2.2.1⟩,
    ⟨ht_sample_writes_nodup, by simp [ht_sample_writes],
      (ht_rehash_preserves.2 ℚ ht_sample_writes ht_sample_writes_nodup
        (by simp [ht_sample_writes])).1⟩⟩

/-- Instance of C6: deleting key "A" from the sample table. -/
theorem ht_delete_removes_witness :
    HTReach ht_sample ∧ [65] ∈ (ht_entries ht_sample).map Entry.key ∧
    (ht_delete ht_sample [65]).1 = 0 ∧
    (ht_search (ht_delete ht_sample [65]).2 [65]).1 = Dbl.nan :=
  ⟨ht_sample_reach, by decide,
    (ht_delete_removes ℚ ht_sample ht_sample_reach [65] (by decide)).1,
    (ht_delete_removes ℚ ht_sample ht_sample_reach [65] (by decide)).2.2.2.1⟩

/-- Instance of C7: overwriting key "B" of the sample table. -/
theorem ht_overwrite_keeps_count_witness :
    HTReach ht_sample ∧ [66] ∈ (ht_entries ht_sample).map Entry.key ∧
    (ht_insert ht_sample [66] (Dbl.num 7)).count = ht_sample.count ∧
    (ht_search (ht_insert ht_sample [66] (Dbl.num 7)) [66]).1 = Dbl.num 7 :=
  ⟨ht_sample_reach, by decide,
    (ht_overwrite_keeps_count ℚ ht_sample ht_sample_reach [66] (Dbl.num 7)
      (by decide)).1,
    (ht_overwrite_keeps_count ℚ ht_sample ht_sample_reach [66] (Dbl.num 7)
      (by decide)).2.2.2.2.1⟩

/-! ## Linked list: the node store -/

theorem node_at_lt {α : Type} (mem : List (Option (Node α))) (a : Nat)
    (n : Node α) (h : node_at mem a = some n) : a < mem.length := by
  by_contra hlt
  simp [node_at, List.getD_eq_getElem?_getD, List.getElem?_eq_none (not_lt.1 hlt)] at h

theorem node_at_append_left {α : Type} (mem l : List (Option (Node α))) (a : Nat)
    (h : a < mem.length) : node_at (mem ++ l) a = node_at mem a := by
  simp [node_at, List.getD_eq_getElem?_getD, List.getElem?_append_left h]

theorem node_at_append_new {α : Type} (mem : List (Option (Node α)))
    (x : Option (Node α)) : node_at (mem ++ [x]) mem.length = x := by
  simp [node_at, List.getD_eq_getElem?_getD]

theorem node_at_set_eq {α : Type} (mem : List (Option (Node α))) (i : Nat)
    (x : Option (Node α)) (h : i < mem.length) : node_at (mem.set i x) i = x := by
  simp [node_at, List.getD_eq_getElem?_getD, List.getElem?_set, h]

theorem node_at_set_ne {α : Type} (mem : List (Option (Node α))) (i j : Nat)
    (x : Option (Node α)) (h : i ≠ j) :
    node_at (mem.set i x) j = node_at mem j := by
  simp [node_at, List.getD_eq_getElem?_getD, List.getElem?_set, h]

/-! ## Linked list: chains -/

theorem chain_lt {α : Type} (mem : List (Option (Node α))) (p : Option Nat)
    (as : List Nat) (xs : List (Dbl α)) (h : Chain mem p as xs) :
    ∀ a ∈ as, a < mem.length := by
  induction h with
  | nil => intro a ha; simp at ha
  | cons a node as xs hn _ ih =>
    intro b hb
    rcases List.mem_cons.1 hb with hb | hb
    · rw [hb]; exact node_at_lt mem a node hn
    · exact ih b hb

theorem chain_length {α : Type} (mem : List (Option (Node α))) (p : Option Nat)
    (as : List Nat) (xs : List (Dbl α)) (h : Chain mem p as xs) :
    as.length = xs.length := by
  induction h with
  | nil => rfl
  | cons a node as xs _ _ ih => simp [ih]

theorem chain_head {α : Type} (mem : List (Option (Node α))) (p : Option Nat)
    (as : List Nat) (xs : List (Dbl α)) (h : Chain mem p as xs) :
    p = as.head? := by
  cases h <;> rfl

theorem chain_frame {α : Type} (mem mem1 : List (Option (Node α)))
    (p : Option Nat) (as : List Nat) (xs : List (Dbl α)) (h : Chain mem p as xs) :
    (∀ a ∈ as, node_at mem1 a = node_at mem a) → Chain mem1 p as xs := by
  induction h with
  | nil => intro _; exact Chain.nil
  | cons a node as xs hn _ ih =>
    intro hf
    refine Chain.cons a node as xs ?_ (ih (fun b hb => hf b (List.mem_cons_of_mem _ hb)))
    rw [hf a (List.mem_cons_self _ _)]
    exact hn

theorem chain_at {α : Type} (mem : List (Option (Node α))) (p : Option Nat)
    (as : List Nat) (xs : List (Dbl α)) (h : Chain mem p as xs) :
    ∀ i, i ≤ as.length → ll_at_loop mem i p = some as[i]? := by
  induction h with
  | nil =>
    intro i hi
    have : i = 0 := by simpa using hi
    subst this
    rfl
  | cons a node as xs hn _ ih =>
    intro i hi
    cases i with
    | zero => simp [ll_at_loop]
    | succ i =>
      simp only [ll_at_loop, hn, List.getElem?_cons_succ]
      exact ih i (by simpa using hi)

theorem chain_node {α : Type} (mem : List (Option (Node α))) (p : Option Nat)
    (as : List Nat) (xs : List (Dbl α)) (h : Chain mem p as xs) :
    ∀ i a, as[i]? = some a →
      ∃ n, node_at mem a = some n ∧ xs[i]? = some n.data ∧ n.next = as[i + 1]? := by
  induction h with
  | nil => intro i a ha; simp at ha
  | cons b node as xs hn hch ih =>
    intro i a ha
    cases i with
    | zero =>
      simp only [List.getElem?_cons_zero, Option.some.injEq] at ha
      subst ha
      refine ⟨node, hn, by simp, ?_⟩
      rw [chain_head _ _ _ _ hch]
      cases as <;> simp
    | succ i =>
      simp only [List.getElem?_cons_succ] at ha ⊢
      exact ih i a ha

theorem chain_walk {α : Type} (mem : List (Option (Node α))) (p : Option Nat)
    (as : List Nat) (xs : List (Dbl α)) (h : Chain mem p as xs) :
    ∀ fuel, as.length ≤ fuel → ll_walk mem fuel p = some xs := by
  induction h with
  | nil => intro fuel _; cases fuel <;> rfl
  | cons a node as xs hn _ ih =>
    intro fuel hf
    cases fuel with
    | zero => simp at hf
    | succ fuel =>
      simp only [ll_walk, hn]
      rw [ih fuel (by simpa using hf)]
      rfl

theorem nodup_bounded_length (as : List Nat) (n : Nat) (hnd : as.Nodup)
    (hb : ∀ a ∈ as, a < n) : as.length ≤ n := by
  have hsub : as ⊆ List.range n := fun a ha => List.mem_range.2 (hb a ha)
  have := (List.subperm_of_subset hnd hsub).length_le
  simpa using this

theorem ll_elements_of_inv {α : Type} (ll : LinkedList α) (as : List Nat)
    (xs : List (Dbl α)) (h : LLInv ll as xs) : ll_elements ll = some xs :=
  chain_walk _ _ _ _ h.chain _
    (nodup_bounded_length as _ h.nodup (chain_lt _ _ _ _ h.chain))

/-- Splicing a new node after the node at position `i` of a chain. -/
theorem chain_insert_after {α : Type} (mem : List (Option (Node α))) (v : Dbl α)
    (prev : Nat) (pn : Node α) (hpn : node_at mem prev = some pn)
    (p : Option Nat) (as : List Nat) (xs : List (Dbl α)) (h : Chain mem p as xs) :
    as.Nodup → ∀ i, as[i]? = some prev →
      Chain
        ((mem ++ [some ({ data := v, next := pn.next } : Node α)]).set prev
          (some ({ pn with next := some mem.length } : Node α)))
        p (as.take (i + 1) ++ mem.length :: as.drop (i + 1))
        (xs.take (i + 1) ++ v :: xs.drop (i + 1)) := by
  have hprev : prev < mem.length := node_at_lt mem prev pn hpn
  induction h with
  | nil => intro _ i hi; simp at hi
  | cons a node as xs hn hch ih =>
    intro hnd i hi
    rw [List.nodup_cons] at hnd
    have hlt := chain_lt _ _ _ _ hch
    have ha : a < mem.length := node_at_lt mem a node hn
    cases i with
    | zero =>
      simp only [List.getElem?_cons_zero, Option.some.injEq] at hi
      subst hi
      rw [hn] at hpn
      cases hpn
      simp only [Nat.zero_add, List.take_succ_cons, List.take_zero, List.drop_succ_cons,
        List.drop_zero, List.singleton_append]
      refine Chain.cons a { pn with next := some mem.length } _ _ ?_ ?_
      · exact node_at_set_eq _ _ _ (by simp; omega)
      · refine Chain.cons mem.length { data := v, next := pn.next } _ _ ?_ ?_
        · rw [node_at_set_ne _ _ _ _ (by omega), node_at_append_new]
        · apply chain_frame _ _ _ _ _ hch
          intro b hb
          have hba : a ≠ b := fun hab => hnd.1 (hab ▸ hb)
          rw [node_at_set_ne _ _ _ _ hba, node_at_append_left _ _ _ (hlt b hb)]
    | succ i =>
      simp only [List.getElem?_cons_succ] at hi
      have hpa : prev ≠ a := fun hpa => hnd.1 (hpa ▸ List.getElem?_mem hi)
      simp only [List.take_succ_cons, List.drop_succ_cons, List.cons_append]
      refine Chain.cons a node _ _ ?_ (ih hnd.2 i hi)
      rw [node_at_set_ne _ _ _ _ hpa, node_at_append_left _ _ _ ha]
      exact hn

/-- Unlinking and freeing the node that follows the node at position `i`. -/
theorem chain_remove_after {α : Type} (mem : List (Option (Node α)))
    (cur del : Nat) (cn dn : Node α) (hcn : node_at mem cur = some cn)
    (hnext : cn.next = some del) (hdn : node_at mem del = some dn)
    (p : Option Nat) (as : List Nat) (xs : List (Dbl α)) (h : Chain mem p as xs) :
    as.Nodup → ∀ i, as[i]? = some cur →
      Chain
        ((mem.set cur (some ({ cn with next := dn.next } : Node α))).set del none)
        p (as.take (i + 1) ++ as.drop (i + 2)) (xs.take (i + 1) ++ xs.drop (i + 2)) := by
  have hcur : cur < mem.length := node_at_lt mem cur cn hcn
  induction h with
  | nil => intro _ i hi; simp at hi
  | cons a node as xs hn hch ih =>
    intro hnd i hi
    have hnd0 := hnd
    rw [List.nodup_cons] at hnd
    have ha : a < mem.length := node_at_lt mem a node hn
    cases i with
    | zero =>
      simp only [List.getElem?_cons_zero, Option.some.injEq] at hi
      subst hi
      rw [hn] at hcn
      cases hcn
      rw [hnext] at hch
      cases hch with
      | cons _ node2 as2 xs2 hn2 hch2 =>
        rw [hdn] at hn2
        cases hn2
        have hnd2 := hnd.2
        rw [List.nodup_cons] at hnd2
        have had : a ≠ del := fun h => hnd.1 (h ▸ List.mem_cons_self _ _)
        simp only [Nat.zero_add, List.take_succ_cons, List.take_zero,
          List.drop_succ_cons, List.drop_zero, List.singleton_append]
        refine Chain.cons a { cn with next := dn.next } _ _ ?_ ?_
        · rw [node_at_set_ne _ _ _ _ (Ne.symm had), node_at_set_eq _ _ _ ha]
        · apply chain_frame _ _ _ _ _ hch2
          intro b hb
          have hbd : del ≠ b := fun h => hnd2.1 (h ▸ hb)
          have hba : a ≠ b := fun h => hnd.1 (h ▸ List.mem_cons_of_mem _ hb)
          rw [node_at_set_ne _ _ _ _ hbd, node_at_set_ne _ _ _ _ hba]
    | succ i =>
      simp only [List.getElem?_cons_succ] at hi
      have hca : cur ≠ a := fun h => hnd.1 (h ▸ List.getElem?_mem hi)
      obtain ⟨n1, hn1, _, hnx⟩ := chain_node _ _ _ _ hch i cur hi
      rw [hcn] at hn1
      cases hn1
      rw [hnext] at hnx
      have hda : del ≠ a := fun h => hnd.1 (h ▸ List.getElem?_mem hnx.symm)
      simp only [List.take_succ_cons, List.drop_succ_cons, List.cons_append]
      refine Chain.cons a node _ _ ?_ (ih hnd.2 i hi)
      rw [node_at_set_ne _ _ _ _ hda, node_at_set_ne _ _ _ _ hca]
      exact hn

/-! ## Linked list: the operations keep the invariant -/

theorem getLast?_cons_of_ne_nil {β : Type} (a : β) (l : List β) (h : l ≠ []) :
    (a :: l).getLast? = l.getLast? := by
  cases l with
  | nil => exact absurd rfl h
  | cons b l => simp

theorem getLast?_splice {β : Type} (l : List β) (i : Nat) (hi : i < l.length)
    (mid : List β) : (l.take i ++ (mid ++ l.drop i)).getLast? = l.getLast? := by
  have hd : l.drop i ≠ [] := by
    intro h
    have := congrArg List.length h
    simp at this
    omega
  obtain ⟨b, hb⟩ : ∃ b, (l.drop i).getLast? = some b := by
    cases hx : (l.drop i).getLast? with
    | none => exact absurd (List.getLast?_eq_none_iff.1 hx) hd
    | some b => exact ⟨b, rfl⟩
  have hl : l.getLast? = some b := by
    rw [List.getLast?_drop, if_neg (by omega)] at hb
    exact hb
  rw [List.getLast?_append, List.getLast?_append, hb, hl]
  rfl

theorem ll_insert_head_spec {α : Type} (ll : LinkedList α) (as : List Nat)
    (xs : List (Dbl α)) (h : LLInv ll as xs) (v : Dbl α) :
    ∃ ll1, ll_insert_head ll v = some (0, ll1) ∧
      LLInv ll1 (ll.mem.length :: as) (v :: xs) := by
  refine ⟨_, rfl, ?_⟩
  have hlt := chain_lt _ _ _ _ h.chain
  have hlen := chain_length _ _ _ _ h.chain
  constructor
  · refine Chain.cons ll.mem.length { data := v, next := ll.head } as xs ?_ ?_
    · exact node_at_append_new _ _
    · exact chain_frame _ _ _ _ _ h.chain
        (fun a ha => node_at_append_left _ _ _ (hlt a ha))
  · rw [List.nodup_cons]
    exact ⟨fun hm => Nat.lt_irrefl _ (hlt _ hm), h.nodup⟩
  · simp [h.size_eq]
  · simp only
    by_cases hs : ll.size = 0
    · have has : as = [] := by
        apply List.eq_nil_of_length_eq_zero
        rw [hlen, ← h.size_eq, hs]
      subst has
      simp [hs]
    · have has : as ≠ [] := by
        intro has
        apply hs
        rw [h.size_eq, ← hlen, has]
        rfl
      rw [if_neg hs, h.tail_eq, getLast?_cons_of_ne_nil _ _ has]

theorem ll_insert_tail_spec {α : Type} (ll : LinkedList α) (as : List Nat)
    (xs : List (Dbl α)) (h : LLInv ll as xs) (v : Dbl α) :
    ∃ ll1, ll_insert_tail ll v = some (0, ll1) ∧
      LLInv ll1 (as ++ [ll.mem.length]) (xs ++ [v]) := by
  have hlt := chain_lt _ _ _ _ h.chain
  have hlen := chain_length _ _ _ _ h.chain
  have hhead := chain_head _ _ _ _ h.chain
  have hnd : (as ++ [ll.mem.length]).Nodup := by
    rw [List.nodup_append]
    refine ⟨h.nodup, List.nodup_singleton _, ?_⟩
    intro a ha hb
    rw [List.mem_singleton] at hb
    exact Nat.lt_irrefl _ (hb ▸ hlt a ha)
  cases as with
  | nil =>
    have hxs : xs = [] := List.eq_nil_of_length_eq_zero hlen.symm
    have hh : ll.head = none := hhead
    subst hxs
    refine ⟨{ mem := ll.mem ++ [some ({ data := v, next := none } : Node α)]
              head := some ll.mem.length
              tail := some ll.mem.length
              size := ll.size + 1 }, ?_, ?_⟩
    · simp [ll_insert_tail, hh]
    · constructor
      · exact Chain.cons ll.mem.length { data := v, next := none } [] []
          (node_at_append_new _ _) Chain.nil
      · exact hnd
      · simp [h.size_eq]
      · rfl
  | cons a as0 =>
    have hh : ll.head ≠ none := by rw [hhead]; simp
    obtain ⟨t, ht⟩ : ∃ t, (a :: as0)[as0.length]? = some t :=
      ⟨_, List.getElem?_eq_getElem (by simp)⟩
    have htail : ll.tail = some t := by
      rw [h.tail_eq, List.getLast?_eq_getElem?]
      simpa using ht
    obtain ⟨tn, htn, _, hnext⟩ := chain_node _ _ _ _ h.chain as0.length t ht
    have hnone : tn.next = none := by
      rw [hnext]
      simp
    have hch := chain_insert_after ll.mem v t tn htn _ _ _ h.chain h.nodup as0.length ht
    rw [hnone] at hch
    have e1 : List.take (as0.length + 1) (a :: as0) = a :: as0 :=
      List.take_of_length_le (by simp)
    have e2 : List.drop (as0.length + 1) (a :: as0) = [] :=
      List.drop_of_length_le (by simp)
    have e3 : List.take (as0.length + 1) xs = xs :=
      List.take_of_length_le (by rw [← hlen]; simp)
    have e4 : List.drop (as0.length + 1) xs = [] :=
      List.drop_of_length_le (by rw [← hlen]; simp)
    rw [e1, e2, e3, e4] at hch
    refine ⟨{ mem := (ll.mem ++ [some ({ data := v, next := none } : Node α)]).set t
                (some ({ tn with next := some ll.mem.length } : Node α))
              head := ll.head
              tail := some ll.mem.length
              size := ll.size + 1 }, ?_, ?_⟩
    · simp [ll_insert_tail, hh, htail, htn]
    · constructor
      · exact hch
      · exact hnd
      · simp [h.size_eq]
      · simp only
        rw [List.getLast?_concat]

theorem ll_at_of_inv {α : Type} (ll : LinkedList α) (as : List Nat)
    (xs : List (Dbl α)) (h : LLInv ll as xs) (i : Nat) (hi : i < ll.size) :
    ll_at ll i = some as[i]? := by
  have hlen := chain_length _ _ _ _ h.chain
  unfold ll_at
  rw [if_neg (by omega)]
  exact chain_at _ _ _ _ h.chain i (by rw [hlen, ← h.size_eq]; omega)

theorem ll_at_out_of_range {α : Type} (ll : LinkedList α) (i : Nat)
    (hi : ll.size ≤ i) : ll_at ll i = some none := by
  unfold ll_at
  rw [if_pos hi]

theorem ll_insert_at_spec {α : Type} (ll : LinkedList α) (as : List Nat)
    (xs : List (Dbl α)) (h : LLInv ll as xs) (v : Dbl α) (i : Nat)
    (hi : i ≤ ll.size) :
    ∃ ll1 as1, ll_insert_at ll v i = some (0, ll1) ∧
      LLInv ll1 as1 (xs.take i ++ v :: xs.drop i) := by
  have hlen := chain_length _ _ _ _ h.chain
  have hsz := h.size_eq
  by_cases h1 : i = ll.size
  · obtain ⟨ll1, e, inv⟩ := ll_insert_tail_spec ll as xs h v
    refine ⟨ll1, as ++ [ll.mem.length], by rw [ll_insert_at, if_pos h1]; exact e, ?_⟩
    rw [List.take_of_length_le (by omega), List.drop_of_length_le (by omega)]
    exact inv
  · by_cases h2 : i = 0
    · obtain ⟨ll1, e, inv⟩ := ll_insert_head_spec ll as xs h v
      refine ⟨ll1, ll.mem.length :: as,
        by rw [ll_insert_at, if_neg h1, if_pos h2]; exact e, ?_⟩
      subst h2
      exact inv
    · obtain ⟨prev, hprev⟩ : ∃ prev, as[i - 1]? = some prev :=
        ⟨_, List.getElem?_eq_getElem (by omega)⟩
      have hat := ll_at_of_inv ll as xs h (i - 1) (by omega)
      rw [hprev] at hat
      obtain ⟨pn, hpn, _, _⟩ := chain_node _ _ _ _ h.chain (i - 1) prev hprev
      have hch := chain_insert_after ll.mem v prev pn hpn _ _ _ h.chain h.nodup
        (i - 1) hprev
      have hi1 : i - 1 + 1 = i := by omega
      rw [hi1] at hch
      have hlt := chain_lt _ _ _ _ h.chain
      refine ⟨{ ll with
                mem := (ll.mem ++ [some ({ data := v, next := pn.next } : Node α)]).set
                  prev (some ({ pn with next := some ll.mem.length } : Node α))
                size := ll.size + 1 }, as.take i ++ ll.mem.length :: as.drop i, ?_,
        ⟨hch, ?_, ?_, ?_⟩⟩
      · simp only [ll_insert_at, if_neg h1, if_neg h2, hat, hpn]
      · have hsplit : as = as.take i ++ as.drop i := (List.take_append_drop i as).symm
        have hnd := h.nodup
        rw [hsplit] at hnd
        have hperm : (as.take i ++ ll.mem.length :: as.drop i).Perm
            (ll.mem.length :: (as.take i ++ as.drop i)) := List.perm_middle
        rw [hperm.nodup_iff, List.nodup_cons]
        refine ⟨?_, hnd⟩
        rw [← hsplit]
        exact fun hm => Nat.lt_irrefl _ (hlt _ hm)
      · simp only [List.length_append, List.length_cons, List.length_take,
          List.length_drop]
        omega
      · simp only
        rw [h.tail_eq]
        exact (getLast?_splice as i (by omega) [ll.mem.length]).symm

theorem ll_head_none_iff {α : Type} (ll : LinkedList α) (as : List Nat)
    (xs : List (Dbl α)) (h : LLInv ll as xs) : ll.head = none ↔ ll.size = 0 := by
  have hlen := chain_length _ _ _ _ h.chain
  rw [chain_head _ _ _ _ h.chain, h.size_eq, ← hlen]
  cases as <;> simp

theorem ll_remove_head_empty {α : Type} (ll : LinkedList α)
    (hh : ll.head = none) : ll_remove_head ll = some (-1, ll) := by
  simp [ll_remove_head, hh]

theorem chain_cons_inv {α : Type} (mem : List (Option (Node α))) (p : Option Nat)
    (as : List Nat) (xs : List (Dbl α)) (h : Chain mem p as xs) (hne : xs ≠ []) :
    ∃ a node as0 xs0, p = some a ∧ as = a :: as0 ∧ xs = node.data :: xs0 ∧
      node_at mem a = some node ∧ Chain mem node.next as0 xs0 := by
  cases h with
  | nil => exact absurd rfl hne
  | cons a node as0 xs0 hn hch => exact ⟨a, node, as0, xs0, rfl, rfl, rfl, hn, hch⟩

theorem getLast?_erase {β : Type} (l : List β) (i : Nat) (hi : i + 1 < l.length) :
    (l.take i ++ l.drop (i + 1)).getLast? = l.getLast? := by
  have hd : l.drop (i + 1) ≠ [] := by
    intro h
    have := congrArg List.length h
    simp at this
    omega
  obtain ⟨b, hb⟩ : ∃ b, (l.drop (i + 1)).getLast? = some b := by
    cases hx : (l.drop (i + 1)).getLast? with
    | none => exact absurd (List.getLast?_eq_none_iff.1 hx) hd
    | some b => exact ⟨b, rfl⟩
  have hl : l.getLast? = some b := by
    rw [List.getLast?_drop, if_neg (by omega)] at hb
    exact hb
  rw [List.getLast?_append, hb, hl]
  rfl

theorem ll_remove_head_spec {α : Type} (ll : LinkedList α) (as : List Nat)
    (xs : List (Dbl α)) (h : LLInv ll as xs) (hne : ll.size ≠ 0) :
    ∃ ll1, ll_remove_head ll = some (0, ll1) ∧ LLInv ll1 as.tail xs.tail := by
  have hsz := h.size_eq
  have htl := h.tail_eq
  have hnd := h.nodup
  have hxs : xs ≠ [] := by
    intro hx
    apply hne
    rw [hsz, hx]
    rfl
  obtain ⟨a, node, as0, xs0, hhead, has, hxs0, hn, hch⟩ :=
    chain_cons_inv _ _ _ _ h.chain hxs
  subst has
  subst hxs0
  · rw [List.nodup_cons] at hnd
    have ha := node_at_lt _ _ _ hn
    refine ⟨{ mem := ll.mem.set a none
              head := node.next
              tail := if ll.size - 1 = 0 then none else ll.tail
              size := ll.size - 1 }, ?_, ?_⟩
    · simp [ll_remove_head, hhead, hn, free_node]
    · constructor
      · apply chain_frame _ _ _ _ _ hch
        intro b hb
        exact node_at_set_ne _ _ _ _ (fun hab => hnd.1 (hab ▸ hb))
      · exact hnd.2
      · simp only [List.tail_cons]
        rw [hsz]; simp
      · simp only [List.tail_cons]
        have hl0 := chain_length _ _ _ _ hch
        by_cases hs : ll.size - 1 = 0
        · have has : as0 = [] := by
            apply List.eq_nil_of_length_eq_zero
            rw [hsz] at hs
            simp only [List.length_cons] at hs
            omega
          rw [if_pos hs, has]
          rfl
        · have has : as0 ≠ [] := by
            intro has
            apply hs
            rw [hsz, List.length_cons, ← hl0, has]
            rfl
          rw [if_neg hs, htl, getLast?_cons_of_ne_nil _ _ has]

theorem ll_remove_tail_empty {α : Type} (ll : LinkedList α) (hs : ll.size = 0) :
    ll_remove_tail ll = some (-1, ll) := by
  simp [ll_remove_tail, hs]

theorem nodup_getElem?_ne {β : Type} (l : List β) (hnd : l.Nodup) (i j : Nat)
    (a b : β) (hi : l[i]? = some a) (hj : l[j]? = some b) (hij : i ≠ j) : a ≠ b := by
  intro hab
  subst hab
  obtain ⟨h1, e1⟩ := List.getElem?_eq_some_iff.1 hi
  obtain ⟨h2, e2⟩ := List.getElem?_eq_some_iff.1 hj
  exact hij ((hnd.getElem_inj_iff).1 (e1.trans e2.symm))

theorem ll_remove_tail_spec {α : Type} (ll : LinkedList α) (as : List Nat)
    (xs : List (Dbl α)) (h : LLInv ll as xs) (hne : ll.size ≠ 0) :
    ∃ ll1, ll_remove_tail ll = some (0, ll1) ∧
      LLInv ll1 (as.take (ll.size - 1)) (xs.take (ll.size - 1)) := by
  have hlen := chain_length _ _ _ _ h.chain
  have hsz := h.size_eq
  by_cases h1 : ll.size = 1
  · obtain ⟨ll1, e, inv⟩ := ll_remove_head_spec ll as xs h hne
    refine ⟨ll1, by rw [ll_remove_tail, if_neg hne, if_pos h1]; exact e, ?_⟩
    have e1 : as.tail = as.take (ll.size - 1) := by
      rw [h1]
      cases as with
      | nil => rfl
      | cons a as0 =>
        have : as0 = [] := by
          apply List.eq_nil_of_length_eq_zero
          simp only [List.length_cons] at hlen
          omega
        rw [this]; rfl
    have e2 : xs.tail = xs.take (ll.size - 1) := by
      rw [h1]
      cases xs with
      | nil => rfl
      | cons a xs0 =>
        have : xs0 = [] := by
          apply List.eq_nil_of_length_eq_zero
          simp only [List.length_cons] at hsz
          omega
        rw [this]; rfl
    rw [← e1, ← e2]
    exact inv
  · obtain ⟨cur, hcur⟩ : ∃ cur, as[ll.size - 2]? = some cur :=
      ⟨_, List.getElem?_eq_getElem (by omega)⟩
    obtain ⟨del, hdel⟩ : ∃ del, as[ll.size - 2 + 1]? = some del :=
      ⟨_, List.getElem?_eq_getElem (by omega)⟩
    have hat := ll_at_of_inv ll as xs h (ll.size - 2) (by omega)
    rw [hcur] at hat
    obtain ⟨cn, hcn, _, hcnx⟩ := chain_node _ _ _ _ h.chain _ cur hcur
    rw [hdel] at hcnx
    obtain ⟨dn, hdn, _, hdnx⟩ := chain_node _ _ _ _ h.chain _ del hdel
    have hdnone : dn.next = none := by
      rw [hdnx]
      exact List.getElem?_eq_none (by omega)
    have hcd : cur ≠ del := nodup_getElem?_ne as h.nodup _ _ _ _ hcur hdel (by omega)
    have hch := chain_remove_after ll.mem cur del cn dn hcn hcnx hdn _ _ _ h.chain
      h.nodup (ll.size - 2) hcur
    rw [hdnone] at hch
    have e1 : ll.size - 2 + 1 = ll.size - 1 := by omega
    have e2 : as.drop (ll.size - 2 + 2) = [] := List.drop_of_length_le (by omega)
    have e3 : xs.drop (ll.size - 2 + 2) = [] := List.drop_of_length_le (by omega)
    rw [e1, e2, e3, List.append_nil, List.append_nil] at hch
    refine ⟨{ mem := (ll.mem.set cur (some ({ cn with next := none } : Node α))).set
                del none
              head := ll.head
              tail := some cur
              size := ll.size - 1 }, ?_, ⟨hch, ?_, ?_, ?_⟩⟩
    · have hfree : node_at (ll.mem.set cur (some ({ cn with next := none } : Node α)))
          del = some dn := by
        rw [node_at_set_ne _ _ _ _ hcd]; exact hdn
      simp only [ll_remove_tail, if_neg hne, if_neg h1, hat, hcn, hcnx, free_node,
        hfree]
    · exact h.nodup.sublist (List.take_sublist _ _)
    · simp only [List.length_take]
      omega
    · simp only
      rw [List.getLast?_take, if_neg (by omega)]
      have e4 : ll.size - 1 - 1 = ll.size - 2 := by omega
      rw [e4, hcur]
      rfl

theorem ll_remove_at_spec {α : Type} (ll : LinkedList α) (as : List Nat)
    (xs : List (Dbl α)) (h : LLInv ll as xs) (i : Nat) :
    (i < ll.size → ∃ ll1 as1, ll_remove_at ll i = some (0, ll1) ∧
      LLInv ll1 as1 (xs.take i ++ xs.drop (i + 1))) ∧
    (ll.size ≤ i → ll_remove_at ll i = some (-1, ll)) := by
  have hlen := chain_length _ _ _ _ h.chain
  have hsz := h.size_eq
  have hhn := ll_head_none_iff ll as xs h
  refine ⟨?_, ?_⟩
  · intro hi
    have hne : ll.size ≠ 0 := by omega
    have hh : ll.head ≠ none := fun hx => hne (hhn.1 hx)
    by_cases h1 : i = ll.size - 1
    · obtain ⟨ll1, e, inv⟩ := ll_remove_tail_spec ll as xs h hne
      refine ⟨ll1, as.take (ll.size - 1),
        by rw [ll_remove_at, if_neg hh, if_pos h1]; exact e, ?_⟩
      rw [h1, List.drop_of_length_le (by omega), List.append_nil]
      exact inv
    · by_cases h2 : i = 0
      · obtain ⟨ll1, e, inv⟩ := ll_remove_head_spec ll as xs h hne
        refine ⟨ll1, as.tail,
          by rw [ll_remove_at, if_neg hh, if_neg h1, if_pos h2]; exact e, ?_⟩
        subst h2
        simpa using inv
      · obtain ⟨cur, hcur⟩ : ∃ cur, as[i - 1]? = some cur :=
          ⟨_, List.getElem?_eq_getElem (by omega)⟩
        obtain ⟨del, hdel⟩ : ∃ del, as[i - 1 + 1]? = some del :=
          ⟨_, List.getElem?_eq_getElem (by omega)⟩
        have hat := ll_at_of_inv ll as xs h (i - 1) (by omega)
        rw [hcur] at hat
        obtain ⟨cn, hcn, _, hcnx⟩ := chain_node _ _ _ _ h.chain _ cur hcur
        rw [hdel] at hcnx
        obtain ⟨dn, hdn, _, _⟩ := chain_node _ _ _ _ h.chain _ del hdel
        have hcd : cur ≠ del :=
          nodup_getElem?_ne as h.nodup _ _ _ _ hcur hdel (by omega)
        have hch := chain_remove_after ll.mem cur del cn dn hcn hcnx hdn _ _ _ h.chain
          h.nodup (i - 1) hcur
        have e1 : i - 1 + 1 = i := by omega
        have e2 : i - 1 + 2 = i + 1 := by omega
        rw [e1, e2] at hch
        refine ⟨{ ll with
                  mem := (ll.mem.set cur
                    (some ({ cn with next := dn.next } : Node α))).set del none
                  size := ll.size - 1 }, as.take i ++ as.drop (i + 1), ?_,
          ⟨hch, ?_, ?_, ?_⟩⟩
        · have hfree : node_at (ll.mem.set cur
              (some ({ cn with next := dn.next } : Node α))) del = some dn := by
            rw [node_at_set_ne _ _ _ _ hcd]; exact hdn
          simp only [ll_remove_at, if_neg hh, if_neg h1, if_neg h2, hat, hcn, hcnx,
            hdn, free_node, hfree]
        · refine h.nodup.sublist ?_
          conv_rhs => rw [← List.take_append_drop i as]
          exact (List.Sublist.refl _).append (List.drop_sublist_drop_left as (by omega))
        · simp only [List.length_append, List.length_take, List.length_drop]
          omega
        · simp only
          rw [h.tail_eq]
          exact (getLast?_erase as i (by omega)).symm
  · intro hi
    by_cases hh : ll.head = none
    · rw [ll_remove_at, if_pos hh]
    · have hne : ll.size ≠ 0 := fun hx => hh (hhn.2 hx)
      have h1 : i ≠ ll.size - 1 := by omega
      have h2 : i ≠ 0 := by omega
      by_cases h3 : ll.size ≤ i - 1
      · simp only [ll_remove_at, if_neg hh, if_neg h1, if_neg h2,
          ll_at_out_of_range ll (i - 1) h3]
      · have hi1 : i - 1 = ll.size - 1 := by omega
        obtain ⟨cur, hcur⟩ : ∃ cur, as[i - 1]? = some cur :=
          ⟨_, List.getElem?_eq_getElem (by omega)⟩
        have hat := ll_at_of_inv ll as xs h (i - 1) (by omega)
        rw [hcur] at hat
        obtain ⟨cn, hcn, _, hcnx⟩ := chain_node _ _ _ _ h.chain _ cur hcur
        have hnone : cn.next = none := by
          rw [hcnx]
          exact List.getElem?_eq_none (by omega)
        simp only [ll_remove_at, if_neg hh, if_neg h1, if_neg h2, hat, hcn, hnone]

theorem ll_insert_at_out_of_range {α : Type} (ll : LinkedList α) (v : Dbl α)
    (i : Nat) (hi : ll.size < i) : ll_insert_at ll v i = none := by
  have h1 : i ≠ ll.size := by omega
  have h2 : i ≠ 0 := by omega
  simp only [ll_insert_at, if_neg h1, if_neg h2,
    ll_at_out_of_range ll (i - 1) (by omega)]

theorem ll_create_inv {α : Type} : LLInv (ll_create : LinkedList α) [] [] :=
  ⟨Chain.nil, List.nodup_nil, rfl, rfl⟩

theorem ll_reach_inv {α : Type} (ll : LinkedList α) (h : LLReach ll) :
    ∃ as xs, LLInv ll as xs := by
  induction h with
  | create => exact ⟨[], [], ll_create_inv⟩
  | insert_head ll v r ll1 _ he ih =>
    obtain ⟨as, xs, inv⟩ := ih
    obtain ⟨ll2, e, inv2⟩ := ll_insert_head_spec ll as xs inv v
    rw [e] at he
    cases he
    exact ⟨_, _, inv2⟩
  | insert_tail ll v r ll1 _ he ih =>
    obtain ⟨as, xs, inv⟩ := ih
    obtain ⟨ll2, e, inv2⟩ := ll_insert_tail_spec ll as xs inv v
    rw [e] at he
    cases he
    exact ⟨_, _, inv2⟩
  | insert_at ll v i r ll1 _ he ih =>
    obtain ⟨as, xs, inv⟩ := ih
    by_cases hi : i ≤ ll.size
    · obtain ⟨ll2, as2, e, inv2⟩ := ll_insert_at_spec ll as xs inv v i hi
      rw [e] at he
      cases he
      exact ⟨_, _, inv2⟩
    · rw [ll_insert_at_out_of_range ll v i (by omega)] at he
      cases he
  | remove_head ll r ll1 _ he ih =>
    obtain ⟨as, xs, inv⟩ := ih
    by_cases hs : ll.size = 0
    · rw [ll_remove_head_empty ll ((ll_head_none_iff ll as xs inv).2 hs)] at he
      cases he
      exact ⟨as, xs, inv⟩
    · obtain ⟨ll2, e, inv2⟩ := ll_remove_head_spec ll as xs inv hs
      rw [e] at he
      cases he
      exact ⟨_, _, inv2⟩
  | remove_tail ll r ll1 _ he ih =>
    obtain ⟨as, xs, inv⟩ := ih
    by_cases hs : ll.size = 0
    · rw [ll_remove_tail_empty ll hs] at he
      cases he
      exact ⟨as, xs, inv⟩
    · obtain ⟨ll2, e, inv2⟩ := ll_remove_tail_spec ll as xs inv hs
      rw [e] at he
      cases he
      exact ⟨_, _, inv2⟩
  | remove_at ll i r ll1 _ he ih =>
    obtain ⟨as, xs, inv⟩ := ih
    obtain ⟨s1, s2⟩ := ll_remove_at_spec ll as xs inv i
    by_cases hi : i < ll.size
    · obtain ⟨ll2, as2, e, inv2⟩ := s1 hi
      rw [e] at he
      cases he
      exact ⟨_, _, inv2⟩
    · rw [s2 (by omega)] at he
      cases he
      exact ⟨as, xs, inv⟩

theorem splice_getElem? {β : Type} (xs : List β) (v : β) (i : Nat)
    (hi : i ≤ xs.length) :
    (xs.take i ++ v :: xs.drop i)[i]? = some v ∧
    (∀ j, j < i → (xs.take i ++ v :: xs.drop i)[j]? = xs[j]?) ∧
    (∀ j, i ≤ j → (xs.take i ++ v :: xs.drop i)[j + 1]? = xs[j]?) := by
  have hl : (xs.take i).length = i := by simp; omega
  refine ⟨?_, ?_, ?_⟩
  · rw [List.getElem?_append_right (by omega), hl, Nat.sub_self]
    exact List.getElem?_cons_zero
  · intro j hj
    rw [List.getElem?_append_left (by omega), List.getElem?_take, if_pos hj]
  · intro j hj
    rw [List.getElem?_append_right (by omega), hl]
    have e : j + 1 - i = (j - i) + 1 := by omega
    rw [e, List.getElem?_cons_succ, List.getElem?_drop]
    congr 1
    omega

theorem ll_sample_reach : LLReach ll_sample :=
  LLReach.insert_tail _ (Dbl.num 2) 0 _
    (LLReach.insert_head ll_create (Dbl.num 1) 0 _ LLReach.create rfl) rfl

/-- C8 (positional insert). For every reachable linked list with element
sequence `xs` and every index `i <= size`, `ll_insert_at` returns 0 and the
resulting element sequence is `xs` with `v` inserted at position `i`: position
`i` reads `v`, the elements before `i` are unchanged, the elements formerly at
positions `>= i` are shifted by one, and `size` grows by one. -/
theorem ll_insert_at_positional (α : Type) (ll : LinkedList α) (hr : LLReach ll)
    (v : Dbl α) (i : Nat) (hi : i ≤ ll.size) :
    ∃ xs ys ll1, ll_elements ll = some xs ∧ xs.length = ll.size ∧
      ll_insert_at ll v i = some (0, ll1) ∧
      ll_elements ll1 = some ys ∧ ys = xs.take i ++ v :: xs.drop i ∧
      ys[i]? = some v ∧ (∀ j, j < i → ys[j]? = xs[j]?) ∧
      (∀ j, i ≤ j → ys[j + 1]? = xs[j]?) ∧
      ll1.size = ll.size + 1 := by
  obtain ⟨as, xs, inv⟩ := ll_reach_inv ll hr
  obtain ⟨ll1, as1, e, inv1⟩ := ll_insert_at_spec ll as xs inv v i hi
  obtain ⟨g1, g2, g3⟩ := splice_getElem? xs v i (by rw [← inv.size_eq]; exact hi)
  refine ⟨xs, _, ll1, ll_elements_of_inv ll as xs inv, inv.size_eq.symm, e,
    ll_elements_of_inv ll1 as1 _ inv1, rfl, g1, g2, g3, ?_⟩
  rw [inv1.size_eq, inv.size_eq]
  simp only [List.length_append, List.length_cons, List.length_take, List.length_drop]
  have := inv.size_eq
  omega

/-- Instance of C8: inserting 9 at position 1 of the sample list [1, 2]. -/
theorem ll_insert_at_positional_witness :
    LLReach ll_sample ∧ 1 ≤ ll_sample.size ∧
    ∃ ll1, ll_insert_at ll_sample (Dbl.num 9) 1 = some (0, ll1) ∧
      ll_elements ll1 = some [Dbl.num 1, Dbl.num 9, Dbl.num 2] := by
  refine ⟨ll_sample_reach, by decide, ?_⟩
  obtain ⟨xs, ys, ll1, h1, _, h3, h4, h5, _⟩ :=
    ll_insert_at_positional ℚ ll_sample ll_sample_reach (Dbl.num 9) 1 (by decide)
  have hx : xs = [Dbl.num 1, Dbl.num 2] := by
    have : ll_elements ll_sample = some [Dbl.num 1, Dbl.num 2] := rfl
    rw [this] at h1
    exact (Option.some.inj h1).symm
  subst hx
  exact ⟨ll1, h3, by rw [h4, h5]; rfl⟩

/-- C9, what the code does: with `index > size`, `ll_insert_at` takes the NULL
returned by `ll_at` and reads `previous->next` through it; there is no `-1`
result.  Here on a fresh list with index 1. -/
theorem ll_insert_at_null_dereference :
    ll_insert_at (ll_create : LinkedList ℚ) (Dbl.num 1) 1 = none ∧
    ll_at (ll_create : LinkedList ℚ) 0 = some none := by
  exact ⟨rfl, rfl⟩

/-- C10 (positional remove). For every reachable linked list with element
sequence `xs`: with `i < size`, `ll_remove_at` returns 0 and leaves exactly
`xs` with the element at position `i` erased, the size being one less; with
`i >= size` (in particular on an empty list) it returns -1 and leaves the list
unchanged. -/
theorem ll_remove_at_positional (α : Type) (ll : LinkedList α) (hr : LLReach ll)
    (i : Nat) :
    ∃ xs, ll_elements ll = some xs ∧ xs.length = ll.size ∧
      (i < ll.size → ∃ ll1, ll_remove_at ll i = some (0, ll1) ∧
        ll_elements ll1 = some (xs.eraseIdx i) ∧ ll1.size = ll.size - 1) ∧
      (ll.size ≤ i → ll_remove_at ll i = some (-1, ll)) := by
  obtain ⟨as, xs, inv⟩ := ll_reach_inv ll hr
  obtain ⟨s1, s2⟩ := ll_remove_at_spec ll as xs inv i
  refine ⟨xs, ll_elements_of_inv ll as xs inv, inv.size_eq.symm, ?_, s2⟩
  intro hi
  obtain ⟨ll1, as1, e, inv1⟩ := s1 hi
  refine ⟨ll1, e, ?_, ?_⟩
  · rw [List.eraseIdx_eq_take_drop_succ]
    exact ll_elements_of_inv ll1 as1 _ inv1
  · rw [inv1.size_eq, inv.size_eq]
    simp only [List.length_append, List.length_take, List.length_drop]
    have := inv.size_eq
    omega

/-- Instance of C10: removing position 0 of the sample list [1, 2], and an
out-of-range removal. -/
theorem ll_remove_at_positional_witness :
    LLReach ll_sample ∧
    (∃ ll1, ll_remove_at ll_sample 0 = some (0, ll1) ∧
      ll_elements ll1 = some [Dbl.num 2]) ∧
    ll_remove_at ll_sample 2 = some (-1, ll_sample) := by
  obtain ⟨xs, h1, _, h3, h4⟩ := ll_remove_at_positional ℚ ll_sample ll_sample_reach 0
  obtain ⟨ys, _, _, _, k4⟩ := ll_remove_at_positional ℚ ll_sample ll_sample_reach 2
  have hx : xs = [Dbl.num 1, Dbl.num 2] := by
    have : ll_elements ll_sample = some [Dbl.num 1, Dbl.num 2] := rfl
    rw [this] at h1
    exact (Option.some.inj h1).symm
  subst hx
  obtain ⟨ll1, e1, e2, _⟩ := h3 (by decide)
  exact ⟨ll_sample_reach, ⟨ll1, e1, by rw [e2]; rfl⟩, k4 (by decide)⟩

/-! ## Linked list: tail removal -/

/-- C11 (tail removal). For every reachable linked list with element sequence
`xs`: when the list is not empty, `ll_remove_tail` returns 0 and leaves `xs`
without its last element, with `size` one less and `tail` referring to the node
that was at position `size - 2` (the pointer `ll_at` returns for that position),
`tail` and `head` both being NULL when the list had one element; on an empty
list it returns -1 and changes nothing. -/
theorem ll_remove_tail_law (α : Type) (ll : LinkedList α) (hr : LLReach ll) :
    ∃ xs, ll_elements ll = some xs ∧ xs.length = ll.size ∧
      (ll.size ≠ 0 → ∃ ll1, ll_remove_tail ll = some (0, ll1) ∧
        ll_elements ll1 = some xs.dropLast ∧ ll1.size = ll.size - 1 ∧
        (ll.size = 1 → ll1.tail = none ∧ ll1.head = none) ∧
        (2 ≤ ll.size → ll1.tail ≠ none ∧ ll_at ll (ll.size - 2) = some ll1.tail)) ∧
      (ll.size = 0 → ll_remove_tail ll = some (-1, ll)) := by
  obtain ⟨as, xs, inv⟩ := ll_reach_inv ll hr
  have hlen := chain_length _ _ _ _ inv.chain
  have hsz := inv.size_eq
  refine ⟨xs, ll_elements_of_inv ll as xs inv, hsz.symm, ?_, ll_remove_tail_empty ll⟩
  intro hne
  obtain ⟨ll1, e, inv1⟩ := ll_remove_tail_spec ll as xs inv hne
  refine ⟨ll1, e, ?_, ?_, ?_, ?_⟩
  · rw [List.dropLast_eq_take, ← hsz]
    exact ll_elements_of_inv ll1 _ _ inv1
  · rw [inv1.size_eq, List.length_take]
    omega
  · intro h1
    have hnil : as.take (ll.size - 1) = [] := by rw [h1]; rfl
    refine ⟨?_, ?_⟩
    · rw [inv1.tail_eq, hnil]; rfl
    · rw [chain_head _ _ _ _ inv1.chain, hnil]; rfl
  · intro h2
    have ht : ll1.tail = as[ll.size - 2]? := by
      rw [inv1.tail_eq, List.getLast?_take, if_neg (by omega)]
      have e4 : ll.size - 1 - 1 = ll.size - 2 := by omega
      rw [e4, List.getElem?_eq_getElem (by omega)]
      rfl
    refine ⟨?_, ?_⟩
    · rw [ht, List.getElem?_eq_getElem (by omega)]
      exact Option.some_ne_none _
    · rw [ht]
      exact ll_at_of_inv ll as xs inv (ll.size - 2) (by omega)

/-- Instance of C11: removing the tail of the sample list [1, 2]. -/
theorem ll_remove_tail_law_witness :
    LLReach ll_sample ∧ ll_sample.size ≠ 0 ∧
    ∃ ll1, ll_remove_tail ll_sample = some (0, ll1) ∧
      ll_elements ll1 = some [Dbl.num 1] ∧ ll1.tail = some 0 := by
  obtain ⟨xs, h1, _, h3, _⟩ := ll_remove_tail_law ℚ ll_sample ll_sample_reach
  have hx : xs = [Dbl.num 1, Dbl.num 2] := by
    have : ll_elements ll_sample = some [Dbl.num 1, Dbl.num 2] := rfl
    rw [this] at h1
    exact (Option.some.inj h1).symm
  subst hx
  obtain ⟨ll1, e1, e2, _, _, e5⟩ := h3 (by decide)
  refine ⟨ll_sample_reach, by decide, ll1, e1, by rw [e2]; rfl, ?_⟩
  have hat : ll_at ll_sample (ll_sample.size - 2) = some (some 0) := rfl
  have := (e5 (by decide)).2
  rw [hat] at this
  exact (Option.some.inj this).symm

/-! ## Heap: reachable states -/

theorem h_pop_max_empty {α : Type} [LinearOrder α] (h : Heap α) (hs : h.size = 0) :
    h_pop_max h = (Dbl.nan, h) := by
  simp [h_pop_max, hs]

theorem h_reach_inv {α : Type} [LinearOrder α] (h : Heap α) (hr : HReach h) :
    HInv h := by
  induction hr with
  | create junk => exact h_create_inv junk
  | insert junk h a _ ih => exact (h_insert_spec junk h (Dbl.num a) ih (by simp)).1
  | pop_max h _ ih =>
    by_cases hs : h.size = 0
    · rw [h_pop_max_empty h hs]; exact ih
    · exact (h_pop_max_spec h ih hs).1

theorem ge_of_ngt {α : Type} [LinearOrder α] (x y : Dbl α) (hx : x ≠ Dbl.nan)
    (hy : y ≠ Dbl.nan) (h : Dbl.gt y x = false) : Dbl.ge x y := by
  cases x with
  | nan => exact absurd rfl hx
  | num a =>
    cases y with
    | nan => exact absurd rfl hy
    | num b =>
      refine ⟨a, b, rfl, rfl, ?_⟩
      simpa [Dbl.gt] using h

theorem h_inv_order {α : Type} [LinearOrder α] (h : Heap α) (hh : HInv h) :
    (∀ i c, (c = 2 * i + 1 ∨ c = 2 * i + 2) → c < h.size →
      Dbl.ge (rd h.data i) (rd h.data c)) ∧
    (∀ j, 1 ≤ j → j < h.size → Dbl.ge (rd h.data ((j - 1) / 2)) (rd h.data j)) := by
  have hpar : ∀ j, 1 ≤ j → j < h.size →
      Dbl.ge (rd h.data ((j - 1) / 2)) (rd h.data j) := by
    intro j hj1 hj
    exact ge_of_ngt _ _ (hh.no_nan _ (by omega)) (hh.no_nan _ hj) (hh.ord j (by omega) hj)
  refine ⟨?_, hpar⟩
  intro i c hc hcs
  have hp : (c - 1) / 2 = i := by omega
  have := hpar c (by omega) hcs
  rw [hp] at this
  exact this

theorem h_sample_reach : HReach h_sample :=
  HReach.insert _ _ _ (HReach.insert _ _ _ (HReach.create _))

theorem h_sample_size : h_sample.size = 2 := by
  unfold h_sample
  rw [(h_insert_spec _ _ _ (h_insert_spec _ _ _ (h_create_inv _) (by simp)).1
    (by simp)).2.1, (h_insert_spec _ _ _ (h_create_inv _) (by simp)).2.1]
  rfl

/-- C12 (pop_max returns the maximum). For every non-empty heap reachable from
`h_create` through `h_insert` of numbers and `h_pop_max`, `h_pop_max` returns a
value that is `>=` every element stored before the call, `size` decreases by
exactly 1, and the remaining elements are the previous ones minus one
occurrence of the returned value. -/
theorem h_pop_max_returns_max (α : Type) [LinearOrder α] (h : Heap α)
    (hr : HReach h) (hne : h.size ≠ 0) :
    (h_pop_max h).1 = rd h.data 0 ∧
    (∀ x ∈ h_contents h, Dbl.ge (h_pop_max h).1 x) ∧
    (h_pop_max h).2.size + 1 = h.size ∧
    (h_contents (h_pop_max h).2).Perm ((h_contents h).erase (h_pop_max h).1) ∧
    ((h_pop_max h).1 :: h_contents (h_pop_max h).2).Perm (h_contents h) := by
  have hh := h_reach_inv h hr
  obtain ⟨_, p2, p3, p4⟩ := h_pop_max_spec h hh hne
  have hret : (h_pop_max h).1 = rd h.data 0 := by simp [h_pop_max, hne]
  refine ⟨hret, ?_, by omega, (List.cons_perm_iff_perm_erase.1 p3).2, p3⟩
  intro x hx
  obtain ⟨j, hj, hjx⟩ := (mem_h_contents _ _).1 hx
  refine ge_of_ngt _ _ ?_ ?_ (p4 x hx)
  · rw [hret]; exact hh.no_nan 0 (by omega)
  · rw [← hjx]; exact hh.no_nan j hj

/-- Instance of C12: popping the sample heap that holds 1 and 3. -/
theorem h_pop_max_returns_max_witness :
    HReach h_sample ∧ h_sample.size ≠ 0 ∧
    (h_pop_max h_sample).2.size + 1 = h_sample.size :=
  ⟨h_sample_reach, by rw [h_sample_size]; decide,
    (h_pop_max_returns_max ℚ h_sample h_sample_reach
      (by rw [h_sample_size]; decide)).2.2.1⟩

/-- C17 (max-heap invariant). In every heap state reachable from `h_create`
through `h_insert` of numbers and `h_pop_max`, every cell is `>=` each of its
children `2i+1`, `2i+2` that lie below `size`; equivalently every cell
`1 <= j < size` is `<=` its parent `(j-1)/2`.  `h_insert` (sift-up) and
`h_pop_max` (sift-down through `h_max_heapify`) each keep the invariant `HInv`,
which implies that order. -/
theorem h_max_heap_invariant :
    (∀ (α : Type) [LinearOrder α] (h : Heap α), HReach h →
      (∀ i c, (c = 2 * i + 1 ∨ c = 2 * i + 2) → c < h.size →
        Dbl.ge (rd h.data i) (rd h.data c)) ∧
      (∀ j, 1 ≤ j → j < h.size → Dbl.ge (rd h.data ((j - 1) / 2)) (rd h.data j))) ∧
    (∀ (α : Type) [LinearOrder α] (h : Heap α), HInv h →
      (∀ (junk : Dbl α) (a : α), HInv (h_insert junk h (Dbl.num a))) ∧
      HInv (h_pop_max h).2 ∧
      (∀ j, 1 ≤ j → j < h.size → Dbl.ge (rd h.data ((j - 1) / 2)) (rd h.data j))) := by
  refine ⟨?_, ?_⟩
  · intro α _ h hr
    exact h_inv_order h (h_reach_inv h hr)
  · intro α _ h hh
    refine ⟨?_, ?_, (h_inv_order h hh).2⟩
    · intro junk a
      exact (h_insert_spec junk h (Dbl.num a) hh (by simp)).1
    · by_cases hs : h.size = 0
      · rw [h_pop_max_empty h hs]; exact hh
      · exact (h_pop_max_spec h hh hs).1

/-- Instance of C17: the two cells of the sample heap. -/
theorem h_max_heap_invariant_witness :
    HReach h_sample ∧ Dbl.ge (rd h_sample.data 0) (rd h_sample.data 1) :=
  ⟨h_sample_reach,
    (h_max_heap_invariant.1 ℚ h_sample h_sample_reach).1 0 1 (Or.inl rfl)
      (by rw [h_sample_size]; decide)⟩

/-! ## Removal from an empty container, and peek -/

/-- C13 (removal from an empty container fails atomically). Whenever `s_pop`,
`q_dequeue` or `h_pop_max` is called on a structure whose element count is 0,
it returns the NaN sentinel and the structure (count, capacity, head and tail
indices, stored elements) is exactly as before the call. -/
theorem empty_removal_atomic :
    (∀ (α : Type) (s : Stack α), s.top = 0 → s_pop s = (Dbl.nan, s)) ∧
    (∀ (α : Type) (q : Queue α), q.size = 0 → q_dequeue q = (Dbl.nan, q)) ∧
    (∀ (α : Type) [LinearOrder α] (h : Heap α), h.size = 0 →
      h_pop_max h = (Dbl.nan, h)) := by
  refine ⟨?_, ?_, ?_⟩
  · intro α s hs; simp [s_pop, hs]
  · intro α q hq; simp [q_dequeue, hq]
  · intro α _ h hs; exact h_pop_max_empty h hs

/-- Instance of C13: the three fresh containers. -/
theorem empty_removal_atomic_witness :
    s_pop (s_create (Dbl.nan : Dbl ℚ)) = (Dbl.nan, s_create Dbl.nan) ∧
    q_dequeue (q_create (Dbl.nan : Dbl ℚ)) = (Dbl.nan, q_create Dbl.nan) ∧
    h_pop_max (h_create (Dbl.nan : Dbl ℚ)) = (Dbl.nan, h_create Dbl.nan) :=
  ⟨empty_removal_atomic.1 ℚ (s_create Dbl.nan) rfl,
    empty_removal_atomic.2.1 ℚ (q_create Dbl.nan) rfl,
    empty_removal_atomic.2.2 ℚ (h_create Dbl.nan) rfl⟩

/-- C14 (peek is a pure preview of the next removal). For every stack, queue
and heap state, in particular every reachable one, `s_peek`, `q_peek` and
`h_peek` leave the structure unchanged; on a non-empty structure they return
exactly the value an immediately following `s_pop`, `q_dequeue`, `h_pop_max`
returns, which is `data[top - 1]`, the element at `head`, and `data[0]`
respectively; on an empty structure they return the NaN sentinel. -/
theorem peek_previews_removal :
    (∀ (α : Type) (s : Stack α),
      (s_peek s).2 = s ∧
      (s.top ≠ 0 → (s_peek s).1 = (s_pop s).1 ∧ (s_peek s).1 = rd s.data (s.top - 1)) ∧
      (s.top = 0 → (s_peek s).1 = Dbl.nan)) ∧
    (∀ (α : Type) (q : Queue α),
      (q_peek q).2 = q ∧
      (q.size ≠ 0 → (q_peek q).1 = (q_dequeue q).1 ∧ (q_peek q).1 = rd q.data q.head) ∧
      (q.size = 0 → (q_peek q).1 = Dbl.nan)) ∧
    (∀ (α : Type) [LinearOrder α] (h : Heap α),
      (h_peek h).2 = h ∧
      (h.size ≠ 0 → (h_peek h).1 = (h_pop_max h).1 ∧ (h_peek h).1 = rd h.data 0) ∧
      (h.size = 0 → (h_peek h).1 = Dbl.nan)) := by
  refine ⟨?_, ?_, ?_⟩
  · intro α s
    refine ⟨s_peek_state s, ?_, ?_⟩
    · intro hs; simp [s_peek, s_pop, hs]
    · intro hs; simp [s_peek, hs]
  · intro α q
    refine ⟨?_, ?_, ?_⟩
    · unfold q_peek; split <;> rfl
    · intro hq; simp [q_peek, q_dequeue, hq]
    · intro hq; simp [q_peek, hq]
  · intro α _ h
    refine ⟨rfl, ?_, ?_⟩
    · intro hs
      have hpos : h.size > 0 := by omega
      simp [h_peek, h_pop_max, hs, hpos]
    · intro hs; simp [h_peek, hs]

/-- Instance of C14: the stack and the queue holding the single value 5, and
the sample heap. -/
theorem peek_previews_removal_witness :
    (s_peek (s_push Dbl.nan (s_create (Dbl.nan : Dbl ℚ)) (Dbl.num 5)).2).1
      = (s_pop (s_push Dbl.nan (s_create (Dbl.nan : Dbl ℚ)) (Dbl.num 5)).2).1 ∧
    (q_peek (q_enqueue Dbl.nan (q_create (Dbl.nan : Dbl ℚ)) (Dbl.num 5)).2).1
      = (q_dequeue (q_enqueue Dbl.nan (q_create (Dbl.nan : Dbl ℚ)) (Dbl.num 5)).2).1 ∧
    (h_peek h_sample).1 = (h_pop_max h_sample).1 :=
  ⟨((peek_previews_removal.1 ℚ _).2.1 (by decide)).1,
    ((peek_previews_removal.2.1 ℚ _).2.1 (by decide)).1,
    ((peek_previews_removal.2.2 ℚ h_sample).2.1 (by rw [h_sample_size]; decide)).1⟩

/-! ## Hash table: absent keys and the NotFound signal -/

/-- C15 (delete of an absent key reports not-found without side effects). For
every reachable table `t` and key `k` not present in `t`, `ht_delete` returns
-1 and the table is unchanged: `count`, the bucket capacity, every bucket
chain, and hence every `ht_search` result. -/
theorem ht_delete_absent_noop (α : Type) (t : HashTable α) (hr : HTReach t)
    (k : Key) (hk : k ∉ (ht_entries t).map Entry.key) :
    (ht_delete t k).1 = -1 ∧ (ht_delete t k).2 = t ∧
    (ht_delete t k).2.count = t.count ∧
    (ht_delete t k).2.capacity_table = t.capacity_table ∧
    (ht_delete t k).2.buckets = t.buckets ∧
    ∀ k1, (ht_search (ht_delete t k).2 k1).1 = (ht_search t k1).1 := by
  have e := ht_delete_absent t (ht_reach_inv t hr) k hk
  rw [e]
  exact ⟨rfl, rfl, rfl, rfl, rfl, fun _ => rfl⟩

/-- Instance of C15: deleting the absent key "C" from the sample table. -/
theorem ht_delete_absent_noop_witness :
    HTReach ht_sample ∧ [67] ∉ (ht_entries ht_sample).map Entry.key ∧
    ht_delete ht_sample [67] = (-1, ht_sample) :=
  ⟨ht_sample_reach, by decide,
    Prod.ext (ht_delete_absent_noop ℚ ht_sample ht_sample_reach [67] (by decide)).1
      (ht_delete_absent_noop ℚ ht_sample ht_sample_reach [67] (by decide)).2.1⟩

/-- C16 as stated fails: in the reachable table that stores NaN under key "A",
the search for the present key "A" and the search for the absent key "B"
return the same NaN. -/
theorem ht_search_nan_collision :
    HTReach ht_sample_nan ∧
    [65] ∈ (ht_entries ht_sample_nan).map Entry.key ∧
    [66] ∉ (ht_entries ht_sample_nan).map Entry.key ∧
    (ht_search ht_sample_nan [65]).1 = (ht_search ht_sample_nan [66]).1 :=
  ⟨HTReach.insert _ _ _ HTReach.create, by decide, by decide, rfl⟩

/-- C16, amended. For every reachable table `t`, key `k` present in `t` and
key `k1` absent from `t`: `ht_search t k` returns the value stored for `k` and
`ht_search t k1` returns NaN; the two results differ when the stored value is a
number, and are the same NaN when the stored value is NaN. -/
theorem ht_search_found_distinct (α : Type) (t : HashTable α) (hr : HTReach t)
    (k k1 : Key) (hk : k ∈ (ht_entries t).map Entry.key)
    (hk1 : k1 ∉ (ht_entries t).map Entry.key) :
    ∃ e ∈ ht_entries t, e.key = k ∧ (ht_search t k).1 = e.value ∧
      (ht_search t k1).1 = Dbl.nan ∧
      (e.value ≠ Dbl.nan → (ht_search t k).1 ≠ (ht_search t k1).1) ∧
      (e.value = Dbl.nan → (ht_search t k).1 = (ht_search t k1).1) := by
  have hh := ht_reach_inv t hr
  obtain ⟨e, he, hek⟩ := List.mem_map.1 hk
  have h1 : (ht_search t k).1 = e.value := by
    rw [← hek]; exact ht_search_of_mem t hh e he
  have h2 := ht_search_of_not_mem t hh k1 hk1
  refine ⟨e, he, hek, h1, h2, ?_, ?_⟩
  · intro hv; rw [h1, h2]; exact hv
  · intro hv; rw [h1, h2]; exact hv

/-- Instance of C16 amended: keys "A" (present, value 1) and "C" (absent) of
the sample table. -/
theorem ht_search_found_distinct_witness :
    HTReach ht_sample ∧ [65] ∈ (ht_entries ht_sample).map Entry.key ∧
    [67] ∉ (ht_entries ht_sample).map Entry.key ∧
    (ht_search ht_sample [67]).1 = Dbl.nan := by
  obtain ⟨e, _, _, _, h, _⟩ :=
    ht_search_found_distinct ℚ ht_sample ht_sample_reach [65] [67]
      (by decide) (by decide)
  exact ⟨ht_sample_reach, by decide, by decide, h⟩

/-! ## Queue: reachable states -/

theorem q_peek_state {α : Type} (q : Queue α) : (q_peek q).2 = q := by
  unfold q_peek; split <;> rfl

theorem q_reach_inv {α : Type} (q : Queue α) (h : QReach q) : QInv q := by
  induction h with
  | create junk => exact q_create_inv junk
  | enqueue junk q v _ ih => exact q_enqueue_inv junk q v ih
  | dequeue q _ ih => exact q_dequeue_inv q ih
  | peek q _ ih => rw [q_peek_state]; exact ih

theorem q_enqueue_all_reach {α : Type} (junk : Dbl α) (vs : List (Dbl α)) :
    ∀ q : Queue α, QReach q → QReach (q_enqueue_all junk q vs) := by
  induction vs with
  | nil => intro q hq; exact hq
  | cons v vs ih => intro q hq; exact ih _ (QReach.enqueue junk q v hq)

theorem q_sample_full_reach : QReach q_sample_full :=
  QReach.enqueue _ _ _ (QReach.dequeue _
    (q_enqueue_all_reach _ _ _ (QReach.create _)))

set_option maxRecDepth 100000 in
theorem q_sample_full_shape :
    q_sample_full.size = q_sample_full.capacity ∧ q_sample_full.head = 1 :=
  ⟨rfl, rfl⟩

/-- C18 (enqueue on a full wrapped queue linearises). For every reachable
queue with `size = capacity`, whatever its `head`, `q_enqueue q v` returns 0
and yields `capacity = 2 * old capacity`, `head = 0`, `data[i]` equal to the
old logical element `i`, that is old `data[(head + i) mod old capacity]`, for
every `i < old size`, `data[old size] = v` and `size = old size + 1`; the
logical contents are the old contents followed by `v`. -/
theorem q_enqueue_full_linearises (α : Type) (q : Queue α) (hr : QReach q)
    (hfull : q.size = q.capacity) (junk v : Dbl α) :
    (q_enqueue junk q v).1 = 0 ∧
    (q_enqueue junk q v).2.capacity = 2 * q.capacity ∧
    (q_enqueue junk q v).2.head = 0 ∧
    (∀ i, i < q.size →
      rd (q_enqueue junk q v).2.data i = rd q.data ((q.head + i) % q.capacity)) ∧
    rd (q_enqueue junk q v).2.data q.size = v ∧
    (q_enqueue junk q v).2.size = q.size + 1 ∧
    q_contents (q_enqueue junk q v).2 = q_contents q ++ [v] := by
  have hq := q_reach_inv q hr
  have hc := hq.cap_pos
  have he : q_enqueue junk q v = q_enqueue_store (q_resize junk q).2 v := by
    rw [q_enqueue_eq, if_pos hfull]
  have hcont := q_enqueue_contents junk q v hq
  rw [he] at hcont ⊢
  have hlen : (q_resize_copy q q.capacity
      (List.replicate (q.capacity * 2) junk)).length = q.capacity * 2 := by
    simp [q_resize_copy, length_fold_wr]
  refine ⟨rfl, ?_, rfl, ?_, ?_, rfl, hcont⟩
  · simp only [q_enqueue_store, q_resize]; omega
  · intro i hi
    simp only [q_enqueue_store, q_resize]
    rw [rd_wr_ne _ _ _ _ (by omega)]
    simp only [q_resize_copy]
    rw [rd_fold_wr _ _ _ (by simp; omega), if_pos hi]
  · simp only [q_enqueue_store, q_resize]
    exact rd_wr_eq _ _ _ (by rw [hlen]; omega)

/-- Instance of C18: the sample full queue, whose head is 1. -/
theorem q_enqueue_full_linearises_witness :
    QReach q_sample_full ∧ q_sample_full.size = q_sample_full.capacity ∧
    q_sample_full.head = 1 ∧
    (q_enqueue Dbl.nan q_sample_full (Dbl.num 9)).2.capacity
      = 2 * q_sample_full.capacity ∧
    (q_enqueue Dbl.nan q_sample_full (Dbl.num 9)).2.head = 0 :=
  ⟨q_sample_full_reach, q_sample_full_shape.1, q_sample_full_shape.2,
    (q_enqueue_full_linearises ℚ q_sample_full q_sample_full_reach
      q_sample_full_shape.1 Dbl.nan (Dbl.num 9)).2.1,
    (q_enqueue_full_linearises ℚ q_sample_full q_sample_full_reach
      q_sample_full_shape.1 Dbl.nan (Dbl.num 9)).2.2.1⟩

/-- C19 (circular-buffer invariant). In every queue state reachable from
`q_create` through `q_enqueue`, `q_dequeue` and `q_peek`: `size <= capacity`,
`head < capacity` and the stored `tail` equals `(head + size) mod capacity`.
Hence `q_enqueue` writes the new value at the physical slot
`(head + size) mod capacity` of the state `p` after its resize check, a slot
inside the buffer that holds no live element; and the logical element `i` is
`data[(head + i) mod capacity]`: the first `n <= size` calls of `q_dequeue`
return those cells for `i = 0 .. n - 1`. -/
theorem q_circular_invariant (α : Type) (q : Queue α) (hr : QReach q) :
    q.size ≤ q.capacity ∧ q.head < q.capacity ∧
    q.tail = (q.head + q.size) % q.capacity ∧
    q.data.length = q.capacity ∧
    (∀ (junk v : Dbl α) (p : Queue α),
      p = (if q.size = q.capacity then (q_resize junk q).2 else q) →
      p.tail = (p.head + p.size) % p.capacity ∧
      (q_enqueue junk q v).2.data = wr p.data ((p.head + p.size) % p.capacity) v ∧
      (p.head + p.size) % p.capacity < p.data.length ∧
      (∀ i, i < p.size → (p.head + i) % p.capacity ≠ (p.head + p.size) % p.capacity) ∧
      q_contents (q_enqueue junk q v).2 = q_contents q ++ [v]) ∧
    (∀ n, n ≤ q.size →
      (q_dequeue_n q n).1
        = (List.range n).map (fun i => rd q.data ((q.head + i) % q.capacity))) := by
  have hq := q_reach_inv q hr
  refine ⟨hq.size_le, hq.head_lt, hq.tail_eq, hq.len, ?_, ?_⟩
  · intro junk v p hp
    have hpinv : QInv p ∧ p.size < p.capacity := by
      rw [hp]
      split
      · rename_i hfull
        have hc := hq.cap_pos
        exact ⟨q_resize_inv junk q hq hfull, by simp only [q_resize]; omega⟩
      · rename_i hnf
        have := hq.size_le
        exact ⟨hq, by omega⟩
    have he : q_enqueue junk q v = q_enqueue_store p v := by
      rw [q_enqueue_eq, hp]
      split <;> rfl
    refine ⟨hpinv.1.tail_eq, ?_, ?_, ?_, q_enqueue_contents junk q v hq⟩
    · rw [he]
      simp only [q_enqueue_store]
      rw [hpinv.1.tail_eq]
    · rw [hpinv.1.len]
      exact Nat.mod_lt _ hpinv.1.cap_pos
    · intro i hi
      exact mod_shift_ne _ _ _ _ hi (by have := hpinv.2; omega)
  · intro n hn
    rw [(q_dequeue_n_spec n q hq hn).1]
    simp only [q_contents]
    rw [← List.map_take, List.take_range, Nat.min_eq_left hn]

/-- Instance of C19: the sample full queue. -/
theorem q_circular_invariant_witness :
    QReach q_sample_full ∧ q_sample_full.size ≤ q_sample_full.capacity ∧
    q_sample_full.tail
      = (q_sample_full.head + q_sample_full.size) % q_sample_full.capacity :=
  ⟨q_sample_full_reach,
    (q_circular_invariant ℚ q_sample_full q_sample_full_reach).1,
    (q_circular_invariant ℚ q_sample_full q_sample_full_reach).2.2.1⟩

/-! ## Hash table: load factor -/

theorem ht_insert_all_reach {α : Type} (kvs : List (Key × Dbl α)) :
    ∀ ht : HashTable α, HTReach ht → HTReach (ht_insert_all ht kvs) := by
  induction kvs with
  | nil => intro ht h; exact h
  | cons kv kvs ih => intro ht h; exact ih _ (HTReach.insert ht kv.1 kv.2 h)

theorem ht_sample_70_reach : HTReach ht_sample_70 :=
  ht_insert_all_reach _ _ HTReach.create

set_option maxRecDepth 1000000 in
theorem ht_sample_70_shape :
    (ht_insert ht_sample_70 [71] (Dbl.num 70)).count = 71 ∧
    (ht_insert ht_sample_70 [71] (Dbl.num 70)).capacity_table = 100 :=
  ⟨rfl, rfl⟩

theorem ht_insert_count_le {α : Type} (ht : HashTable α) (hh : HTInv ht)
    (k : Key) (v : Dbl α) :
    (ht_insert ht k v).count ≤ ht.count + 1 ∧
    (k ∈ (ht_entries ht).map Entry.key → (ht_insert ht k v).count = ht.count) := by
  obtain ⟨_, _, h3, h4⟩ := ht_insert_spec ht hh k v
  refine ⟨?_, h3⟩
  by_cases hk : k ∈ (ht_entries ht).map Entry.key
  · rw [h3 hk]; omega
  · rw [h4 hk]

theorem ht_delete_count_le {α : Type} (ht : HashTable α) (hh : HTInv ht) (k : Key) :
    (ht_delete ht k).2.count ≤ ht.count ∧
    (ht_delete ht k).2.capacity_table = ht.capacity_table := by
  by_cases hk : k ∈ (ht_entries ht).map Entry.key
  · obtain ⟨_, _, d3, d4, _⟩ := ht_delete_spec ht hh k hk
    exact ⟨by omega, d3⟩
  · rw [ht_delete_absent ht hh k hk]
    exact ⟨Nat.le_refl _, rfl⟩

/-- In a reachable table there are at least 100 buckets and the entries exceed
seven tenths of the buckets by at most one. -/
theorem ht_reach_load {α : Type} (ht : HashTable α) (h : HTReach ht) :
    100 ≤ ht.capacity_table ∧ 10 * ht.count ≤ 7 * ht.capacity_table + 10 := by
  induction h with
  | create => simp [ht_create, DEFAULT_SIZE]
  | insert ht k v hr ih =>
    have hh := ht_reach_inv ht hr
    have hc := ht_insert_capacity ht hh k v
    have hn := (ht_insert_count_le ht hh k v).1
    by_cases ho : ht_overloaded ht = true
    · rw [if_pos ho] at hc
      rw [hc]
      omega
    · rw [if_neg ho] at hc
      have hle : 10 * ht.count ≤ 7 * ht.capacity_table := by
        simpa [ht_overloaded] using ho
      rw [hc]
      omega
  | delete ht k hr ih =>
    have hh := ht_reach_inv ht hr
    obtain ⟨d1, d2⟩ := ht_delete_count_le ht hh k
    rw [d2]
    omega
  | search ht k _ ih => exact ih

/-- C20 as stated fails: inserting a 71st distinct key into the reachable table
that holds 70 keys in 100 buckets triggers no rehash (70 / 100 is not above
0.7) and leaves 71 entries in 100 buckets, above the threshold. -/
theorem ht_load_factor_exceeded :
    HTReach ht_sample_70 ∧
    (ht_insert ht_sample_70 [71] (Dbl.num 70)).count = 71 ∧
    (ht_insert ht_sample_70 [71] (Dbl.num 70)).capacity_table = 100 ∧
    ¬ (10 * (ht_insert ht_sample_70 [71] (Dbl.num 70)).count
        ≤ 7 * (ht_insert ht_sample_70 [71] (Dbl.num 70)).capacity_table) := by
  refine ⟨ht_sample_70_reach, ht_sample_70_shape.1, ht_sample_70_shape.2, ?_⟩
  rw [ht_sample_70_shape.1, ht_sample_70_shape.2]
  decide

/-- C20, amended. For every reachable table, immediately after any `ht_insert`
call completes the entries exceed seven tenths of the buckets by at most one:
`10 * (count - 1) <= 7 * capacity_table`.  The load factor is at most 0.7
whenever the call overwrote an existing key, and whenever the occupancy before
the call left room for one more entry. -/
theorem ht_load_factor_bound (α : Type) (t : HashTable α) (hr : HTReach t)
    (k : Key) (v : Dbl α) :
    10 * ((ht_insert t k v).count - 1) ≤ 7 * (ht_insert t k v).capacity_table ∧
    (k ∈ (ht_entries t).map Entry.key →
      10 * (ht_insert t k v).count ≤ 7 * (ht_insert t k v).capacity_table) ∧
    (10 * (t.count + 1) ≤ 7 * t.capacity_table →
      10 * (ht_insert t k v).count ≤ 7 * (ht_insert t k v).capacity_table) := by
  have hh := ht_reach_inv t hr
  obtain ⟨l1, l2⟩ := ht_reach_load t hr
  obtain ⟨m1, m2⟩ := ht_reach_load _ (HTReach.insert t k v hr)
  obtain ⟨n1, n2⟩ := ht_insert_count_le t hh k v
  have hc := ht_insert_capacity t hh k v
  refine ⟨by omega, ?_, ?_⟩
  · intro hk
    rw [n2 hk]
    by_cases ho : ht_overloaded t = true
    · rw [if_pos ho] at hc
      rw [hc]; omega
    · rw [if_neg ho] at hc
      have hle : 10 * t.count ≤ 7 * t.capacity_table := by
        simpa [ht_overloaded] using ho
      rw [hc]; exact hle
  · intro hroom
    by_cases ho : ht_overloaded t = true
    · rw [if_pos ho] at hc
      rw [hc]; omega
    · rw [if_neg ho] at hc
      rw [hc]; omega

/-- Instance of C20 amended: overwriting key "B" of the sample table. -/
theorem ht_load_factor_bound_witness :
    HTReach ht_sample ∧ [66] ∈ (ht_entries ht_sample).map Entry.key ∧
    10 * (ht_insert ht_sample [66] (Dbl.num 7)).count
      ≤ 7 * (ht_insert ht_sample [66] (Dbl.num 7)).capacity_table :=
  ⟨ht_sample_reach, by decide,
    (ht_load_factor_bound ℚ ht_sample ht_sample_reach [66] (Dbl.num 7)).2.1
      (by decide)⟩

/-! ## Hash table: rehash timing -/

theorem ht_insert_all_capacity_100 {α : Type} (kvs : List (Key × Dbl α)) :
    ∀ ht : HashTable α, HTInv ht → ht.capacity_table = 100 →
      ht.count + kvs.length ≤ 71 →
      (ht_insert_all ht kvs).capacity_table = 100 := by
  induction kvs with
  | nil => intro ht _ hc _; exact hc
  | cons kv kvs ih =>
    intro ht hh hc hn
    simp only [List.length_cons] at hn
    have hno : ¬ ht_overloaded ht = true := by
      simp only [ht_overloaded, decide_eq_true_eq]
      omega
    have hcap := ht_insert_capacity ht hh kv.1 kv.2
    rw [if_neg hno] at hcap
    have hcnt := (ht_insert_count_le ht hh kv.1 kv.2).1
    simp only [ht_insert_all]
    exact ih _ (ht_insert_spec ht hh kv.1 kv.2).1 (by rw [hcap, hc]) (by omega)

/-- C21 (rehash timing). For every reachable table, `ht_insert` doubles the
bucket capacity exactly when the occupancy before the insert satisfies
`10 * count > 7 * capacity_table`, and otherwise leaves the capacity unchanged,
whether the key is new or already present.  Hence, inserting 71 distinct keys
into a fresh table, the capacity is still 100 after each of the first 71
inserts, and any 72nd insert makes it 200. -/
theorem ht_rehash_timing :
    (∀ (α : Type) (t : HashTable α), HTReach t → ∀ (k : Key) (v : Dbl α),
      (10 * t.count > 7 * t.capacity_table →
        (ht_insert t k v).capacity_table = 2 * t.capacity_table) ∧
      (¬ 10 * t.count > 7 * t.capacity_table →
        (ht_insert t k v).capacity_table = t.capacity_table)) ∧
    (∀ (α : Type) (kvs : List (Key × Dbl α)), (kvs.map Prod.fst).Nodup →
      kvs.length = 71 →
      (∀ n, n ≤ 71 → (ht_insert_all ht_create (kvs.take n)).capacity_table = 100) ∧
      (ht_insert_all ht_create kvs).count = 71 ∧
      ∀ (k : Key) (v : Dbl α),
        (ht_insert (ht_insert_all ht_create kvs) k v).capacity_table = 200) := by
  refine ⟨?_, ?_⟩
  · intro α t hr k v
    have hc := ht_insert_capacity t (ht_reach_inv t hr) k v
    refine ⟨?_, ?_⟩
    · intro ho
      rw [if_pos (by simpa [ht_overloaded] using ho)] at hc
      exact hc
    · intro ho
      rw [if_neg (by simpa [ht_overloaded] using ho)] at hc
      exact hc
  · intro α kvs hnd hlen
    have hcnt : (ht_insert_all ht_create kvs).count = 71 := by
      rw [ht_insert_all_count kvs ht_create ht_create_inv hnd
        (by intro k _; simp [ht_entries, ht_create, flatten_replicate_nil]), hlen]
      rfl
    have hcap : ∀ n, n ≤ 71 →
        (ht_insert_all ht_create (kvs.take n)).capacity_table = 100 := by
      intro n hn
      apply ht_insert_all_capacity_100 _ _ ht_create_inv rfl
      have h0 : (ht_create : HashTable α).count = 0 := rfl
      rw [h0, List.length_take]
      omega
    refine ⟨hcap, hcnt, ?_⟩
    intro k v
    have hinv := (ht_insert_all_spec kvs ht_create ht_create_inv).1
    have h71 := hcap 71 (Nat.le_refl _)
    rw [List.take_of_length_le (by omega)] at h71
    have hc := ht_insert_capacity _ hinv k v
    have ho : ht_overloaded (ht_insert_all ht_create kvs) = true := by
      simp only [ht_overloaded, decide_eq_true_eq, hcnt, h71]
      decide
    rw [if_pos ho, h71] at hc
    exact hc

theorem ht_sample_71_nodup : ((ht_sample_writes.take 71).map Prod.fst).Nodup := by
  rw [List.map_take]
  exact ht_sample_writes_nodup.sublist (List.take_sublist _ _)

/-- Instance of C21: the sample table at the threshold (70 keys in 100
buckets, no rehash on insert), and the first 71 sample writes followed by a
72nd insert. -/
theorem ht_rehash_timing_witness :
    (HTReach ht_sample_70 ∧
      ¬ 10 * ht_sample_70.count > 7 * ht_sample_70.capacity_table ∧
      (ht_insert ht_sample_70 [71] (Dbl.num 70)).capacity_table
        = ht_sample_70.capacity_table) ∧
    (((ht_sample_writes.take 71).map Prod.fst).Nodup ∧
      (ht_sample_writes.take 71).length = 71 ∧
      (ht_insert (ht_insert_all ht_create (ht_sample_writes.take 71)) [72]
        (Dbl.num 71)).capacity_table = 200) := by
  have hno : ¬ 10 * ht_sample_70.count > 7 * ht_sample_70.capacity_table := by
    have hc : ht_sample_70.count = 70 := by
      have := ht_insert_all_count (ht_sample_writes.take 70) ht_create ht_create_inv
        (by rw [List.map_take]
            exact ht_sample_writes_nodup.sublist (List.take_sublist _ _))
        (by intro k _; simp [ht_entries, ht_create, flatten_replicate_nil])
      simpa [ht_sample_70, ht_sample_writes, ht_create] using this
    have hcap : ht_sample_70.capacity_table = 100 :=
      ht_insert_all_capacity_100 _ _ ht_create_inv rfl
        (by simp [ht_sample_writes, ht_create])
    rw [hc, hcap]
    decide
  have hlen : (ht_sample_writes.take 71).length = 71 := by
    simp [ht_sample_writes]
  exact ⟨⟨ht_sample_70_reach, hno,
      ((ht_rehash_timing.1 ℚ ht_sample_70 ht_sample_70_reach [71] (Dbl.num 70)).2 hno)⟩,
    ⟨ht_sample_71_nodup, hlen,
      (ht_rehash_timing.2 ℚ (ht_sample_writes.take 71) ht_sample_71_nodup hlen).2.2
        [72] (Dbl.num 71)⟩⟩

/-! ## Hash table: the hash function -/

theorem ht_hash_step_eq (h : Nat) (c : Int) :
    ht_hash_step h c = Int.toNat (((h : Int) * 33 + c) % 2 ^ 32) := by
  unfold ht_hash_step
  rw [Nat.shiftLeft_eq]
  congr 1
  norm_num
  omega

theorem ht_hash_step_nat (h b : Nat) :
    ht_hash_step h (b : Int) = (h * 33 + b) % 2 ^ 32 := by
  rw [ht_hash_step_eq]
  have hc : ((h : Int) * 33 + (b : Int)) % 2 ^ 32
      = (((h * 33 + b) % 2 ^ 32 : Nat) : Int) := by
    push_cast
    rfl
  rw [hc, Int.toNat_ofNat]

theorem ht_hash_unsigned_bytes (char_signed : Bool) (bytes : List Nat)
    (h : char_signed = false ∨ ∀ b ∈ bytes, b < 128) :
    ∀ acc : Nat,
      (key_of_bytes char_signed bytes).foldl ht_hash_step acc
        = bytes.foldl (fun acc c => (acc * 33 + c) % 2 ^ 32) acc := by
  induction bytes with
  | nil => intro acc; rfl
  | cons b bytes ih =>
    intro acc
    have hb : char_of_byte char_signed b = (b : Int) := by
      unfold char_of_byte
      rcases h with h | h
      · simp [h]
      · have := h b (List.mem_cons_self _ _)
        rw [if_neg (by omega)]
    have ih1 := ih (h.imp id (fun h b hb => h b (List.mem_cons_of_mem _ hb)))
    simp only [key_of_bytes, List.map_cons, List.foldl_cons] at ih1 ⊢
    rw [hb, ht_hash_step_nat]
    exact ih1 _

theorem bucket_at_set_ne {α : Type} (bs : List (List (Entry α))) (i j : Nat)
    (c : List (Entry α)) (hji : j ≠ i) : bucket_at (bs.set i c) j = bucket_at bs j := by
  simp [bucket_at, List.getD_eq_getElem?_getD, List.getElem?_set, hji, Ne.symm hji]

theorem ht_insert_place_capacity {α : Type} (t : HashTable α) (k : Key) (v : Dbl α) :
    (ht_insert_place t k v).capacity_table = t.capacity_table := by
  cases hcu : chain_update k v (bucket_at t.buckets (ht_hash k % t.capacity_table)) <;>
    simp only [ht_insert_place, hcu]

theorem ht_insert_place_other_bucket {α : Type} (t : HashTable α) (k : Key)
    (v : Dbl α) (b : Nat) (hb : b ≠ ht_hash k % t.capacity_table) :
    bucket_at (ht_insert_place t k v).buckets b = bucket_at t.buckets b := by
  cases hcu : chain_update k v (bucket_at t.buckets (ht_hash k % t.capacity_table)) <;>
    simp only [ht_insert_place, hcu] <;> exact bucket_at_set_ne _ _ _ _ hb

theorem ht_delete_other_bucket {α : Type} (t : HashTable α) (k : Key) (b : Nat)
    (hb : b ≠ ht_hash k % t.capacity_table) :
    bucket_at (ht_delete t k).2.buckets b = bucket_at t.buckets b := by
  cases hcu : chain_unlink k (bucket_at t.buckets (ht_hash k % t.capacity_table)) <;>
    simp only [ht_delete, hcu]
  exact bucket_at_set_ne _ _ _ _ hb

/-- C22 as stated fails where plain `char` is signed: the one-byte key with
byte 200 is read as the `char` value -56, and `ht_hash` returns 177517 instead
of the value 177773 obtained with the byte taken as unsigned. -/
theorem ht_hash_signed_char_differs :
    ht_hash (key_of_bytes true [200]) = 177517 ∧ djb2_unsigned [200] = 177773 ∧
    ht_hash (key_of_bytes true [200]) ≠ djb2_unsigned [200] := by
  decide

/-- C22, amended. For every key given as the sequence of its `char` values
`c_1..c_n`, `ht_hash` returns the value obtained by starting from 5381 and
applying `acc := (acc * 33 + c_j) mod 2^32`; the empty key hashes to 5381.
This is the value with every byte taken as unsigned when plain `char` is
unsigned or every byte is below 128.  The bucket used by `ht_search`,
`ht_insert` (after its load-factor check), `ht_delete` and `ht_rehash` is that
value modulo the current bucket capacity. -/
theorem ht_hash_djb2_chars :
    (∀ key : Key,
      ht_hash key
        = key.foldl (fun acc c => Int.toNat (((acc : Int) * 33 + c) % 2 ^ 32)) 5381) ∧
    ht_hash [] = 5381 ∧
    (∀ (char_signed : Bool) (bytes : List Nat),
      (char_signed = false ∨ ∀ b ∈ bytes, b < 128) →
      ht_hash (key_of_bytes char_signed bytes) = djb2_unsigned bytes) ∧
    (∀ (α : Type) (t : HashTable α) (k : Key),
      ht_search t k
        = (chain_search k (bucket_at t.buckets (ht_hash k % t.capacity_table)), t)) ∧
    (∀ (α : Type) (t : HashTable α) (k : Key) (v : Dbl α) (b : Nat),
      b ≠ ht_hash k % (ht_insert t k v).capacity_table →
      bucket_at (ht_insert t k v).buckets b
        = bucket_at (if ht_overloaded t = true then (ht_rehash t).2 else t).buckets b) ∧
    (∀ (α : Type) (t : HashTable α) (k : Key) (b : Nat),
      b ≠ ht_hash k % t.capacity_table →
      bucket_at (ht_delete t k).2.buckets b = bucket_at t.buckets b) ∧
    (∀ (α : Type) (t : HashTable α), HTReach t →
      ∀ b, b < (ht_rehash t).2.capacity_table →
        ∀ e ∈ bucket_at (ht_rehash t).2.buckets b,
          ht_hash e.key % (ht_rehash t).2.capacity_table = b) := by
  refine ⟨?_, rfl, ?_, fun _ _ _ => rfl, ?_, ?_, ?_⟩
  · intro key
    unfold ht_hash
    congr 1
    funext acc c
    exact ht_hash_step_eq acc c
  · intro cs bytes h
    exact ht_hash_unsigned_bytes cs bytes h 5381
  · intro α t k v b hb
    unfold ht_insert at hb ⊢
    rw [ht_insert_place_capacity] at hb
    exact ht_insert_place_other_bucket _ k v b hb
  · intro α t k b hb
    exact ht_delete_other_bucket t k b hb
  · intro α t hr
    exact (ht_rehash_spec t (ht_reach_inv t hr)).2.1.placed

/-- Instance of C22 amended: the key "Adam" on a platform with signed `char`,
and the rehash of the sample table. -/
theorem ht_hash_djb2_chars_witness :
    (∀ b ∈ [65, 100, 97, 109], b < 128) ∧
    ht_hash (key_of_bytes true [65, 100, 97, 109]) = 2088921720 ∧
    HTReach ht_sample ∧
    (∀ e ∈ bucket_at (ht_rehash ht_sample).2.buckets 38,
      ht_hash e.key % (ht_rehash ht_sample).2.capacity_table = 38) := by
  have h : ∀ b ∈ [65, 100, 97, 109], b < 128 := by decide
  refine ⟨h, ?_, ht_sample_reach,
    ht_hash_djb2_chars.2.2.2.2.2.2 ℚ ht_sample ht_sample_reach 38 (by decide)⟩
  rw [ht_hash_djb2_chars.2.2.1 true [65, 100, 97, 109] (Or.inr h)]
  decide

/-! ## Hash table: representation invariant -/

/-- C23 (hash table representation invariant). In every state reachable from
`ht_create` through `ht_insert`, `ht_delete` and `ht_search`, rehashes
included: no two entries of the whole table have equal keys, `count` equals the
total number of entries over all bucket chains, there are `capacity_table`
buckets, and every entry stored in bucket `b` satisfies
`ht_hash key mod capacity_table = b`. -/
theorem ht_representation_invariant (α : Type) (t : HashTable α) (hr : HTReach t) :
    ((ht_entries t).map Entry.key).Nodup ∧
    (ht_entries t).Pairwise (fun e1 e2 => e1.key ≠ e2.key) ∧
    t.count = (ht_entries t).length ∧
    t.count = (t.buckets.map List.length).sum ∧
    t.buckets.length = t.capacity_table ∧
    (∀ b, b < t.capacity_table → ∀ e ∈ bucket_at t.buckets b,
      ht_hash e.key % t.capacity_table = b) := by
  have hh := ht_reach_inv t hr
  refine ⟨hh.nodup, ?_, hh.count_eq, ?_, hh.len, hh.placed⟩
  · exact (List.pairwise_map.1 hh.nodup)
  · rw [hh.count_eq, ht_entries, List.length_flatten]

/-- Instance of C23: the sample table. -/
theorem ht_representation_invariant_witness :
    HTReach ht_sample ∧ ht_sample.count = (ht_entries ht_sample).length ∧
    ht_sample.buckets.length = ht_sample.capacity_table :=
  ⟨ht_sample_reach,
    (ht_representation_invariant ℚ ht_sample ht_sample_reach).2.2.1,
    (ht_representation_invariant ℚ ht_sample ht_sample_reach).2.2.2.2.1⟩

/-! ## Linked list: structural invariant -/

/-- C24 (linked-list structural invariant). In every state reachable from
`ll_create` through calls of `ll_insert_head`, `ll_insert_tail`,
`ll_insert_at`, `ll_remove_head`, `ll_remove_tail` and `ll_remove_at` that
return: following `next` from `head` exactly `size` times reaches NULL and no
fewer steps do, `head` is NULL iff `size = 0`, `tail` is NULL when `size = 0`,
and otherwise `tail` is the node reached after `size - 1` steps, its `next` is
NULL, and it is the only node reachable from `head` whose `next` is NULL. -/
theorem ll_structural_invariant (α : Type) (ll : LinkedList α) (hr : LLReach ll) :
    ll_at_loop ll.mem ll.size ll.head = some none ∧
    (∀ i, i < ll.size → ∃ a, ll_at_loop ll.mem i ll.head = some (some a)) ∧
    (ll.head = none ↔ ll.size = 0) ∧
    (ll.size = 0 → ll.tail = none) ∧
    (ll.size ≠ 0 → ∃ t tn, ll.tail = some t ∧
      ll_at_loop ll.mem (ll.size - 1) ll.head = some (some t) ∧
      node_at ll.mem t = some tn ∧ tn.next = none ∧
      ∀ i a n, i < ll.size → ll_at_loop ll.mem i ll.head = some (some a) →
        node_at ll.mem a = some n → n.next = none → a = t) := by
  obtain ⟨as, xs, inv⟩ := ll_reach_inv ll hr
  have hlen := chain_length _ _ _ _ inv.chain
  have hsz := inv.size_eq
  have hal : as.length = ll.size := by rw [hlen, hsz]
  have hat : ∀ i, i ≤ ll.size → ll_at_loop ll.mem i ll.head = some as[i]? :=
    fun i hi => chain_at _ _ _ _ inv.chain i (by omega)
  refine ⟨?_, ?_, ll_head_none_iff ll as xs inv, ?_, ?_⟩
  · rw [hat ll.size (Nat.le_refl _), List.getElem?_eq_none (by omega)]
  · intro i hi
    exact ⟨as[i], by rw [hat i (by omega), List.getElem?_eq_getElem (by omega)]⟩
  · intro h0
    have hnil : as = [] := List.eq_nil_of_length_eq_zero (by omega)
    rw [inv.tail_eq, hnil]
    rfl
  · intro hne
    have hlt : ll.size - 1 < as.length := by omega
    obtain ⟨t, hlast⟩ : ∃ t, as[ll.size - 1]? = some t :=
      ⟨as[ll.size - 1], List.getElem?_eq_getElem hlt⟩
    obtain ⟨tn, htn, _, hnext⟩ := chain_node _ _ _ _ inv.chain _ _ hlast
    refine ⟨t, tn, ?_, ?_, htn, ?_, ?_⟩
    · rw [inv.tail_eq, List.getLast?_eq_getElem?, hal, hlast]
    · rw [hat _ (by omega), hlast]
    · rw [hnext]
      exact List.getElem?_eq_none (by omega)
    · intro i a n hi hia hn hnone
      rw [hat i (by omega)] at hia
      have hia1 : as[i]? = some a := Option.some.inj hia
      obtain ⟨n1, hn1, _, hnx⟩ := chain_node _ _ _ _ inv.chain i a hia1
      rw [hn] at hn1
      cases hn1
      rw [hnone] at hnx
      have hle : as.length ≤ i + 1 := List.getElem?_eq_none_iff.1 hnx.symm
      have hi1 : i = ll.size - 1 := by omega
      subst hi1
      rw [hlast] at hia1
      exact (Option.some.inj hia1).symm

/-- Instance of C24: the sample list [1, 2], whose tail is the node at
address 1. -/
theorem ll_structural_invariant_witness :
    LLReach ll_sample ∧ ll_sample.size ≠ 0 ∧
    ll_at_loop ll_sample.mem ll_sample.size ll_sample.head = some none ∧
    ∃ t tn, ll_sample.tail = some t ∧ node_at ll_sample.mem t = some tn ∧
      tn.next = none := by
  obtain ⟨h1, _, _, _, h5⟩ := ll_structural_invariant ℚ ll_sample ll_sample_reach
  obtain ⟨t, tn, e1, _, e3, e4, _⟩ := h5 (by decide)
  exact ⟨ll_sample_reach, by decide, h1, t, tn, e1, e3, e4⟩

/-! ## Stack and heap: growth of the backing storage -/

theorem s_create_grow {α : Type} (junk : Dbl α) : SGrow (s_create junk) :=
  ⟨by simp [s_create], by simp [s_create], ⟨0, by simp [s_create]⟩⟩

theorem s_push_capacity {α : Type} (junk : Dbl α) (s : Stack α) (v : Dbl α) :
    (s_push junk s v).2.capacity
      = if s.top ≥ s.capacity then 2 * s.capacity else s.capacity := by
  rw [s_push_eq]
  split
  · simp only [s_push_store, s_resize]; omega
  · rfl

theorem s_push_cells {α : Type} (junk : Dbl α) (s : Stack α) (v : Dbl α)
    (hs : SGrow s) (i : Nat) (hi : i < s.top) :
    rd (s_push junk s v).2.data i = rd s.data i := by
  have h1 := hs.len
  have h2 := hs.top_le
  rw [s_push_eq]
  split
  · simp only [s_push_store, s_resize]
    rw [rd_wr_ne _ _ _ _ (by omega), rd_realloc _ _ _ _ (by omega) (by omega)]
  · simp only [s_push_store]
    rw [rd_wr_ne _ _ _ _ (by omega)]

theorem s_push_grow {α : Type} (junk : Dbl α) (s : Stack α) (v : Dbl α)
    (hs : SGrow s) : SGrow (s_push junk s v).2 := by
  have h1 := hs.len
  have h2 := hs.top_le
  obtain ⟨k, hk⟩ := hs.cap_pow
  have hpos : 0 < s.capacity := by
    rw [hk]; exact Nat.mul_pos (by decide) (Nat.pos_pow_of_pos k (by decide))
  rw [s_push_eq]
  split
  · refine ⟨?_, ?_, ⟨k + 1, ?_⟩⟩
    · simp [s_push_store, s_resize, length_wr, length_realloc]
    · simp only [s_push_store, s_resize]; omega
    · simp only [s_push_store, s_resize]
      rw [hk, pow_succ, Nat.mul_assoc]
  · refine ⟨?_, ?_, ⟨k, hk⟩⟩
    · simp [s_push_store, length_wr, h1]
    · simp only [s_push_store]; omega

theorem s_pop_capacity {α : Type} (s : Stack α) :
    (s_pop s).2.capacity = s.capacity := by
  unfold s_pop; split <;> rfl

theorem s_pop_grow {α : Type} (s : Stack α) (hs : SGrow s) : SGrow (s_pop s).2 := by
  have h2 := hs.top_le
  unfold s_pop
  split
  · exact hs
  · exact ⟨hs.len, by simp only; omega, hs.cap_pow⟩

theorem s_reach_grow {α : Type} (s : Stack α) (h : SReach s) : SGrow s := by
  induction h with
  | create junk => exact s_create_grow junk
  | push junk s v _ ih => exact s_push_grow junk s v ih
  | pop s _ ih => exact s_pop_grow s ih
  | peek s _ ih => rw [s_peek_state]; exact ih

theorem s_push_all_reach {α : Type} (junk : Dbl α) (vs : List (Dbl α)) :
    ∀ s : Stack α, SReach s → SReach (s_push_all junk s vs) := by
  induction vs with
  | nil => intro s hs; exact hs
  | cons v vs ih => intro s hs; exact ih _ (SReach.push junk s v hs)

theorem s_sample_full_reach : SReach s_sample_full :=
  s_push_all_reach _ _ _ (SReach.create _)

set_option maxRecDepth 100000 in
theorem s_sample_full_shape :
    s_sample_full.top = 100 ∧ s_sample_full.capacity = 100 :=
  ⟨rfl, rfl⟩

theorem h_create_grow {α : Type} (junk : Dbl α) : HGrow (h_create junk) :=
  ⟨by simp [h_create], by simp [h_create], ⟨0, by simp [h_create]⟩⟩

theorem h_resize_cells {α : Type} (junk : Dbl α) (h : Heap α) (hh : HGrow h) :
    (h_resize junk h).2.size = h.size ∧
    (h_resize junk h).2.capacity = 2 * h.capacity ∧
    ∀ i, i < h.size → rd (h_resize junk h).2.data i = rd h.data i := by
  have h1 := hh.len
  have h2 := hh.size_le
  refine ⟨rfl, by simp only [h_resize]; omega, ?_⟩
  intro i hi
  simp only [h_resize]
  exact rd_realloc _ _ _ _ (by omega) (by omega)

theorem h_resize_grow {α : Type} (junk : Dbl α) (h : Heap α) (hh : HGrow h) :
    HGrow (h_resize junk h).2 := by
  have h2 := hh.size_le
  obtain ⟨k, hk⟩ := hh.cap_pow
  refine ⟨by simp [h_resize, length_realloc], by simp only [h_resize]; omega,
    ⟨k + 1, ?_⟩⟩
  simp only [h_resize]
  rw [hk, pow_succ, Nat.mul_assoc]

theorem h_insert_store_frame {α : Type} [LinearOrder α] (h : Heap α) (v : Dbl α)
    (hlen : h.data.length = h.capacity) (hlt : h.size < h.capacity) :
    (h_insert_store h v).size = h.size + 1 ∧
    (h_insert_store h v).capacity = h.capacity ∧
    (h_insert_store h v).data.length = h.data.length ∧
    (h_contents (h_insert_store h v)).Perm (h_contents h ++ [v]) := by
  have hc : h_contents { h with data := wr h.data h.size v, size := h.size + 1 }
      = h_contents h ++ [v] := by
    simp only [h_contents, List.range_succ, List.map_append, List.map_cons,
      List.map_nil]
    congr 1
    · apply List.map_congr_left
      intro i hi
      rw [List.mem_range] at hi
      rw [rd_wr_ne _ _ _ _ (by omega)]
    · rw [rd_wr_eq _ _ _ (by omega)]
  obtain ⟨f1, f2, f3, f4⟩ :=
    h_sift_up_frame h.size { h with data := wr h.data h.size v, size := h.size + 1 }
      (by simp only; omega) (by simp only [length_wr]; omega)
  rw [hc] at f4
  unfold h_insert_store
  simp only at f1 f2 f3 ⊢
  exact ⟨f1, f2, by rw [f3, length_wr], f4⟩

theorem h_insert_frame {α : Type} [LinearOrder α] (junk : Dbl α) (h : Heap α)
    (v : Dbl α) (hh : HGrow h) :
    HGrow (h_insert junk h v) ∧
    (h_insert junk h v).size = h.size + 1 ∧
    (h_insert junk h v).capacity
      = (if h.size ≥ h.capacity then 2 * h.capacity else h.capacity) ∧
    (h_contents (h_insert junk h v)).Perm (h_contents h ++ [v]) := by
  have h1 := hh.len
  have h2 := hh.size_le
  obtain ⟨k, hk⟩ := hh.cap_pow
  have hpos : 0 < h.capacity := by
    rw [hk]; exact Nat.mul_pos (by decide) (Nat.pos_pow_of_pos k (by decide))
  rw [h_insert_eq]
  split
  · have hg := h_resize_grow junk h hh
    obtain ⟨r1, r2, r3⟩ := h_resize_cells junk h hh
    obtain ⟨g1, g2, g3, g4⟩ := h_insert_store_frame (h_resize junk h).2 v hg.len
      (by rw [r1, r2]; omega)
    have hcont : h_contents (h_resize junk h).2 = h_contents h := by
      simp only [h_contents, r1]
      apply List.map_congr_left
      intro j hj
      rw [List.mem_range] at hj
      exact r3 j hj
    rw [hcont] at g4
    refine ⟨⟨by rw [g3, g2]; exact hg.len, by rw [g1, g2, r1, r2]; omega, ?_⟩,
      by rw [g1, r1], by rw [g2, r2], g4⟩
    rw [g2]; exact hg.cap_pow
  · obtain ⟨g1, g2, g3, g4⟩ := h_insert_store_frame h v h1 (by omega)
    exact ⟨⟨by rw [g3, g2]; exact h1, by rw [g1, g2]; omega, by rw [g2]; exact ⟨k, hk⟩⟩,
      g1, g2, g4⟩

theorem h_pop_max_frame {α : Type} [LinearOrder α] (h : Heap α) (hh : HGrow h) :
    HGrow (h_pop_max h).2 ∧ (h_pop_max h).2.capacity = h.capacity := by
  have h1 := hh.len
  have h2 := hh.size_le
  by_cases hs : h.size = 0
  · rw [h_pop_max_empty h hs]; exact ⟨hh, rfl⟩
  · by_cases hs1 : h.size - 1 = 0
    · have he : (h_pop_max h).2
          = { h with data := wr h.data 0 (rd h.data (h.size - 1)),
                     size := h.size - 1 } := by
        simp only [h_pop_max, if_neg hs]
        rw [h_max_heapify, if_pos hs1]
      rw [he]
      exact ⟨⟨by simp only [length_wr]; exact h1, by simp only; omega, hh.cap_pow⟩, rfl⟩
    · obtain ⟨f1, f2, f3, _⟩ := h_max_heapify_frame (h.size - 1 - 0)
        { h with data := wr h.data 0 (rd h.data (h.size - 1)), size := h.size - 1 }
        0 rfl (by simp only; omega) (by simp only [length_wr]; omega)
      simp only [h_pop_max, if_neg hs]
      simp only at f1 f2 f3
      exact ⟨⟨by rw [f3, f2, length_wr]; exact h1, by rw [f1, f2]; omega,
        by rw [f2]; exact hh.cap_pow⟩, f2⟩

theorem h_reach_grow {α : Type} [LinearOrder α] (h : Heap α) (hr : HReachAll h) :
    HGrow h := by
  induction hr with
  | create junk => exact h_create_grow junk
  | insert junk h v _ ih => exact (h_insert_frame junk h v ih).1
  | pop_max h _ ih => exact (h_pop_max_frame h ih).1
  | peek h _ ih => exact ih

theorem h_insert_all_frame {α : Type} [LinearOrder α] (junk : Dbl α)
    (vs : List (Dbl α)) :
    ∀ h : Heap α, HReachAll h → h.size + vs.length ≤ h.capacity →
      HReachAll (h_insert_all junk h vs) ∧
      (h_insert_all junk h vs).size = h.size + vs.length ∧
      (h_insert_all junk h vs).capacity = h.capacity := by
  induction vs with
  | nil => intro h hr _; exact ⟨hr, rfl, rfl⟩
  | cons v vs ih =>
    intro h hr hle
    rw [List.length_cons] at hle
    obtain ⟨_, g2, g3, _⟩ := h_insert_frame junk h v (h_reach_grow h hr)
    rw [if_neg (by omega)] at g3
    obtain ⟨k1, k2, k3⟩ := ih (h_insert junk h v) (HReachAll.insert junk h v hr)
      (by rw [g2, g3]; omega)
    simp only [h_insert_all]
    exact ⟨k1, by rw [k2, g2, List.length_cons]; omega, by rw [k3, g3]⟩

theorem h_sample_full_shape :
    HReachAll h_sample_full ∧ h_sample_full.size = 100 ∧
    h_sample_full.capacity = 100 := by
  obtain ⟨h1, h2, h3⟩ := h_insert_all_frame Dbl.nan (List.replicate 100 (Dbl.num (7 : ℚ)))
    (h_create Dbl.nan) (HReachAll.create _)
    (by simp [h_create, DEFAULT_SIZE])
  refine ⟨h1, ?_, ?_⟩
  · rw [show h_sample_full.size = _ from h2]; simp [h_create]
  · rw [show h_sample_full.capacity = _ from h3]; simp [h_create, DEFAULT_SIZE]

/-- C25 (doubling growth policy of the array-backed stack and heap). In every
stack state reachable from `s_create` through `s_push`, `s_pop`, `s_peek`, and
every heap state reachable from `h_create` through `h_insert` (of any double),
`h_pop_max`, `h_peek`: count `<=` capacity and capacity `= 100 * 2^k` for some
`k`; `s_push` (resp. `h_insert`) leaves capacity unchanged unless it is called
with count `= capacity`, and then the new capacity is exactly twice the old
one; the previously live cells `data[0..count)` are preserved: cell by cell by
`s_push`, cell by cell by the growth step `h_resize` after which `h_insert`
stores and sifts up as in the case without growth, so that the live elements
after `h_insert` are the previous ones plus the inserted value; `s_pop`,
`s_peek`, `h_pop_max` and `h_peek` leave capacity unchanged. -/
theorem doubling_growth_policy (α : Type) [LinearOrder α] :
    (∀ s : Stack α, SReach s →
      s.top ≤ s.capacity ∧ (∃ k, s.capacity = 100 * 2 ^ k) ∧
      (∀ (junk v : Dbl α),
        (s.top ≠ s.capacity → (s_push junk s v).2.capacity = s.capacity) ∧
        (s.top = s.capacity → (s_push junk s v).2.capacity = 2 * s.capacity) ∧
        (∀ i, i < s.top → rd (s_push junk s v).2.data i = rd s.data i)) ∧
      (s_pop s).2.capacity = s.capacity ∧
      (s_peek s).2.capacity = s.capacity) ∧
    (∀ h : Heap α, HReachAll h →
      h.size ≤ h.capacity ∧ (∃ k, h.capacity = 100 * 2 ^ k) ∧
      (∀ (junk v : Dbl α),
        (h.size ≠ h.capacity → (h_insert junk h v).capacity = h.capacity) ∧
        (h.size = h.capacity →
          (h_insert junk h v).capacity = 2 * h.capacity ∧
          h_insert junk h v = h_insert_store (h_resize junk h).2 v ∧
          (h_resize junk h).2.size = h.size ∧
          (h_resize junk h).2.capacity = 2 * h.capacity ∧
          ∀ i, i < h.size → rd (h_resize junk h).2.data i = rd h.data i) ∧
        (h_insert junk h v).size = h.size + 1 ∧
        (h_contents (h_insert junk h v)).Perm (h_contents h ++ [v])) ∧
      (h_pop_max h).2.capacity = h.capacity ∧
      (h_peek h).2.capacity = h.capacity) := by
  constructor
  · intro s hr
    have hg := s_reach_grow s hr
    have h2 := hg.top_le
    refine ⟨h2, hg.cap_pow, ?_, s_pop_capacity s, by rw [s_peek_state]⟩
    intro junk v
    refine ⟨?_, ?_, s_push_cells junk s v hg⟩
    · intro hne
      rw [s_push_capacity, if_neg (by omega)]
    · intro he
      rw [s_push_capacity, if_pos (by omega)]
  · intro h hr
    have hg := h_reach_grow h hr
    have h2 := hg.size_le
    refine ⟨h2, hg.cap_pow, ?_, (h_pop_max_frame h hg).2, rfl⟩
    intro junk v
    obtain ⟨_, g2, g3, g4⟩ := h_insert_frame junk h v hg
    refine ⟨?_, ?_, g2, g4⟩
    · intro hne
      rw [g3, if_neg (by omega)]
    · intro he
      obtain ⟨r1, r2, r3⟩ := h_resize_cells junk h hg
      refine ⟨by rw [g3, if_pos (by omega)], ?_, r1, r2, r3⟩
      rw [h_insert_eq, if_pos (by omega)]

/-- Instance of C25: pushing onto the full sample stack (100 of 100 cells
live) and inserting into the full sample heap doubles the capacity to 200. -/
theorem doubling_growth_policy_witness :
    SReach s_sample_full ∧ s_sample_full.top = s_sample_full.capacity ∧
    (s_push Dbl.nan s_sample_full (Dbl.num 8)).2.capacity = 200 ∧
    HReachAll h_sample_full ∧ h_sample_full.size = h_sample_full.capacity ∧
    (h_insert Dbl.nan h_sample_full (Dbl.num 8)).capacity = 200 := by
  obtain ⟨hs, hh⟩ := doubling_growth_policy ℚ
  obtain ⟨t1, t2⟩ := s_sample_full_shape
  obtain ⟨r, z1, z2⟩ := h_sample_full_shape
  obtain ⟨_, _, hp, _, _⟩ := hs s_sample_full s_sample_full_reach
  obtain ⟨_, _, hi, _, _⟩ := hh h_sample_full r
  refine ⟨s_sample_full_reach, by rw [t1, t2], ?_, r, by rw [z1, z2], ?_⟩
  · rw [(hp Dbl.nan (Dbl.num 8)).2.1 (by rw [t1, t2]), t2]
  · rw [((hi Dbl.nan (Dbl.num 8)).2.1 (by rw [z1, z2])).1, z2]

end DSLib
